import Mathlib

/-! sevenzip: merged reader, key derivation and stream pool.

A shallow embedding of `internal/util/reader.go`, `internal/aes7z/key.go` and
`pool.go`, with the properties of the specification proved about it.
-/

namespace Sevenzip

/-! ## Common vocabulary -/

/-- A byte. -/
abbrev Byte := Fin 256

/-- Go `error` values that the embedded code can see.  `nil` is `none` of
`Option Error`.  `io.EOF` and `io.ErrUnexpectedEOF` are distinct sentinels;
any other error a source produces is `other code`. -/
inductive Error where
  | EOF
  | ErrUnexpectedEOF
  | other (code : Nat)
  deriving DecidableEq

/-- Two's complement wrap-around of an `int64` result. -/
def wrap64 (x : Int) : Int :=
  (x + 9223372036854775808) % 18446744073709551616 - 9223372036854775808

/-! ## `internal/util/reader.go`: the merged reader -/

namespace Util

/-- What one `ReadAt(p, off)` call on a segment source does: `data` is what
the source stores at the start of `p`, `n` and `err` are its results. -/
structure ReadResult where
  data : List Byte
  n : Int
  err : Option Error
  deriving DecidableEq

/-- The interface `SizeReaderAt`: `ReadAt len off` is the call
`ReadAt(p, off)` with `len(p) = len`. -/
structure SizeReaderAt where
  Size : Int
  ReadAt : Nat → Int → ReadResult

/-- The struct `offsetAndSource`. -/
structure offsetAndSource where
  off : Int
  src : SizeReaderAt

/-- The struct `multiRA`. -/
structure multiRA where
  parts : List offsetAndSource
  size : Int

/-- The loop of `NewMultiReaderAt`: every part is paired with the running
offset `off`, then `off += p.Size()` in `int64`. -/
def appendParts : Int → List SizeReaderAt → List offsetAndSource × Int
  | off, [] => ([], off)
  | off, p :: ps =>
    let r := appendParts (wrap64 (off + p.Size)) ps
    (⟨off, p⟩ :: r.1, r.2)

/-- The constructor `NewMultiReaderAt`. -/
def NewMultiReaderAt (parts : List SizeReaderAt) : multiRA :=
  let r := appendParts 0 parts
  { parts := r.1, size := r.2 }

/-- The method `multiRA.Size`. -/
def multiRA.Size (m : multiRA) : Int := m.size

/-- The loop of Go's `sort.Search`: binary search on `[i, j)`, with
`h = (i + j) / 2`.  The fuel bounds the number of halvings. -/
def searchLoop (f : Nat → Bool) : Nat → Nat → Nat → Nat
  | 0, i, _ => i
  | fuel + 1, i, j =>
    if i < j then
      let h := (i + j) / 2
      if !f h then searchLoop f fuel (h + 1) j else searchLoop f fuel i h
    else i

/-- Go's `sort.Search(n, f)`. -/
def Search (n : Nat) (f : Nat → Bool) : Nat := searchLoop f n 0 n

/-- The closure passed to `sort.Search` in `ReadAt`:
`part.off+part.Size() > off` for `part = m.parts[i]`. -/
def contributes (m : multiRA) (off : Int) (i : Nat) : Bool :=
  match m.parts.get? i with
  | some part => decide (wrap64 (part.off + part.src.Size) > off)
  | none => false

/-- One segment read issued by `ReadAt`: the index of the segment in
`m.parts`, the length of the buffer handed to it, the offset, the result. -/
structure ReadRec where
  idx : Nat
  len : Nat
  off : Int
  res : ReadResult
  deriving DecidableEq

/-- How a call ended: it returned, it panicked (a slice bound out of range),
or the model ran out of fuel while the loop condition still held. -/
inductive Status where
  | returned
  | panicked
  | outOfFuel
  deriving DecidableEq

/-- The observable result of `ReadAt`: results `n` and `err`, the buffer
contents afterwards, and the segment reads issued, in order. -/
structure Outcome where
  status : Status
  n : Int
  err : Option Error
  buf : List Byte
  log : List ReadRec
  deriving DecidableEq

/-- The variables of the `for` loop of `ReadAt`: `parts` with the index of
its head in `m.parts`, the part of the buffer before `p` (`done`), `p`, `n`,
`needSkip`, and the reads issued so far. -/
structure LoopState where
  idx : Nat
  parts : List offsetAndSource
  done : List Byte
  p : List Byte
  n : Int
  needSkip : Int
  log : List ReadRec

/-- Storing `data` at the start of the buffer `p`. -/
def store (data p : List Byte) : List Byte :=
  data.take p.length ++ p.drop data.length

/-- The statements after the loop: `if n != wantN { err = io.ErrUnexpectedEOF }`. -/
def finish (wantN : Nat) (s : LoopState) : Outcome :=
  { status := .returned, n := s.n,
    err := if s.n ≠ (wantN : Int) then some .ErrUnexpectedEOF else none,
    buf := s.done ++ s.p, log := s.log }

/-- A run-time panic inside the loop. -/
def panicAt (s : LoopState) (log : List ReadRec) : Outcome :=
  { status := .panicked, n := s.n, err := none, buf := s.done ++ s.p, log := log }

/-- One execution of the loop body on a non-empty `parts` and non-empty `p`:
either the call ends (`Sum.inl`) or the loop goes on (`Sum.inr`). -/
def loopBody (s : LoopState) (part : offsetAndSource) (rest : List offsetAndSource) :
    Outcome ⊕ LoopState :=
  let partSize := part.src.Size
  let avail := wrap64 (partSize - s.needSkip)
  -- if int64(len(readP)) > partSize-needSkip { readP = readP[:partSize-needSkip] }
  if (s.p.length : Int) > avail ∧ avail < 0 then
    .inl (panicAt s s.log)
  else
    let readLen : Nat := if (s.p.length : Int) > avail then avail.toNat else s.p.length
    -- pn, err0 := parts[0].ReadAt(readP, needSkip)
    let r := part.src.ReadAt readLen s.needSkip
    let p1 := store (r.data.take readLen) s.p
    let log1 := s.log ++ [⟨s.idx, readLen, s.needSkip, r⟩]
    if r.err ≠ none then
      .inl { status := .returned, n := s.n, err := r.err, buf := s.done ++ p1, log := log1 }
    else
      -- n += pn; p = p[pn:]
      if r.n < 0 ∨ (s.p.length : Int) < r.n then
        .inl (panicAt { s with p := p1 } log1)
      else
        let pn := r.n.toNat
        let s1 : LoopState :=
          { s with done := s.done ++ p1.take pn, p := p1.drop pn, n := s.n + r.n,
                   needSkip := 0, log := log1 }
        -- if int64(pn)+needSkip == partSize { parts = parts[1:] }
        if wrap64 (r.n + s.needSkip) = partSize then
          .inr { s1 with idx := s.idx + 1, parts := rest }
        else
          .inr s1

/-- The loop `for len(parts) > 0 && len(p) > 0` of `ReadAt`, with fuel. -/
def readLoop (wantN : Nat) : Nat → LoopState → Outcome
  | 0, s =>
    match s.parts, s.p with
    | [], _ => finish wantN s
    | _ :: _, [] => finish wantN s
    | _ :: _, _ :: _ =>
      { status := .outOfFuel, n := s.n, err := none, buf := s.done ++ s.p, log := s.log }
  | fuel + 1, s =>
    match s.parts, s.p with
    | [], _ => finish wantN s
    | _ :: _, [] => finish wantN s
    | part :: rest, _ :: _ =>
      match loopBody s part rest with
      | .inl out => out
      | .inr s1 => readLoop wantN fuel s1

/-- The method `multiRA.ReadAt(p, off)`; `p` is the buffer's contents at the
call. -/
def multiRA.ReadAt (m : multiRA) (fuel : Nat) (p : List Byte) (off : Int) : Outcome :=
  let wantN := p.length
  let skipParts := Search m.parts.length (contributes m off)
  let parts := m.parts.drop skipParts
  -- needSkip := off; if len(parts) > 0 { needSkip -= parts[0].off }
  let needSkip :=
    match parts with
    | [] => off
    | part :: _ => wrap64 (off - part.off)
  readLoop wantN fuel
    { idx := skipParts, parts := parts, done := [], p := p, n := 0,
      needSkip := needSkip, log := [] }

/-- A segment source over the bytes `data`, behaving like `bytes.Reader`: it
delivers `min(len, size-off)` bytes and reports `io.EOF` when that is fewer
than asked, and an error for a negative offset. -/
def bytesSource (data : List Byte) : SizeReaderAt where
  Size := data.length
  ReadAt len off :=
    if off < 0 then ⟨[], 0, some (.other 0)⟩
    else
      let chunk := (data.drop off.toNat).take len
      ⟨chunk, chunk.length, if chunk.length < len then some .EOF else none⟩

/-- A segment source of the given size whose every read fails with `e`
after storing nothing. -/
def failingSource (size : Int) (e : Error) : SizeReaderAt where
  Size := size
  ReadAt _ _ := ⟨[], 0, some e⟩

/-- A source is well behaved over the bytes `d`: its size is `len(d)`, a read
of `len` bytes at `off` within the data delivers `min(len, size-off)` bytes
of `d`, and reports an error only when that is fewer than `len`. -/
def Serves (s : SizeReaderAt) (d : List Byte) : Prop :=
  s.Size = d.length ∧
  ∀ (len : Nat) (off : Nat), off ≤ d.length →
    (s.ReadAt len off).data = (d.drop off).take len ∧
    (s.ReadAt len off).n = ((min len (d.length - off) : Nat) : Int) ∧
    ((s.ReadAt len off).err ≠ none → min len (d.length - off) < len)

/-- The sum of the sizes of a list of sources. -/
def sumSizes (srcs : List SizeReaderAt) : Int := (srcs.map (fun s => s.Size)).sum

/-- The sizes of the sources are non-negative and their total fits `int64`,
so that no offset computed by the merged reader wraps around. -/
def WellSized (srcs : List SizeReaderAt) : Prop :=
  (∀ s ∈ srcs, 0 ≤ s.Size) ∧ sumSizes srcs < 9223372036854775808

end Util
end Sevenzip

namespace Sevenzip

/-! ## `crypto/sha256`, as `key.go` uses it -/

namespace Sha256

/-- The byte `n mod 256`. -/
def byteOf (n : Nat) : Byte := ⟨n % 256, Nat.mod_lt _ (by decide)⟩

/-- A 32-bit word rotated right by `n` bits. -/
def rotr (x n : Nat) : Nat := ((x >>> n) ||| (x <<< (32 - n))) % 4294967296

/-- The round constants of SHA-256. -/
def K : List Nat :=
  [0x428a2f98, 0x71374491, 0xb5c0fbcf, 0xe9b5dba5, 0x3956c25b, 0x59f111f1, 0x923f82a4, 0xab1c5ed5,
   0xd807aa98, 0x12835b01, 0x243185be, 0x550c7dc3, 0x72be5d74, 0x80deb1fe, 0x9bdc06a7, 0xc19bf174,
   0xe49b69c1, 0xefbe4786, 0x0fc19dc6, 0x240ca1cc, 0x2de92c6f, 0x4a7484aa, 0x5cb0a9dc, 0x76f988da,
   0x983e5152, 0xa831c66d, 0xb00327c8, 0xbf597fc7, 0xc6e00bf3, 0xd5a79147, 0x06ca6351, 0x14292967,
   0x27b70a85, 0x2e1b2138, 0x4d2c6dfc, 0x53380d13, 0x650a7354, 0x766a0abb, 0x81c2c92e, 0x92722c85,
   0xa2bfe8a1, 0xa81a664b, 0xc24b8b70, 0xc76c51a3, 0xd192e819, 0xd6990624, 0xf40e3585, 0x106aa070,
   0x19a4c116, 0x1e376c08, 0x2748774c, 0x34b0bcb5, 0x391c0cb3, 0x4ed8aa4a, 0x5b9cca4f, 0x682e6ff3,
   0x748f82ee, 0x78a5636f, 0x84c87814, 0x8cc70208, 0x90befffa, 0xa4506ceb, 0xbef9a3f7, 0xc67178f2]

/-- The initial hash value of SHA-256. -/
def init : List Nat :=
  [0x6a09e667, 0xbb67ae85, 0x3c6ef372, 0xa54ff53a, 0x510e527f, 0x9b05688c, 0x1f83d9ab, 0x5be0cd19]

/-- The big-endian 32-bit word at byte position `4 * t` of a chunk. -/
def be32 (chunk : List Byte) (t : Nat) : Nat :=
  (chunk.getD (4 * t) 0).val * 16777216 + (chunk.getD (4 * t + 1) 0).val * 65536
    + (chunk.getD (4 * t + 2) 0).val * 256 + (chunk.getD (4 * t + 3) 0).val

/-- The message schedule, extended by `n` words. -/
def schedule : Nat → List Nat → List Nat
  | 0, w => w
  | n + 1, w =>
    let t := w.length
    let w15 := w.getD (t - 15) 0
    let w2 := w.getD (t - 2) 0
    let s0 := (rotr w15 7 ^^^ rotr w15 18) ^^^ (w15 >>> 3)
    let s1 := (rotr w2 17 ^^^ rotr w2 19) ^^^ (w2 >>> 10)
    schedule n (w ++ [(w.getD (t - 16) 0 + s0 + w.getD (t - 7) 0 + s1) % 4294967296])

/-- One round of the compression function on the working variables
`[a, b, c, d, e, f, g, h]`, with `kw = K[t] + W[t]`. -/
def round (v : List Nat) (kw : Nat) : List Nat :=
  match v with
  | [a, b, c, d, e, f, g, h] =>
    let S1 := (rotr e 6 ^^^ rotr e 11) ^^^ rotr e 25
    let ch := (e &&& f) ^^^ ((4294967295 - e) &&& g)
    let t1 := (h + S1 + ch + kw) % 4294967296
    let S0 := (rotr a 2 ^^^ rotr a 13) ^^^ rotr a 22
    let maj := ((a &&& b) ^^^ (a &&& c)) ^^^ (b &&& c)
    let t2 := (S0 + maj) % 4294967296
    [(t1 + t2) % 4294967296, a, b, c, (d + t1) % 4294967296, e, f, g]
  | _ => v

/-- The compression of one 64-byte chunk into the hash value `h`. -/
def block (h : List Nat) (chunk : List Byte) : List Nat :=
  let w := schedule 48 ((List.range 16).map (be32 chunk))
  let v := (List.zipWith (fun k x => k + x) K w).foldl round h
  List.zipWith (fun x y => (x + y) % 4294967296) h v

/-- The struct `digest`: the hash value `h`, the bytes `x` not yet
compressed (Go's `x[:nx]`), and the number of bytes written, a `uint64`. -/
structure digest where
  h : List Nat
  x : List Byte
  len : Nat
  deriving DecidableEq

/-- The call `sha256.New()`. -/
def New : digest := { h := init, x := [], len := 0 }

/-- Compressing the first `k` chunks of `xs`: the hash value and the bytes
that are left. -/
def absorbN : Nat → List Nat → List Byte → List Nat × List Byte
  | 0, h, xs => (h, xs)
  | k + 1, h, xs => absorbN k (block h (xs.take 64)) (xs.drop 64)

/-- Compressing all the whole chunks of `xs`. -/
def absorb (h : List Nat) (xs : List Byte) : List Nat × List Byte :=
  absorbN (xs.length / 64) h xs

/-- The method `digest.Write`: the pending bytes followed by `p` are
compressed chunk by chunk, and what does not fill a chunk stays pending. -/
def digest.Write (d : digest) (p : List Byte) : digest :=
  let r := absorb d.h (d.x ++ p)
  { h := r.1, x := r.2, len := (d.len + p.length) % 18446744073709551616 }

/-- The big-endian bytes of a 32-bit word. -/
def word32Bytes (w : Nat) : List Byte :=
  [byteOf (w / 16777216), byteOf (w / 65536), byteOf (w / 256), byteOf w]

/-- The big-endian bytes of a 64-bit word. -/
def word64Bytes (w : Nat) : List Byte :=
  word32Bytes (w / 4294967296) ++ word32Bytes w

/-- The method `digest.Sum(nil)`: the padding `0x80 0 ... 0` up to 56 bytes
mod 64 and the bit length (`len << 3` in `uint64`) are written to a copy of
the digest, and the hash value is serialised. -/
def digest.Sum (d : digest) : List Byte :=
  let t := if d.len % 64 < 56 then 56 - d.len % 64 else 64 + 56 - d.len % 64
  let padlen := (128 : Byte) :: List.replicate (t - 1) 0
    ++ word64Bytes (d.len * 8 % 18446744073709551616)
  ((d.Write padlen).h.map word32Bytes).flatten

/-- The function `sha256.Sum256`: the digest of a whole message. -/
def Sum256 (msg : List Byte) : List Byte := (New.Write msg).Sum

end Sha256

/-! ## `hashicorp/golang-lru`: the cache behind `key.go` and `pool.go` -/

/-- The cache `lru.Cache[K, V]`: its capacity and its entries, the most
recently used first. -/
structure LRU (K V : Type) where
  size : Nat
  items : List (K × V)

namespace LRU

variable {K V : Type} [DecidableEq K]

/-- The call `lru.New(size)`. -/
def New (size : Nat) : LRU K V := { size := size, items := [] }

/-- The entries without the one of key `k`. -/
def erase (items : List (K × V)) (k : K) : List (K × V) :=
  match items with
  | [] => []
  | e :: es => if e.1 = k then es else e :: erase es k

/-- The method `Peek`: the value of `k`, recency untouched. -/
def Peek (c : LRU K V) (k : K) : Option V :=
  (c.items.find? (fun e => decide (e.1 = k))).map (fun e => e.2)

/-- The method `Contains`. -/
def Contains (c : LRU K V) (k : K) : Bool := (c.Peek k).isSome

/-- The method `Get`: the value of `k`, whose entry becomes the most recently
used. -/
def Get (c : LRU K V) (k : K) : Option V × LRU K V :=
  match c.Peek k with
  | some v => (some v, { c with items := (k, v) :: erase c.items k })
  | none => (none, c)

/-- The method `Add`: an entry of key `k` is updated and becomes the most
recently used, and nothing is evicted; otherwise the entry is put in front,
and if that exceeds the capacity the oldest entry is evicted and handed to
the eviction callback.  The result is the evicted entry, if any, and the
cache afterwards. -/
def Add (c : LRU K V) (k : K) (v : V) : Option (K × V) × LRU K V :=
  if c.Contains k then
    (none, { c with items := (k, v) :: erase c.items k })
  else
    let items := (k, v) :: c.items
    if items.length > c.size then
      (items.getLast?, { c with items := items.dropLast })
    else
      (none, { c with items := items })

/-- The method `Remove`: the entry of key `k`, if present, is removed and
handed to the eviction callback. -/
def Remove (c : LRU K V) (k : K) : Option (K × V) × LRU K V :=
  match c.items.find? (fun e => decide (e.1 = k)) with
  | some e => (some e, { c with items := erase c.items k })
  | none => (none, c)

/-- The method `Keys`: the keys, oldest first. -/
def Keys (c : LRU K V) : List K := (c.items.map (fun e => e.1)).reverse

end LRU

/-! ## `internal/aes7z/key.go`: key derivation -/

namespace Aes7z

open Sha256

/-- The struct `cacheKey`. -/
structure cacheKey where
  password : String
  cycles : Int
  salt : String
  deriving DecidableEq

/-- The constant `cacheSize`. -/
def cacheSize : Nat := 10

/-- The hex digit of a value below 16, as `encoding/hex` writes it. -/
def hexDigit (n : Nat) : Char := "0123456789abcdef".toList.getD n '0'

/-- The function `hex.EncodeToString`. -/
def hexEncode (bs : List Byte) : String :=
  String.mk (bs.map (fun b => [hexDigit (b.val / 16), hexDigit (b.val % 16)])).flatten

/-- The UTF-16 code units of a Unicode scalar value: itself below `0x10000`,
a surrogate pair otherwise. -/
def utf16Units (c : Char) : List Nat :=
  if c.toNat < 65536 then [c.toNat]
  else [55296 + (c.toNat - 65536) / 1024, 56320 + (c.toNat - 65536) % 1024]

/-- What the `unicode.UTF16(LittleEndian, IgnoreBOM)` encoder writes for a
password: its code units, low byte first, without a byte-order mark.  A
password is a Go string holding well-formed UTF-8, given by its scalar
values. -/
def utf16le (password : String) : List Byte :=
  (password.toList.map
    (fun c => ((utf16Units c).map (fun u => [byteOf u, byteOf (u / 256)])).flatten)).flatten

/-- The eight bytes `binary.Write(h, binary.LittleEndian, i)` writes for a
`uint64`. -/
def le64 (i : Nat) : List Byte :=
  (List.range 8).map (fun k => byteOf (i / 256 ^ k))

/-- Go's `copy(dst, src)`: `dst` afterwards. -/
def copy (dst src : List Byte) : List Byte :=
  src.take dst.length ++ dst.drop src.length

/-- What a call of `calculateKey` does: it returns a key and an error, or it
panics. -/
inductive KeyResult where
  | ret (key : List Byte) (err : Option Error)
  | panicked
  deriving DecidableEq

/-- The loop `for i := uint64(0); i < bound; i++` of `calculateKey`: each
round writes the buffer and then the counter to the hash. -/
def hashLoop (b : List Byte) (bound : Nat) : digest :=
  (List.range bound).foldl (fun h i => (h.Write b).Write (le64 i)) New

/-- Lines 45 to 64 of `calculateKey`, the derivation without the cache: the
buffer is the salt followed by the encoded password; for `cycles == 0x3f` it
is copied into a key of 32 zero bytes, otherwise `1<<cycles` rounds are
hashed.  The shift is in `uint64`: it panics for a negative count and gives
0 for a count of 64 or more. -/
def deriveKey (password : String) (cycles : Int) (salt : List Byte) : KeyResult :=
  let b := salt ++ utf16le password
  let key := List.replicate 32 (0 : Byte)
  if cycles = 63 then
    .ret (copy key b) none
  else if cycles < 0 then
    .panicked
  else
    let bound := if 64 ≤ cycles then 0 else 2 ^ cycles.toNat
    .ret (copy key (hashLoop b bound).Sum) none

/-- The function `calculateKey`, on the state of the package-level cache:
a hit returns the cached key; a miss derives the key, adds it to the cache
and returns it. -/
def calculateKey (cache : LRU cacheKey (List Byte)) (password : String) (cycles : Int)
    (salt : List Byte) : KeyResult × LRU cacheKey (List Byte) :=
  let ck : cacheKey := { password := password, cycles := cycles, salt := hexEncode salt }
  match cache.Get ck with
  | (some key, cache1) => (.ret key none, cache1)
  | (none, cache1) =>
    match deriveKey password cycles salt with
    | .ret key err => (.ret key err, (cache1.Add ck key).2)
    | .panicked => (.panicked, cache1)

/-- The cache that `once.Do` creates on the first call. -/
def newCache : LRU cacheKey (List Byte) := LRU.New cacheSize

/-- A sequence of `calculateKey` calls from the cache `cache` on: the results,
in order, and the cache afterwards. -/
def runCalls (cache : LRU cacheKey (List Byte)) :
    List (String × Int × List Byte) → List KeyResult × LRU cacheKey (List Byte)
  | [] => ([], cache)
  | (pw, cycles, salt) :: rest =>
    let r := calculateKey cache pw cycles salt
    let rs := runCalls r.2 rest
    (r.1 :: rs.1, rs.2)

/-- Every entry of the cache holds the key that the derivation gives for the
arguments its cache key was made from. -/
def Sound (c : LRU cacheKey (List Byte)) : Prop :=
  ∀ e ∈ c.items, ∀ (pw : String) (cycles : Int) (salt : List Byte),
    e.1 = { password := pw, cycles := cycles, salt := hexEncode salt } →
    deriveKey pw cycles salt = .ret e.2 none

end Aes7z
end Sevenzip

namespace Sevenzip

/-! ## `pool.go`: the pool of stream handles -/

/-- A non-nil `util.SizeReadSeekCloser`, by identity; the nil interface value
is `none` of `Option Handle`. -/
abbrev Handle := Nat

/-- The struct `cacher`; the pointer `c` is nil for a disabled pool. -/
structure cacher where
  c : Option (LRU Int (Option Handle))
  noop : Bool

/-- The pool together with the `Close` calls made on handles so far, in
order. -/
structure PoolState where
  pool : cacher
  closed : List Handle

/-- How a call on the pool ends: it returns a value, or it panics (a nil
dereference). -/
inductive Result (α : Type) where
  | ok (val : α) (s : PoolState)
  | panicked (s : PoolState)

/-- The eviction callback of `newCachePool`, applied to the entry the cache
hands over, if any: `if value != nil { value.Close() }`. -/
def onEvict (closed : List Handle) : Option (Int × Option Handle) → List Handle
  | some (_, some h) => closed ++ [h]
  | _ => closed

/-- The function `newCachePool`, with `ncpu` for `runtime.NumCPU()`;
`lru.NewWithEvict` gives no cache for a size that is not positive. -/
def newCachePool (ncpu : Nat) (noop : Bool) : PoolState :=
  if noop then { pool := ⟨none, true⟩, closed := [] }
  else if ncpu = 0 then { pool := ⟨none, false⟩, closed := [] }
  else { pool := ⟨some (LRU.New ncpu), false⟩, closed := [] }

/-- The comparison passed to `slices.SortFunc`: `int(a - b)`, the `int64`
difference with wrap-around (`int` is 64 bits wide). -/
def cmpKeys (a b : Int) : Int := wrap64 (a - b)

/-- Moving `x` left from the end of a sorted run while it compares less than
its left neighbour; the run is given last element first. -/
def insertLeft (cmp : Int → Int → Int) (x : Int) : List Int → List Int
  | [] => [x]
  | y :: rest => if cmp x y < 0 then y :: insertLeft cmp x rest else x :: y :: rest

/-- Go's `slices.SortFunc`: the insertion sort it runs on short slices.  For
a comparison that orders the keys consistently every sorting algorithm gives
this result. -/
def SortFunc (cmp : Int → Int → Int) (keys : List Int) : List Int :=
  (keys.foldl (fun run x => insertLeft cmp x run) []).reverse

/-- The lines `c.c.Add(k, nil); return v, c.c.Remove(k)` of `Get`: the entry
of `k` is overwritten with nil and removed; the eviction callback runs for
whatever the cache hands over. -/
def takeOut (cache : LRU Int (Option Handle)) (closed : List Handle) (k : Int)
    (v : Option Handle) : Result (Option Handle × Bool) :=
  let a := cache.Add k none
  let closed1 := onEvict closed a.1
  let r := a.2.Remove k
  let closed2 := onEvict closed1 r.1
  .ok (v, r.1.isSome) { pool := ⟨some r.2, false⟩, closed := closed2 }

/-- The method `cacher.Get`. -/
def Get (s : PoolState) (offset : Int) : Result (Option Handle × Bool) :=
  if s.pool.noop then .ok (none, false) s
  else
    match s.pool.c with
    | none => .panicked s
    | some cache =>
      match cache.Peek offset with
      | some v => takeOut cache s.closed offset v
      | none =>
        let keys := SortFunc cmpKeys cache.Keys
        -- First key less than offset is the closest
        match keys.find? (fun k => decide (k < offset)) with
        | some k => takeOut cache s.closed k ((cache.Peek k).getD none)
        | none => .ok (none, false) s

/-- The method `cacher.Add`; closing a nil handle panics. -/
def Add (s : PoolState) (offset : Int) (rc : Option Handle) : Result Bool :=
  if s.pool.noop then
    match rc with
    | some h => .ok false { s with closed := s.closed ++ [h] }
    | none => .panicked s
  else
    match s.pool.c with
    | none => .panicked s
    | some cache =>
      let a := cache.Add offset rc
      .ok a.1.isSome { pool := ⟨some a.2, false⟩, closed := onEvict s.closed a.1 }

/-- The state after a call, whether it returned or panicked. -/
def Result.state {α : Type} : Result α → PoolState
  | .ok _ s => s
  | .panicked s => s

/-- The value a call returned, if it returned. -/
def Result.val? {α : Type} : Result α → Option α
  | .ok v _ => some v
  | .panicked _ => none

/-- The pool state in which exactly the entries `items`, most recently used
first, are resident in an enabled pool of capacity `size`. -/
def enabled (size : Nat) (items : List (Int × Option Handle)) (closed : List Handle) :
    PoolState :=
  { pool := ⟨some { size := size, items := items }, false⟩, closed := closed }

/-- A call on the pool. -/
inductive Call where
  | add (offset : Int) (rc : Option Handle)
  | get (offset : Int)

/-- The pool state after one call. -/
def step (s : PoolState) : Call → PoolState
  | .add offset rc => (Add s offset rc).state
  | .get offset => (Get s offset).state

/-- The pool state after a sequence of calls. -/
def run (s : PoolState) (calls : List Call) : PoolState := calls.foldl step s

end Sevenzip

namespace Sevenzip
namespace Util

/-- The total of the byte counts the reads of a log returned. -/
def sumN (log : List ReadRec) : Int := (log.map (fun rec => rec.res.n)).sum

/-- A segment source over the bytes `data` that reports `io.EOF` already
together with a read that reaches the end of its data, as `io.ReaderAt`
allows. -/
def eofAtEndSource (data : List Byte) : SizeReaderAt where
  Size := data.length
  ReadAt len off :=
    if off < 0 then ⟨[], 0, some (.other 0)⟩
    else
      let chunk := (data.drop off.toNat).take len
      ⟨chunk, chunk.length,
        if data.length ≤ off.toNat + chunk.length then some .EOF else none⟩

/-- A source either fills the whole buffer it is given, with a nil error, or
returns a non-nil error. -/
def FillsOrFails (s : SizeReaderAt) : Prop :=
  ∀ (len : Nat) (off : Int),
    ((s.ReadAt len off).n = (len : Int) ∧ (s.ReadAt len off).err = none) ∨
    (s.ReadAt len off).err ≠ none

end Util
end Sevenzip

namespace Sevenzip
namespace Util

/-- The behaviour of an `io.ReadCloser` whose state is of type `σ`:
`Read s len` is the call `Read(p)` with `len(p) = len` in state `s`, its
result and the state afterwards. -/
structure ReadCloser (σ : Type) where
  Read : σ → Nat → ReadResult × σ

/-- The struct `LimitedReadCloser`: the state of the underlying reader `R`
and the remaining budget `N`. -/
structure LimitedReadCloser (σ : Type) where
  R : σ
  N : Int

/-- The function `LimitReadCloser`. -/
def LimitReadCloser {σ : Type} (r : σ) (n : Int) : LimitedReadCloser σ := { R := r, N := n }

/-- What one call of `LimitedReadCloser.Read` does: its result, the length of
the buffer it handed to the underlying reader, if it called it, and the state
afterwards. -/
structure LimitedRead (σ : Type) where
  res : ReadResult
  asked : Option Nat
  next : LimitedReadCloser σ

/-- The method `LimitedReadCloser.Read`, for a buffer of length `len`. -/
def LimitedReadCloser.Read {σ : Type} (io : ReadCloser σ) (l : LimitedReadCloser σ)
    (len : Nat) : LimitedRead σ :=
  if l.N ≤ 0 then
    { res := ⟨[], 0, some .EOF⟩, asked := none, next := l }
  else
    -- if int64(len(p)) > l.N { p = p[0:l.N] }
    let len1 : Nat := if (len : Int) > l.N then l.N.toNat else len
    let r := io.Read l.R len1
    -- l.N -= int64(n)
    { res := r.1, asked := some len1, next := { R := r.2, N := wrap64 (l.N - r.1.n) } }

/-- The state after a sequence of `Read` calls with buffers of the given
lengths. -/
def LimitedReadCloser.after {σ : Type} (io : ReadCloser σ) (l : LimitedReadCloser σ) :
    List Nat → LimitedReadCloser σ
  | [] => l
  | len :: lens => LimitedReadCloser.after io (l.Read io len).next lens

/-- The total of the byte counts a sequence of `Read` calls returned. -/
def LimitedReadCloser.returned {σ : Type} (io : ReadCloser σ) (l : LimitedReadCloser σ) :
    List Nat → Int
  | [] => 0
  | len :: lens => (l.Read io len).res.n + LimitedReadCloser.returned io (l.Read io len).next lens

/-- A reader over a byte list that delivers as much as the buffer holds and
reports `io.EOF` once nothing is left. -/
def sliceReader : ReadCloser (List Byte) where
  Read s len :=
    match s with
    | [] => (⟨[], 0, some .EOF⟩, [])
    | _ :: _ => (⟨s.take len, ((s.take len).length : Int), none⟩, s.drop len)

end Util
end Sevenzip

namespace Sevenzip
namespace Util

/-- An `io.ReadCloser` handed to `MultiReadCloser`: a stream in state `s`, or
the struct `multiReadCloser` with its members and its index `i`. -/
inductive Stream (σ : Type) where
  | leaf (s : σ)
  | multi (readClosers : List (Stream σ)) (i : Nat)

/-- The function `MultiReadCloser`. -/
def MultiReadCloser {σ : Type} (readClosers : List (Stream σ)) : Stream σ :=
  .multi readClosers 0

/-- The test `len(mrc.readClosers) == 1` and
`mrc.readClosers[0].(*multiReadCloser)` of `Read`: the members of the sole
member, when that is a `multiReadCloser`. -/
def soleMulti? {σ : Type} : List (Stream σ) → Option (List (Stream σ))
  | [.multi inner _] => some inner
  | _ => none

/-- The method `Read` of a stream handed to `MultiReadCloser`, for a buffer
of length `len`: the result and the stream afterwards, or `none` when the
fuel runs out.  For a `multiReadCloser` each round of the loop
`for mrc.i < len(mrc.readClosers)` takes one unit of fuel. -/
def Stream.Read {σ : Type} (io : ReadCloser σ) :
    Nat → Stream σ → Nat → Option (ReadResult × Stream σ)
  | 0, _, _ => none
  | _ + 1, .leaf s, len => some ((io.Read s len).1, .leaf (io.Read s len).2)
  | fuel + 1, .multi rcs i, len =>
    if i < rcs.length then
      match soleMulti? rcs with
      | some inner =>
        -- mrc.readClosers = rc.readClosers; continue
        Stream.Read io fuel (.multi inner i) len
      | none =>
        match rcs[i]? with
        | none => none
        | some m =>
          -- n, err = mrc.readClosers[mrc.i].Read(p)
          match Stream.Read io fuel m len with
          | none => none
          | some (r, m1) =>
            let rcs1 := rcs.set i m1
            -- if err == io.EOF { mrc.i++ }
            let i1 := if r.err = some .EOF then i + 1 else i
            if 0 < r.n ∨ r.err ≠ some .EOF then
              -- if err == io.EOF && mrc.i < len(mrc.readClosers) { err = nil }
              some (⟨r.data, r.n,
                      if r.err = some .EOF ∧ i1 < rcs.length then none else r.err⟩,
                    .multi rcs1 i1)
            else
              Stream.Read io fuel (.multi rcs1 i1) len
    else
      some (⟨[], 0, some .EOF⟩, .multi rcs i)

/-- Calling `Read` again and again, the `k`-th time with a buffer of
`sz k + 1` bytes, until it returns `io.EOF`: the bytes delivered, or `none`
when an error other than `io.EOF` comes, or the allowance of calls or the
fuel of a call runs out. -/
def readAll {σ : Type} (io : ReadCloser σ) (fuel : Nat) (sz : Nat → Nat) :
    Nat → Nat → Stream σ → Option (List Byte)
  | 0, _, _ => none
  | calls + 1, k, t =>
    match Stream.Read io fuel t (sz k + 1) with
    | none => none
    | some (r, t1) =>
      if r.err = some .EOF then some (r.data.take r.n.toNat)
      else if r.err = none then
        (readAll io fuel sz calls (k + 1) t1).map (fun rest => r.data.take r.n.toNat ++ rest)
      else none

mutual
/-- The bytes a stream has yet to deliver, `bytes s` being those of an
underlying stream in state `s`. -/
def Stream.content {σ : Type} (bytes : σ → List Byte) : Stream σ → List Byte
  | .leaf s => bytes s
  | .multi rcs _ => Stream.contents bytes rcs
/-- The bytes a list of streams has yet to deliver, in order. -/
def Stream.contents {σ : Type} (bytes : σ → List Byte) : List (Stream σ) → List Byte
  | [] => []
  | t :: ts => Stream.content bytes t ++ Stream.contents bytes ts
end

mutual
/-- In every `multiReadCloser` of the stream the members before the index
`i` have nothing left to deliver. -/
def Stream.WF {σ : Type} (bytes : σ → List Byte) : Stream σ → Prop
  | .leaf _ => True
  | .multi rcs i => Stream.WFs bytes rcs i
/-- The members are well formed, and the first `i` of them have nothing left
to deliver. -/
def Stream.WFs {σ : Type} (bytes : σ → List Byte) : List (Stream σ) → Nat → Prop
  | [], _ => True
  | t :: ts, i => Stream.WF bytes t ∧ (0 < i → Stream.content bytes t = []) ∧
      Stream.WFs bytes ts (i - 1)
end

mutual
/-- The fuel that one `Read` of a stream takes at most. -/
def Stream.need {σ : Type} : Stream σ → Nat
  | .leaf _ => 1
  | .multi rcs _ => 1 + Stream.needs rcs
/-- The fuel for the members of a `multiReadCloser`: one round each, and
their own reads. -/
def Stream.needs {σ : Type} : List (Stream σ) → Nat
  | [] => 0
  | t :: ts => 1 + Stream.need t + Stream.needs ts
end

/-- The fuel that one `Read` takes at most, given the index the loop is
at. -/
def Stream.needNow {σ : Type} : Stream σ → Nat
  | .leaf _ => 1
  | .multi rcs i => 1 + (Stream.needs rcs - i)

/-- A `multiReadCloser` whose index has passed all its members. -/
def Stream.Done {σ : Type} : Stream σ → Prop
  | .leaf _ => True
  | .multi rcs i => rcs.length ≤ i

/-- What a read with a buffer of `len` bytes delivers of the bytes `before`:
nothing and `io.EOF` when none are left; otherwise between 1 and `len` of
them, with a nil error, or with `io.EOF` if they were the last ones. -/
def Delivers (len : Nat) (before : List Byte) (r : ReadResult) (after : List Byte) : Prop :=
  (before = [] ∧ r.n = 0 ∧ r.err = some .EOF ∧ after = []) ∨
  (before ≠ [] ∧ ∃ k : Nat, 0 < k ∧ k ≤ len ∧ k ≤ before.length ∧ r.n = (k : Int) ∧
    r.data.take k = before.take k ∧ after = before.drop k ∧
    (r.err = none ∨ (r.err = some .EOF ∧ after = [])))

/-- Every underlying stream delivers a finite byte sequence, `bytes s` in
state `s`, and then returns `io.EOF` on every later read. -/
def Faithful {σ : Type} (io : ReadCloser σ) (bytes : σ → List Byte) : Prop :=
  ∀ (s : σ) (len : Nat), 0 < len →
    Delivers len (bytes s) (io.Read s len).1 (bytes (io.Read s len).2)

/-- A reader over a byte list that delivers at most two bytes at a time and
reports `io.EOF` together with the last ones. -/
def eagerReader : ReadCloser (List Byte) where
  Read s len :=
    match s with
    | [] => (⟨[], 0, some .EOF⟩, [])
    | _ :: _ =>
      (⟨s.take (min (min len 2) s.length), ((min (min len 2) s.length : Nat) : Int),
        if s.drop (min (min len 2) s.length) = [] then some .EOF else none⟩,
        s.drop (min (min len 2) s.length))

end Util
end Sevenzip

/-! # Theorems -/

namespace Sevenzip
namespace Util

theorem wrap64_of_range {x : Int} (h1 : -9223372036854775808 ≤ x) (h2 : x < 9223372036854775808) :
    wrap64 x = x := by
  unfold wrap64
  omega

theorem readLoop_nil (wantN fuel : Nat) (s : LoopState) (h : s.parts = []) :
    readLoop wantN fuel s = finish wantN s := by
  cases fuel <;> simp [readLoop, h]

theorem readLoop_pnil (wantN fuel : Nat) (s : LoopState) (h : s.p = []) :
    readLoop wantN fuel s = finish wantN s := by
  cases fuel <;> cases hp : s.parts <;> simp [readLoop, h, hp]

theorem readLoop_step (wantN fuel : Nat) (s : LoopState) (part : offsetAndSource)
    (rest : List offsetAndSource) (hparts : s.parts = part :: rest) (hp : s.p ≠ []) :
    readLoop wantN (fuel + 1) s =
      match loopBody s part rest with
      | .inl out => out
      | .inr s1 => readLoop wantN fuel s1 := by
  cases hq : s.p with
  | nil => exact absurd hq hp
  | cons b p' => simp [readLoop, hparts, hq]

theorem bytesSource_serves (d : List Byte) : Serves (bytesSource d) d := by
  refine ⟨rfl, ?_⟩
  intro len off hoff
  have h0 : ¬ ((off : Int) < 0) := by omega
  simp only [bytesSource, h0, if_false, Int.toNat_ofNat, List.length_take, List.length_drop]
  refine ⟨trivial, trivial, ?_⟩
  intro h
  by_contra hc
  exact h (by simp [hc])

theorem store_exact (data p : List Byte) (h : data.length ≤ p.length) :
    store data p = data ++ p.drop data.length := by
  unfold store
  rw [List.take_of_length_le h]

/-- The loop body on a well-behaved source: the read asks for
`min(len(p), size-needSkip)` bytes, gets them all, and the loop goes on. -/
theorem loopBody_serves (s : LoopState) (part : offsetAndSource) (rest : List offsetAndSource)
    (d : List Byte) (hs : Serves part.src d) (hd : (d.length : Int) < 9223372036854775808)
    (k : Nat) (hk : s.needSkip = (k : Int)) (hkd : k ≤ d.length) :
    loopBody s part rest =
      .inr (
        let readLen := min s.p.length (d.length - k)
        let s1 : LoopState :=
          { s with done := s.done ++ (d.drop k).take readLen, p := s.p.drop readLen,
                   n := s.n + (readLen : Int), needSkip := 0,
                   log := s.log ++ [⟨s.idx, readLen, (k : Int), part.src.ReadAt readLen k⟩] }
        if readLen + k = d.length then { s1 with idx := s.idx + 1, parts := rest } else s1) := by
  obtain ⟨hsize, hread⟩ := hs
  have havail : wrap64 (part.src.Size - (k : Int)) = ((d.length - k : Nat) : Int) := by
    rw [hsize, wrap64_of_range (by omega) (by omega)]
    omega
  have hrl : (if (s.p.length : Int) > ((d.length - k : Nat) : Int)
      then (((d.length - k : Nat) : Int)).toNat else s.p.length) = min s.p.length (d.length - k) := by
    split <;> omega
  obtain ⟨hdata, hn, herr⟩ := hread (min s.p.length (d.length - k)) k hkd
  have hmin : min (min s.p.length (d.length - k)) (d.length - k) = min s.p.length (d.length - k) := by
    omega
  rw [hmin] at hn herr
  have herr' : (part.src.ReadAt (min s.p.length (d.length - k)) k).err = none := by
    by_contra hc
    exact absurd (herr hc) (by omega)
  have hlen : ((d.drop k).take (min s.p.length (d.length - k))).length
      = min s.p.length (d.length - k) := by
    simp only [List.length_take, List.length_drop]
    omega
  unfold loopBody
  simp only [hk]
  simp only [havail, hrl]
  have hnp : ¬ ((s.p.length : Int) > ((d.length - k : Nat) : Int) ∧ ((d.length - k : Nat) : Int) < 0) := by
    omega
  rw [if_neg hnp]
  simp only [herr', ne_eq, not_true_eq_false, if_false, hn]
  have hnp2 : ¬ (((min s.p.length (d.length - k) : Nat) : Int) < 0 ∨
      (s.p.length : Int) < ((min s.p.length (d.length - k) : Nat) : Int)) := by omega
  rw [if_neg hnp2]
  have hw : wrap64 (((min s.p.length (d.length - k) : Nat) : Int) + (k : Int))
      = ((min s.p.length (d.length - k) + k : Nat) : Int) := by
    rw [wrap64_of_range (by omega) (by omega)]
    push_cast
    rfl
  rw [hw, hsize, hdata]
  have hst : store (List.take (min s.p.length (d.length - k))
        (List.take (min s.p.length (d.length - k)) (List.drop k d))) s.p
      = (d.drop k).take (min s.p.length (d.length - k))
          ++ s.p.drop (min s.p.length (d.length - k)) := by
    rw [List.take_take, Nat.min_self, store_exact _ _ (by rw [hlen]; omega), hlen]
  rw [hst, Int.toNat_ofNat, List.take_left' hlen, List.drop_left' hlen]
  simp only [Nat.cast_inj]
  split <;> rfl

/-- The loop over well-behaved sources: it returns, having delivered as many
of the bytes that remain from `needSkip` on as the buffer holds. -/
theorem readLoop_serves (wantN : Nat) :
    ∀ (ps : List offsetAndSource) (ds : List (List Byte)),
      List.Forall₂ (fun part d => Serves part.src d) ps ds →
      (∀ d ∈ ds, (d.length : Int) < 9223372036854775808) →
      ∀ (fuel idx : Nat) (done p : List Byte) (n : Int) (k : Nat) (log : List ReadRec),
        ps.length ≤ fuel →
        (∀ d, ds.head? = some d → k ≤ d.length) →
        (readLoop wantN fuel ⟨idx, ps, done, p, n, (k : Int), log⟩).status = .returned ∧
        (readLoop wantN fuel ⟨idx, ps, done, p, n, (k : Int), log⟩).n
          = n + ((min p.length (ds.flatten.length - k) : Nat) : Int) ∧
        (readLoop wantN fuel ⟨idx, ps, done, p, n, (k : Int), log⟩).buf
          = done ++ (ds.flatten.drop k).take p.length ++ p.drop (ds.flatten.length - k) ∧
        (readLoop wantN fuel ⟨idx, ps, done, p, n, (k : Int), log⟩).err
          = if n + ((min p.length (ds.flatten.length - k) : Nat) : Int) ≠ (wantN : Int)
              then some .ErrUnexpectedEOF else none := by
  intro ps
  induction ps with
  | nil =>
    intro ds hF _ fuel idx done p n k log _ _
    cases hF
    rw [readLoop_nil _ _ _ rfl]
    simp [finish]
  | cons part rest ih =>
    intro ds hF hlen fuel idx done p n k log hfuel hk
    cases hF with
    | cons hs hrest =>
      rename_i d ds1
      have hkd : k ≤ d.length := hk d rfl
      have hd : (d.length : Int) < 9223372036854775808 := hlen d (List.mem_cons_self _ _)
      by_cases hp : p = []
      · subst hp
        rw [readLoop_pnil _ _ _ rfl]
        simp [finish]
      · have hfuel1 : rest.length + 1 ≤ fuel := by simpa using hfuel
        obtain ⟨f, rfl⟩ : ∃ f, fuel = f + 1 := ⟨fuel - 1, by omega⟩
        rw [readLoop_step wantN f _ part rest rfl hp]
        rw [loopBody_serves _ part rest d hs hd k rfl hkd]
        simp only
        have hfl : (d :: ds1).flatten.length - k = (d.length - k) + ds1.flatten.length := by
          simp only [List.flatten_cons, List.length_append]
          omega
        have hdrop : (d :: ds1).flatten.drop k = d.drop k ++ ds1.flatten := by
          simp only [List.flatten_cons]
          rw [List.drop_append_of_le_length hkd]
        have hdl : (d.drop k).length = d.length - k := List.length_drop _ _
        by_cases hfull : min p.length (d.length - k) + k = d.length
        · rw [if_pos hfull]
          have hm : min p.length (d.length - k) = d.length - k := by omega
          have hle : d.length - k ≤ p.length := by omega
          rw [hm]
          have := ih ds1 hrest (fun x hx => hlen x (List.mem_cons_of_mem _ hx)) f (idx + 1)
            (done ++ List.take (d.length - k) (List.drop k d))
            (List.drop (d.length - k) p) (n + ((d.length - k : Nat) : Int)) 0
            (log ++ [⟨idx, d.length - k, (k : Int), part.src.ReadAt (d.length - k) k⟩])
            (by omega) (fun _ _ => Nat.zero_le _)
          simp only [Nat.cast_zero, Nat.sub_zero, List.drop_zero, List.length_drop,
            List.drop_drop] at this
          obtain ⟨h1, h2, h3, h4⟩ := this
          have hmm : ((min (p.length - (d.length - k)) ds1.flatten.length : Nat) : Int)
              + ((d.length - k : Nat) : Int)
              = ((min p.length ((d :: ds1).flatten.length - k) : Nat) : Int) := by
            rw [hfl]
            omega
          have htk : List.take (d.length - k) (List.drop k d) = List.drop k d :=
            List.take_of_length_le (by omega)
          have e : n + ((d.length - k : Nat) : Int)
              + ((min (p.length - (d.length - k)) ds1.flatten.length : Nat) : Int)
            = n + (((min (p.length - (d.length - k)) ds1.flatten.length : Nat) : Int)
              + ((d.length - k : Nat) : Int)) := by ring
          refine ⟨h1, ?_, ?_, ?_⟩
          · rw [h2, e, hmm]
          · rw [h3, hdrop, hfl, htk, List.take_append_eq_append_take, hdl,
              List.take_of_length_le (by omega : (d.drop k).length ≤ p.length)]
            simp only [List.append_assoc]
          · rw [h4, e, hmm]
        · rw [if_neg hfull]
          have hm : min p.length (d.length - k) = p.length := by omega
          have hlt : p.length < d.length - k := by omega
          rw [hm, readLoop_pnil _ _ _ (List.drop_of_length_le (Nat.le_refl _))]
          have hmm : min p.length ((d :: ds1).flatten.length - k) = p.length := by
            rw [hfl]; omega
          simp only [finish, hmm]
          refine ⟨trivial, trivial, ?_, trivial⟩
          rw [hdrop, hfl, List.take_append_of_le_length (by omega),
            List.drop_of_length_le (by omega : p.length ≤ d.length - k + ds1.flatten.length),
            List.drop_of_length_le (Nat.le_refl _)]

/-- The binary search returns the least index at which a monotone predicate
holds, or `n` when it holds nowhere. -/
theorem searchLoop_spec (f : Nat → Bool) (n : Nat)
    (mono : ∀ a b, a ≤ b → b < n → f a = true → f b = true) :
    ∀ (fuel i j : Nat), j - i ≤ fuel → i ≤ j → j ≤ n →
      (∀ k, k < i → f k = false) → (∀ k, j ≤ k → k < n → f k = true) →
      (∀ k, k < searchLoop f fuel i j → f k = false) ∧
      (∀ k, searchLoop f fuel i j ≤ k → k < n → f k = true) ∧
      searchLoop f fuel i j ≤ n := by
  intro fuel
  induction fuel with
  | zero =>
    intro i j hf hij hjn hlo hhi
    have : i = j := by omega
    subst this
    exact ⟨hlo, hhi, hjn⟩
  | succ fuel ih =>
    intro i j hf hij hjn hlo hhi
    unfold searchLoop
    by_cases hlt : i < j
    · simp only [if_pos hlt]
      have h1 : i ≤ (i + j) / 2 := by omega
      have h2 : (i + j) / 2 < j := by omega
      cases hfh : f ((i + j) / 2) with
      | false =>
        simp only [hfh, Bool.not_false, if_true]
        refine ih ((i + j) / 2 + 1) j (by omega) (by omega) hjn ?_ hhi
        intro k hk
        cases hfk : f k with
        | false => rfl
        | true =>
          have := mono k ((i + j) / 2) (by omega) (by omega) hfk
          rw [hfh] at this
          exact absurd this (by simp)
      | true =>
        simp only [hfh, Bool.not_true, Bool.false_eq_true, if_false]
        refine ih i ((i + j) / 2) (by omega) (by omega) (by omega) hlo ?_
        intro k hk hkn
        exact mono _ k hk hkn hfh
    · rw [if_neg hlt]
      have : i = j := by omega
      subst this
      exact ⟨hlo, hhi, hjn⟩

theorem Search_spec (f : Nat → Bool) (n : Nat)
    (mono : ∀ a b, a ≤ b → b < n → f a = true → f b = true) :
    (∀ k, k < Search n f → f k = false) ∧
    (∀ k, Search n f ≤ k → k < n → f k = true) ∧
    Search n f ≤ n := by
  unfold Search
  exact searchLoop_spec f n mono n 0 n (by omega) (by omega) (by omega)
    (fun k hk => absurd hk (by omega)) (fun k hk hkn => absurd hkn (by omega))

theorem sumSizes_nil : sumSizes [] = 0 := rfl

theorem sumSizes_cons (p : SizeReaderAt) (ps : List SizeReaderAt) :
    sumSizes (p :: ps) = p.Size + sumSizes ps := by
  simp [sumSizes]

theorem sumSizes_nonneg (srcs : List SizeReaderAt) (h : ∀ s ∈ srcs, 0 ≤ s.Size) :
    0 ≤ sumSizes srcs := by
  induction srcs with
  | nil => simp [sumSizes]
  | cons p ps ih =>
    rw [sumSizes_cons]
    have h1 := h p (List.mem_cons_self _ _)
    have h2 := ih (fun s hs => h s (List.mem_cons_of_mem _ hs))
    omega

theorem sumSizes_append (a b : List SizeReaderAt) :
    sumSizes (a ++ b) = sumSizes a + sumSizes b := by
  simp [sumSizes]

theorem sumSizes_take_le (srcs : List SizeReaderAt) (h : ∀ s ∈ srcs, 0 ≤ s.Size) (a b : Nat)
    (hab : a ≤ b) : sumSizes (srcs.take a) ≤ sumSizes (srcs.take b) := by
  have e : srcs.take b = srcs.take a ++ (srcs.take b).drop a := by
    have := List.take_append_drop a (srcs.take b)
    rw [List.take_take, Nat.min_eq_left hab] at this
    exact this.symm
  rw [e, sumSizes_append]
  have : 0 ≤ sumSizes ((srcs.take b).drop a) :=
    sumSizes_nonneg _ (fun s hs => h s (List.mem_of_mem_take (List.mem_of_mem_drop hs)))
  omega

theorem sumSizes_take_le_total (srcs : List SizeReaderAt) (h : ∀ s ∈ srcs, 0 ≤ s.Size) (a : Nat) :
    sumSizes (srcs.take a) ≤ sumSizes srcs := by
  have := sumSizes_take_le srcs h a (max a srcs.length) (by omega)
  have e : srcs.take (max a srcs.length) = srcs := List.take_of_length_le (by omega)
  rwa [e] at this

theorem appendParts_length (s : Int) (srcs : List SizeReaderAt) :
    (appendParts s srcs).1.length = srcs.length := by
  induction srcs generalizing s with
  | nil => rfl
  | cons p ps ih => simp [appendParts, ih]

/-- Without wrap-around, `NewMultiReaderAt` stores the total of the sizes. -/
theorem appendParts_snd (srcs : List SizeReaderAt) :
    ∀ (s : Int), 0 ≤ s → (∀ x ∈ srcs, 0 ≤ x.Size) →
      s + sumSizes srcs < 9223372036854775808 →
      (appendParts s srcs).2 = s + sumSizes srcs := by
  induction srcs with
  | nil => intro s _ _ _; simp [appendParts, sumSizes]
  | cons p ps ih =>
    intro s hs hnn hlt
    have hp := hnn p (List.mem_cons_self _ _)
    have hps := sumSizes_nonneg ps (fun x hx => hnn x (List.mem_cons_of_mem _ hx))
    rw [sumSizes_cons] at hlt
    simp only [appendParts]
    rw [wrap64_of_range (by omega) (by omega),
      ih _ (by omega) (fun x hx => hnn x (List.mem_cons_of_mem _ hx)) (by omega), sumSizes_cons]
    omega

/-- Without wrap-around, the parts from index `r` on are the sources from `r`
on, laid out from the sum of the sizes before `r`. -/
theorem appendParts_drop (srcs : List SizeReaderAt) :
    ∀ (s : Int) (r : Nat), 0 ≤ s → (∀ x ∈ srcs, 0 ≤ x.Size) →
      s + sumSizes srcs < 9223372036854775808 →
      (appendParts s srcs).1.drop r
        = (appendParts (s + sumSizes (srcs.take r)) (srcs.drop r)).1 := by
  induction srcs with
  | nil => intro s r _ _ _; simp [appendParts]
  | cons p ps ih =>
    intro s r hs hnn hlt
    cases r with
    | zero => simp [sumSizes]
    | succ r =>
      have hp := hnn p (List.mem_cons_self _ _)
      have hps := sumSizes_nonneg ps (fun x hx => hnn x (List.mem_cons_of_mem _ hx))
      rw [sumSizes_cons] at hlt
      simp only [appendParts, List.drop_succ_cons, List.take_succ_cons, sumSizes_cons]
      rw [wrap64_of_range (by omega) (by omega),
        ih _ r (by omega) (fun x hx => hnn x (List.mem_cons_of_mem _ hx)) (by omega)]
      rw [Int.add_assoc]

theorem sumSizes_take_succ (srcs : List SizeReaderAt) (k : Nat) (hk : k < srcs.length) :
    sumSizes (srcs.take (k + 1)) = sumSizes (srcs.take k) + srcs[k].Size := by
  rw [List.take_succ, sumSizes_append, List.getElem?_eq_getElem hk]
  simp [sumSizes]

/-- Part `k` of the merged reader is source `k`, at the sum of the sizes
before it. -/
theorem parts_drop (srcs : List SizeReaderAt) (hw : WellSized srcs) (k : Nat)
    (hk : k < srcs.length) :
    (NewMultiReaderAt srcs).parts.drop k
      = ⟨sumSizes (srcs.take k), srcs[k]⟩ ::
          (appendParts (sumSizes (srcs.take (k + 1))) (srcs.drop (k + 1))).1 := by
  have h := appendParts_drop srcs 0 k (le_refl _) hw.1 (by have := hw.2; omega)
  simp only [NewMultiReaderAt]
  rw [h, List.drop_eq_getElem_cons hk]
  simp only [appendParts, zero_add]
  have h1 := sumSizes_nonneg (srcs.take k) (fun s hs => hw.1 s (List.mem_of_mem_take hs))
  have h2 := sumSizes_take_le_total srcs hw.1 (k + 1)
  have h3 := sumSizes_take_succ srcs k hk
  have h4 := hw.2
  have h5 : 0 ≤ srcs[k].Size := hw.1 _ (List.getElem_mem hk)
  rw [wrap64_of_range (by omega) (by omega), h3]

theorem contributes_eq (srcs : List SizeReaderAt) (hw : WellSized srcs) (off : Int) (k : Nat)
    (hk : k < srcs.length) :
    contributes (NewMultiReaderAt srcs) off k = decide (sumSizes (srcs.take (k + 1)) > off) := by
  have h := parts_drop srcs hw k hk
  have hg : (NewMultiReaderAt srcs).parts.get? k = some ⟨sumSizes (srcs.take k), srcs[k]⟩ := by
    rw [List.get?_eq_getElem?, ← List.head?_drop, h]
    rfl
  have h1 := sumSizes_nonneg (srcs.take k) (fun s hs => hw.1 s (List.mem_of_mem_take hs))
  have h2 := sumSizes_take_le_total srcs hw.1 (k + 1)
  have h3 := sumSizes_take_succ srcs k hk
  have h4 := hw.2
  have h5 : 0 ≤ srcs[k].Size := hw.1 _ (List.getElem_mem hk)
  simp only [contributes, hg]
  rw [wrap64_of_range (by omega) (by omega), h3]

theorem parts_length (srcs : List SizeReaderAt) :
    (NewMultiReaderAt srcs).parts.length = srcs.length := by
  simp only [NewMultiReaderAt, appendParts_length]

/-- The number of parts `ReadAt` skips: all parts before it end at or before
`off`, and the part at it, when there is one, ends after `off`. -/
theorem skipParts_spec (srcs : List SizeReaderAt) (hw : WellSized srcs) (off : Int)
    (h0 : 0 ≤ off) :
    Search (NewMultiReaderAt srcs).parts.length (contributes (NewMultiReaderAt srcs) off)
        ≤ srcs.length ∧
    sumSizes (srcs.take
        (Search (NewMultiReaderAt srcs).parts.length (contributes (NewMultiReaderAt srcs) off)))
        ≤ off ∧
    (Search (NewMultiReaderAt srcs).parts.length (contributes (NewMultiReaderAt srcs) off)
        < srcs.length →
      off < sumSizes (srcs.take
        (Search (NewMultiReaderAt srcs).parts.length (contributes (NewMultiReaderAt srcs) off)
          + 1))) := by
  rw [parts_length]
  have mono : ∀ a b, a ≤ b → b < srcs.length →
      contributes (NewMultiReaderAt srcs) off a = true →
      contributes (NewMultiReaderAt srcs) off b = true := by
    intro a b hab hb ha
    rw [contributes_eq srcs hw off a (by omega)] at ha
    rw [contributes_eq srcs hw off b hb]
    have := sumSizes_take_le srcs hw.1 (a + 1) (b + 1) (by omega)
    simp only [gt_iff_lt, decide_eq_true_eq] at ha ⊢
    omega
  obtain ⟨hlo, hhi, hle⟩ := Search_spec (contributes (NewMultiReaderAt srcs) off) srcs.length mono
  refine ⟨hle, ?_, ?_⟩
  · cases hr : Search srcs.length (contributes (NewMultiReaderAt srcs) off) with
    | zero => simpa [sumSizes] using h0
    | succ r =>
      have := hlo r (by omega)
      rw [contributes_eq srcs hw off r (by omega)] at this
      simpa using this
  · intro hlt
    have := hhi _ (le_refl _) hlt
    rw [contributes_eq srcs hw off _ hlt] at this
    simpa using this

theorem forall₂_parts (srcs : List SizeReaderAt) (ds : List (List Byte))
    (hF : List.Forall₂ Serves srcs ds) :
    ∀ s : Int, List.Forall₂ (fun part d => Serves part.src d) (appendParts s srcs).1 ds := by
  induction hF with
  | nil => intro s; exact List.Forall₂.nil
  | cons h _ ih => intro s; exact List.Forall₂.cons h (ih _)

theorem sumSizes_serves (srcs : List SizeReaderAt) (ds : List (List Byte))
    (hF : List.Forall₂ Serves srcs ds) : sumSizes srcs = (ds.flatten.length : Int) := by
  induction hF with
  | nil => rfl
  | cons h _ ih =>
    rw [sumSizes_cons, ih, h.1]
    simp only [List.flatten_cons, List.length_append, Nat.cast_add]

theorem wellSized_serves (srcs : List SizeReaderAt) (ds : List (List Byte))
    (hF : List.Forall₂ Serves srcs ds)
    (htot : (ds.flatten.length : Int) < 9223372036854775808) : WellSized srcs := by
  refine ⟨?_, by rw [sumSizes_serves srcs ds hF]; exact htot⟩
  clear htot
  induction hF with
  | nil => intro s hs; cases hs
  | cons h _ ih =>
    intro s hs
    rcases List.mem_cons.mp hs with rfl | hs
    · rw [h.1]; omega
    · exact ih s hs

theorem length_le_flatten (ds : List (List Byte)) (d : List Byte) (h : d ∈ ds) :
    d.length ≤ ds.flatten.length := by
  induction ds with
  | nil => cases h
  | cons x xs ih =>
    simp only [List.flatten_cons, List.length_append]
    rcases List.mem_cons.mp h with rfl | h
    · omega
    · have := ih h; omega

theorem flatten_take_le (ds : List (List Byte)) (r : Nat) :
    (ds.take r).flatten.length ≤ ds.flatten.length := by
  conv_rhs => rw [← List.take_append_drop r ds, List.flatten_append, List.length_append]
  omega

/-- What `ReadAt` does on well-behaved sources, for every offset and buffer:
it returns, delivers the bytes of the logical sequence from `off` on, as many
as the buffer holds, and reports `io.ErrUnexpectedEOF` exactly on a short
count. -/
theorem ReadAt_serves (srcs : List SizeReaderAt) (ds : List (List Byte))
    (hF : List.Forall₂ Serves srcs ds)
    (htot : (ds.flatten.length : Int) < 9223372036854775808)
    (p : List Byte) (off fuel : Nat) (hfuel : srcs.length ≤ fuel) :
    ((NewMultiReaderAt srcs).ReadAt fuel p off).status = .returned ∧
    ((NewMultiReaderAt srcs).ReadAt fuel p off).n
      = ((min p.length (ds.flatten.length - off) : Nat) : Int) ∧
    ((NewMultiReaderAt srcs).ReadAt fuel p off).buf
      = (ds.flatten.drop off).take p.length ++ p.drop (ds.flatten.length - off) ∧
    ((NewMultiReaderAt srcs).ReadAt fuel p off).err
      = if min p.length (ds.flatten.length - off) ≠ p.length
          then some .ErrUnexpectedEOF else none := by
  have hw := wellSized_serves srcs ds hF htot
  obtain ⟨hr, hlo, hhi⟩ := skipParts_spec srcs hw off (by omega)
  have hlenEq : srcs.length = ds.length := hF.length_eq
  unfold multiRA.ReadAt
  generalize hrdef :
    Search (NewMultiReaderAt srcs).parts.length (contributes (NewMultiReaderAt srcs) off) = r
    at hr hlo hhi
  have hSr : sumSizes (srcs.take r) = ((ds.take r).flatten.length : Int) :=
    sumSizes_serves _ _ (List.forall₂_take r hF)
  have hsplit : ds.flatten = (ds.take r).flatten ++ (ds.drop r).flatten := by
    rw [← List.flatten_append, List.take_append_drop]
  have hge : (ds.take r).flatten.length ≤ off := by omega
  have hdropEq : ds.flatten.drop off
      = (ds.drop r).flatten.drop (off - (ds.take r).flatten.length) := by
    conv_lhs => rw [hsplit]
    have : off = (ds.take r).flatten.length + (off - (ds.take r).flatten.length) := by omega
    conv_lhs => rw [this]
    rw [List.drop_append]
  have hlenSub : ds.flatten.length - off
      = (ds.drop r).flatten.length - (off - (ds.take r).flatten.length) := by
    rw [hsplit, List.length_append]
    omega
  by_cases hlt : r < srcs.length
  · have hpd := parts_drop srcs hw r hlt
    have hF' : List.Forall₂ (fun part d => Serves part.src d)
        ((NewMultiReaderAt srcs).parts.drop r) (ds.drop r) :=
      List.forall₂_drop r (forall₂_parts srcs ds hF 0)
    have hup := hhi hlt
    have hS1 : sumSizes (srcs.take (r + 1)) = ((ds.take (r + 1)).flatten.length : Int) :=
      sumSizes_serves _ _ (List.forall₂_take (r + 1) hF)
    have hle1 := flatten_take_le ds (r + 1)
    simp only [hpd] at hF' ⊢
    rw [hSr, wrap64_of_range (by omega) (by omega)]
    have hcast : ((off : Int) - ((ds.take r).flatten.length : Int))
        = ((off - (ds.take r).flatten.length : Nat) : Int) := by omega
    rw [hcast]
    have hk : ∀ d, (ds.drop r).head? = some d → off - (ds.take r).flatten.length ≤ d.length := by
      intro d hd
      have hrd : r < ds.length := by omega
      rw [List.drop_eq_getElem_cons hrd] at hd
      simp only [List.head?_cons, Option.some.injEq] at hd
      subst hd
      have : (ds.take (r + 1)).flatten.length = (ds.take r).flatten.length + ds[r].length := by
        rw [List.take_succ, List.flatten_append, List.length_append,
          List.getElem?_eq_getElem hrd]
        simp
      omega
    have hfl : (⟨(((ds.take r).flatten.length : Nat) : Int), srcs[r]⟩ ::
        (appendParts (sumSizes (srcs.take (r + 1))) (srcs.drop (r + 1))).1).length ≤ fuel := by
      simp only [List.length_cons, appendParts_length, List.length_drop]
      omega
    rw [hSr] at hF'
    have hmain := readLoop_serves p.length _ _ hF'
      (fun d hd => by
        have := length_le_flatten ds d (List.mem_of_mem_drop hd)
        omega)
      fuel r [] p 0 (off - (ds.take r).flatten.length) [] hfl hk
    obtain ⟨h1, h2, h3, h4⟩ := hmain
    rw [hdropEq, hlenSub]
    refine ⟨h1, ?_, ?_, ?_⟩
    · rw [h2, zero_add]
    · rw [h3, List.nil_append]
    · rw [h4, zero_add]
      simp only [ne_eq, Nat.cast_inj]
  · have hrn : r = srcs.length := by omega
    have hnil : (NewMultiReaderAt srcs).parts.drop r = [] :=
      List.drop_of_length_le (by rw [parts_length]; omega)
    simp only [hnil]
    rw [readLoop_nil _ _ _ rfl]
    have hall : (ds.take r).flatten.length = ds.flatten.length := by
      rw [List.take_of_length_le (by omega)]
    have hz : ds.flatten.length - off = 0 := by omega
    simp only [finish, hz, Nat.min_zero, List.nil_append, List.drop_zero, Nat.cast_zero,
      true_and]
    refine ⟨?_, ?_⟩
    · rw [List.drop_of_length_le (by omega)]
      simp
    · by_cases hp : p.length = 0
      · simp [hp]
      · have h1 : ¬ (0 = p.length) := fun h => hp h.symm
        have h2 : ¬ ((0 : Int) = (p.length : Int)) := by omega
        simp [h1, h2]

/-- How one execution of the loop body ends: it panics before or after its
read, it returns the error of its read, or it goes on after a read without
error.  In each case at most one read is added to the log. -/
theorem loopBody_log (s : LoopState) (part : offsetAndSource) (rest : List offsetAndSource) :
    (∀ out, loopBody s part rest = .inl out →
      (out.log = s.log ∧ out.status = .panicked) ∨
      (∃ rec, out.log = s.log ++ [rec] ∧ rec.res.err = none ∧ out.status = .panicked) ∨
      (∃ rec, out.log = s.log ++ [rec] ∧ rec.res.err ≠ none ∧ out.status = .returned ∧
        out.err = rec.res.err ∧ out.n = s.n)) ∧
    (∀ s1, loopBody s part rest = .inr s1 →
      ∃ rec, s1.log = s.log ++ [rec] ∧ rec.res.err = none) := by
  unfold loopBody
  simp only
  by_cases hpanic : (s.p.length : Int) > wrap64 (part.src.Size - s.needSkip) ∧
      wrap64 (part.src.Size - s.needSkip) < 0
  · rw [if_pos hpanic]
    refine ⟨fun out h => ?_, fun s1 h => by cases h⟩
    cases h
    exact Or.inl ⟨rfl, rfl⟩
  · rw [if_neg hpanic]
    generalize (if (s.p.length : Int) > wrap64 (part.src.Size - s.needSkip)
      then (wrap64 (part.src.Size - s.needSkip)).toNat else s.p.length) = readLen
    by_cases herr : (part.src.ReadAt readLen s.needSkip).err ≠ none
    · rw [if_pos herr]
      refine ⟨fun out h => ?_, fun s1 h => by cases h⟩
      cases h
      exact Or.inr (Or.inr ⟨_, rfl, herr, rfl, rfl, rfl⟩)
    · rw [if_neg herr]
      have herr1 : (part.src.ReadAt readLen s.needSkip).err = none := not_not.mp herr
      by_cases hpn : (part.src.ReadAt readLen s.needSkip).n < 0 ∨
          (s.p.length : Int) < (part.src.ReadAt readLen s.needSkip).n
      · rw [if_pos hpn]
        refine ⟨fun out h => ?_, fun s1 h => by cases h⟩
        cases h
        exact Or.inr (Or.inl ⟨_, rfl, herr1, rfl⟩)
      · rw [if_neg hpn]
        by_cases hadv : wrap64 ((part.src.ReadAt readLen s.needSkip).n + s.needSkip)
            = part.src.Size
        · rw [if_pos hadv]
          refine ⟨fun out h => (by cases h), fun s1 h => ?_⟩
          cases h
          exact ⟨⟨s.idx, readLen, s.needSkip, part.src.ReadAt readLen s.needSkip⟩, rfl, herr1⟩
        · rw [if_neg hadv]
          refine ⟨fun out h => (by cases h), fun s1 h => ?_⟩
          cases h
          exact ⟨⟨s.idx, readLen, s.needSkip, part.src.ReadAt readLen s.needSkip⟩, rfl, herr1⟩

/-- The reads of a whole run of the loop: either none of them failed, and a
returning run reports `io.ErrUnexpectedEOF` exactly on a short count; or the
last read, and only it, failed, and the run returned its error. -/
theorem readLoop_log (wantN : Nat) :
    ∀ (fuel : Nat) (s : LoopState), (∀ rec ∈ s.log, rec.res.err = none) →
      ((∀ rec ∈ (readLoop wantN fuel s).log, rec.res.err = none) ∧
        ((readLoop wantN fuel s).status = .returned →
          (readLoop wantN fuel s).err
            = if (readLoop wantN fuel s).n ≠ (wantN : Int)
                then some .ErrUnexpectedEOF else none)) ∨
      (∃ init last, (readLoop wantN fuel s).log = init ++ [last] ∧
        (∀ rec ∈ init, rec.res.err = none) ∧ last.res.err ≠ none ∧
        (readLoop wantN fuel s).status = .returned ∧
        (readLoop wantN fuel s).err = last.res.err) := by
  intro fuel
  induction fuel with
  | zero =>
    intro s hs
    left
    unfold readLoop
    split
    · exact ⟨hs, fun _ => rfl⟩
    · exact ⟨hs, fun _ => rfl⟩
    · exact ⟨hs, fun h => by cases h⟩
  | succ fuel ih =>
    intro s hs
    cases hparts : s.parts with
    | nil =>
      rw [readLoop_nil _ _ _ hparts]
      exact Or.inl ⟨hs, fun _ => rfl⟩
    | cons part rest =>
      by_cases hp : s.p = []
      · rw [readLoop_pnil _ _ _ hp]
        exact Or.inl ⟨hs, fun _ => rfl⟩
      · rw [readLoop_step wantN fuel s part rest hparts hp]
        obtain ⟨hl, hr⟩ := loopBody_log s part rest
        cases hb : loopBody s part rest with
        | inl out =>
          simp only
          rcases hl out hb with ⟨h1, h2⟩ | ⟨rec, h1, h2, h3⟩ | ⟨rec, h1, h2, h3, h4, _⟩
          · left
            rw [h1]
            exact ⟨hs, fun h => by rw [h2] at h; cases h⟩
          · left
            rw [h1]
            refine ⟨?_, fun h => by rw [h3] at h; cases h⟩
            intro x hx
            rcases List.mem_append.mp hx with hx | hx
            · exact hs x hx
            · rw [List.mem_singleton.mp hx]; exact h2
          · right
            exact ⟨s.log, rec, h1, hs, h2, h3, h4⟩
        | inr s1 =>
          simp only
          obtain ⟨rec, h1, h2⟩ := hr s1 hb
          apply ih s1
          intro x hx
          rw [h1] at hx
          rcases List.mem_append.mp hx with hx | hx
          · exact hs x hx
          · rw [List.mem_singleton.mp hx]; exact h2

/-- The reads of a `ReadAt` call: none failed, or only the last did and the
call returned its error. -/
theorem ReadAt_log (m : multiRA) (fuel : Nat) (p : List Byte) (off : Int) :
    ((∀ rec ∈ (m.ReadAt fuel p off).log, rec.res.err = none) ∧
      ((m.ReadAt fuel p off).status = .returned →
        (m.ReadAt fuel p off).err
          = if (m.ReadAt fuel p off).n ≠ (p.length : Int)
              then some .ErrUnexpectedEOF else none)) ∨
    (∃ init last, (m.ReadAt fuel p off).log = init ++ [last] ∧
      (∀ rec ∈ init, rec.res.err = none) ∧ last.res.err ≠ none ∧
      (m.ReadAt fuel p off).status = .returned ∧
      (m.ReadAt fuel p off).err = last.res.err) := by
  unfold multiRA.ReadAt
  exact readLoop_log p.length fuel _ (fun x hx => absurd hx (List.not_mem_nil x))

theorem size_eq_sumSizes (srcs : List SizeReaderAt) (hw : WellSized srcs) :
    (NewMultiReaderAt srcs).Size = sumSizes srcs := by
  have := appendParts_snd srcs 0 (le_refl _) hw.1 (by have := hw.2; omega)
  simp only [multiRA.Size, NewMultiReaderAt, this, zero_add]

/-- C1 (round trip of the merged reader): for a byte sequence split into the
segments `ds`, each served by a well-behaved source, `Size()` is the length
of the sequence, and for all `0 <= a <= b <= Size()` a `ReadAt` with a buffer
of length `b - a` at offset `a` returns `n = b - a` and a nil error and
leaves exactly the bytes `[a, b)` of the sequence in the buffer. -/
theorem readAt_round_trip (srcs : List SizeReaderAt) (ds : List (List Byte))
    (hF : List.Forall₂ Serves srcs ds)
    (htot : (ds.flatten.length : Int) < 9223372036854775808)
    (a b : Nat) (hab : a ≤ b) (hb : (b : Int) ≤ (NewMultiReaderAt srcs).Size)
    (p : List Byte) (hp : p.length = b - a) (fuel : Nat) (hfuel : srcs.length ≤ fuel) :
    (NewMultiReaderAt srcs).Size = (ds.flatten.length : Int) ∧
    ((NewMultiReaderAt srcs).ReadAt fuel p a).status = .returned ∧
    ((NewMultiReaderAt srcs).ReadAt fuel p a).n = ((b - a : Nat) : Int) ∧
    ((NewMultiReaderAt srcs).ReadAt fuel p a).err = none ∧
    ((NewMultiReaderAt srcs).ReadAt fuel p a).buf = (ds.flatten.drop a).take (b - a) := by
  have hw := wellSized_serves srcs ds hF htot
  have hsize : (NewMultiReaderAt srcs).Size = (ds.flatten.length : Int) := by
    rw [size_eq_sumSizes srcs hw, sumSizes_serves srcs ds hF]
  rw [hsize] at hb
  obtain ⟨h1, h2, h3, h4⟩ := ReadAt_serves srcs ds hF htot p a fuel hfuel
  have hmin : min p.length (ds.flatten.length - a) = p.length := by omega
  rw [hmin] at h2 h4
  refine ⟨hsize, h1, by rw [h2, hp], by simpa using h4, ?_⟩
  have hle : p.length ≤ ds.flatten.length - a := by omega
  rw [h3, List.drop_of_length_le hle, List.append_nil, hp]

/-- Witness of `readAt_round_trip`: three segments, the middle one empty, and
the range `[1, 4)`. -/
theorem readAt_round_trip_witness :
    (NewMultiReaderAt [bytesSource [1, 2, 3], bytesSource [], bytesSource [4, 5]]).Size
      = (([[1, 2, 3], [], [4, 5]] : List (List Byte)).flatten.length : Int) ∧
    ((NewMultiReaderAt [bytesSource [1, 2, 3], bytesSource [], bytesSource [4, 5]]).ReadAt
      3 [0, 0, 0] (1 : Nat)).status = .returned ∧
    ((NewMultiReaderAt [bytesSource [1, 2, 3], bytesSource [], bytesSource [4, 5]]).ReadAt
      3 [0, 0, 0] (1 : Nat)).n = ((4 - 1 : Nat) : Int) ∧
    ((NewMultiReaderAt [bytesSource [1, 2, 3], bytesSource [], bytesSource [4, 5]]).ReadAt
      3 [0, 0, 0] (1 : Nat)).err = none ∧
    ((NewMultiReaderAt [bytesSource [1, 2, 3], bytesSource [], bytesSource [4, 5]]).ReadAt
      3 [0, 0, 0] (1 : Nat)).buf
      = (([[1, 2, 3], [], [4, 5]] : List (List Byte)).flatten.drop 1).take (4 - 1) :=
  readAt_round_trip [bytesSource [1, 2, 3], bytesSource [], bytesSource [4, 5]]
    [[1, 2, 3], [], [4, 5]]
    (.cons (bytesSource_serves _) (.cons (bytesSource_serves _)
      (.cons (bytesSource_serves _) .nil)))
    (by decide) 1 4 (by decide) (by decide) [0, 0, 0] (by decide) 3 (by decide)

/-- C7, as the code has it: for sources of non-negative sizes whose total
fits `int64`, a `ReadAt` at an offset at or beyond `Size()` with a non-empty
buffer issues no segment read, leaves the buffer as it was, and returns
`n = 0` with `io.ErrUnexpectedEOF`, the status of a short read. -/
theorem readAt_past_end (srcs : List SizeReaderAt) (hw : WellSized srcs) (off : Int)
    (hoff : (NewMultiReaderAt srcs).Size ≤ off) (p : List Byte) (hp : p ≠ []) (fuel : Nat) :
    ((NewMultiReaderAt srcs).ReadAt fuel p off).status = .returned ∧
    ((NewMultiReaderAt srcs).ReadAt fuel p off).n = 0 ∧
    ((NewMultiReaderAt srcs).ReadAt fuel p off).err = some .ErrUnexpectedEOF ∧
    ((NewMultiReaderAt srcs).ReadAt fuel p off).buf = p ∧
    ((NewMultiReaderAt srcs).ReadAt fuel p off).log = [] := by
  rw [size_eq_sumSizes srcs hw] at hoff
  have hnn := sumSizes_nonneg srcs hw.1
  obtain ⟨hr, _, hhi⟩ := skipParts_spec srcs hw off (by omega)
  have hall : Search (NewMultiReaderAt srcs).parts.length
      (contributes (NewMultiReaderAt srcs) off) = srcs.length := by
    by_contra hne
    have h1 := hhi (by omega)
    have h2 := sumSizes_take_le_total srcs hw.1
      (Search (NewMultiReaderAt srcs).parts.length (contributes (NewMultiReaderAt srcs) off) + 1)
    omega
  unfold multiRA.ReadAt
  simp only [hall]
  have hnil : (NewMultiReaderAt srcs).parts.drop srcs.length = [] :=
    List.drop_of_length_le (by rw [parts_length])
  simp only [hnil]
  rw [readLoop_nil _ _ _ rfl]
  have hlen : ¬ ((0 : Int) = (p.length : Int)) := by
    have : p.length ≠ 0 := fun h => hp (List.length_eq_zero.mp h)
    omega
  simp [finish, hlen]

/-- Witness of `readAt_past_end`: one segment of three bytes, read at 3. -/
theorem readAt_past_end_witness :
    ((NewMultiReaderAt [bytesSource [1, 2, 3]]).ReadAt 0 [9] 3).status = .returned ∧
    ((NewMultiReaderAt [bytesSource [1, 2, 3]]).ReadAt 0 [9] 3).n = 0 ∧
    ((NewMultiReaderAt [bytesSource [1, 2, 3]]).ReadAt 0 [9] 3).err = some .ErrUnexpectedEOF ∧
    ((NewMultiReaderAt [bytesSource [1, 2, 3]]).ReadAt 0 [9] 3).buf = [9] ∧
    ((NewMultiReaderAt [bytesSource [1, 2, 3]]).ReadAt 0 [9] 3).log = [] :=
  readAt_past_end [bytesSource [1, 2, 3]]
    ⟨by intro s hs; rw [List.mem_singleton.mp hs]; decide, by decide⟩
    3 (by decide) [9] (by decide) 0

/-- C7 as stated fails: reading one byte at offset 3 of a three-byte merged
reader does not give the plain end-of-data signal `io.EOF`, nor nil, but
`io.ErrUnexpectedEOF`. -/
theorem readAt_past_end_not_EOF :
    (NewMultiReaderAt [bytesSource [1, 2, 3]]).Size ≤ 3 ∧
    ((NewMultiReaderAt [bytesSource [1, 2, 3]]).ReadAt 1 [9] 3).n = 0 ∧
    ((NewMultiReaderAt [bytesSource [1, 2, 3]]).ReadAt 1 [9] 3).err ≠ some .EOF ∧
    ((NewMultiReaderAt [bytesSource [1, 2, 3]]).ReadAt 1 [9] 3).err ≠ none ∧
    ((NewMultiReaderAt [bytesSource [1, 2, 3]]).ReadAt 1 [9] 3).err
      = some .ErrUnexpectedEOF := by
  decide

/-- C8 (short read of the merged reader): over well-behaved sources, a
`ReadAt` at `0 <= off < Size()` with a buffer longer than `Size() - off`
returns `n = Size() - off` and `io.ErrUnexpectedEOF`, and the first `n` bytes
of the buffer are the logical bytes from `off` to the end; for every offset
and buffer the call returns with `io.ErrUnexpectedEOF` exactly when `n`
differs from the buffer length and nil otherwise; and over any sources at
all, a call that returns without a failed segment read has that status. -/
theorem readAt_short_read (srcs : List SizeReaderAt) (ds : List (List Byte))
    (hF : List.Forall₂ Serves srcs ds)
    (htot : (ds.flatten.length : Int) < 9223372036854775808)
    (off : Nat) (hoff : (off : Int) < (NewMultiReaderAt srcs).Size)
    (p : List Byte) (hp : (NewMultiReaderAt srcs).Size - (off : Int) < (p.length : Int))
    (fuel : Nat) (hfuel : srcs.length ≤ fuel) :
    (((NewMultiReaderAt srcs).ReadAt fuel p off).status = .returned ∧
      ((NewMultiReaderAt srcs).ReadAt fuel p off).n = (NewMultiReaderAt srcs).Size - (off : Int) ∧
      ((NewMultiReaderAt srcs).ReadAt fuel p off).buf.take
          ((NewMultiReaderAt srcs).ReadAt fuel p off).n.toNat = ds.flatten.drop off ∧
      ((NewMultiReaderAt srcs).ReadAt fuel p off).err = some .ErrUnexpectedEOF) ∧
    (∀ (q : List Byte) (o : Nat),
      ((NewMultiReaderAt srcs).ReadAt fuel q o).status = .returned ∧
      ((NewMultiReaderAt srcs).ReadAt fuel q o).err
        = if ((NewMultiReaderAt srcs).ReadAt fuel q o).n ≠ (q.length : Int)
            then some .ErrUnexpectedEOF else none) ∧
    (∀ (m : multiRA) (q : List Byte) (o : Int) (g : Nat),
      (m.ReadAt g q o).status = .returned →
      (∀ rec ∈ (m.ReadAt g q o).log, rec.res.err = none) →
      (m.ReadAt g q o).err
        = if (m.ReadAt g q o).n ≠ (q.length : Int) then some .ErrUnexpectedEOF else none) := by
  have hw := wellSized_serves srcs ds hF htot
  have hsize : (NewMultiReaderAt srcs).Size = (ds.flatten.length : Int) := by
    rw [size_eq_sumSizes srcs hw, sumSizes_serves srcs ds hF]
  rw [hsize] at hoff hp
  refine ⟨?_, ?_, ?_⟩
  · obtain ⟨h1, h2, h3, h4⟩ := ReadAt_serves srcs ds hF htot p off fuel hfuel
    have hmin : min p.length (ds.flatten.length - off) = ds.flatten.length - off := by omega
    rw [hmin] at h2 h4
    have hne : ds.flatten.length - off ≠ p.length := by omega
    refine ⟨h1, by rw [h2, hsize]; omega, ?_, by rw [h4, if_pos hne]⟩
    rw [h2, h3, Int.toNat_ofNat]
    have hl : ((ds.flatten.drop off).take p.length).length = ds.flatten.length - off := by
      rw [List.length_take, List.length_drop]
      omega
    rw [List.take_left' hl, List.take_of_length_le (by rw [List.length_drop]; omega)]
  · intro q o
    obtain ⟨h1, h2, _, h4⟩ := ReadAt_serves srcs ds hF htot q o fuel hfuel
    refine ⟨h1, ?_⟩
    rw [h4, h2]
    simp only [ne_eq, Nat.cast_inj]
  · intro m q o g hret hlog
    rcases ReadAt_log m g q o with ⟨_, h⟩ | ⟨init, last, h1, _, h3, _, _⟩
    · exact h hret
    · exact absurd (hlog last (by rw [h1]; simp)) h3

/-- Witness of `readAt_short_read`: five bytes in three segments, a buffer of
six bytes at offset 1. -/
theorem readAt_short_read_witness :
    (((NewMultiReaderAt [bytesSource [1, 2, 3], bytesSource [], bytesSource [4, 5]]).ReadAt
        3 [0, 0, 0, 0, 0, 0] (1 : Nat)).status = .returned ∧
      ((NewMultiReaderAt [bytesSource [1, 2, 3], bytesSource [], bytesSource [4, 5]]).ReadAt
        3 [0, 0, 0, 0, 0, 0] (1 : Nat)).n
        = (NewMultiReaderAt [bytesSource [1, 2, 3], bytesSource [], bytesSource [4, 5]]).Size
            - ((1 : Nat) : Int) ∧
      ((NewMultiReaderAt [bytesSource [1, 2, 3], bytesSource [], bytesSource [4, 5]]).ReadAt
        3 [0, 0, 0, 0, 0, 0] (1 : Nat)).buf.take
          ((NewMultiReaderAt [bytesSource [1, 2, 3], bytesSource [], bytesSource [4, 5]]).ReadAt
            3 [0, 0, 0, 0, 0, 0] (1 : Nat)).n.toNat
        = ([[1, 2, 3], [], [4, 5]] : List (List Byte)).flatten.drop 1 ∧
      ((NewMultiReaderAt [bytesSource [1, 2, 3], bytesSource [], bytesSource [4, 5]]).ReadAt
        3 [0, 0, 0, 0, 0, 0] (1 : Nat)).err = some .ErrUnexpectedEOF) ∧
    (∀ (q : List Byte) (o : Nat),
      ((NewMultiReaderAt [bytesSource [1, 2, 3], bytesSource [], bytesSource [4, 5]]).ReadAt
        3 q o).status = .returned ∧
      ((NewMultiReaderAt [bytesSource [1, 2, 3], bytesSource [], bytesSource [4, 5]]).ReadAt
        3 q o).err
        = if ((NewMultiReaderAt [bytesSource [1, 2, 3], bytesSource [],
                bytesSource [4, 5]]).ReadAt 3 q o).n ≠ (q.length : Int)
            then some .ErrUnexpectedEOF else none) ∧
    (∀ (m : multiRA) (q : List Byte) (o : Int) (g : Nat),
      (m.ReadAt g q o).status = .returned →
      (∀ rec ∈ (m.ReadAt g q o).log, rec.res.err = none) →
      (m.ReadAt g q o).err
        = if (m.ReadAt g q o).n ≠ (q.length : Int) then some .ErrUnexpectedEOF else none) :=
  readAt_short_read [bytesSource [1, 2, 3], bytesSource [], bytesSource [4, 5]]
    [[1, 2, 3], [], [4, 5]]
    (.cons (bytesSource_serves _) (.cons (bytesSource_serves _)
      (.cons (bytesSource_serves _) .nil)))
    (by decide) 1 (by decide) [0, 0, 0, 0, 0, 0] (by decide) 3 (by decide)

/-- C9 (error propagation of the merged reader): in every `ReadAt` call, if
the read of a segment returns a non-nil error `e`, then the call returns,
its error is that same `e`, and that read is the last one issued: no
segment is read after the failing one. -/
theorem readAt_error_propagates (m : multiRA) (fuel : Nat) (p : List Byte) (off : Int)
    (i : Nat) (rec : ReadRec) (e : Error)
    (hrec : (m.ReadAt fuel p off).log[i]? = some rec) (herr : rec.res.err = some e) :
    (m.ReadAt fuel p off).status = .returned ∧
    (m.ReadAt fuel p off).err = some e ∧
    i + 1 = (m.ReadAt fuel p off).log.length := by
  rcases ReadAt_log m fuel p off
    with ⟨h, _⟩ | ⟨init, last, h1, h2, _, h4, h5⟩
  · have := h rec (List.getElem?_mem hrec)
    rw [herr] at this
    cases this
  · rw [h1] at hrec ⊢
    have hi : i < (init ++ [last]).length := by
      by_contra hc
      rw [List.getElem?_eq_none (by omega)] at hrec
      cases hrec
    rw [List.length_append, List.length_singleton] at hi ⊢
    by_cases hlt : i < init.length
    · rw [List.getElem?_append_left hlt] at hrec
      have := h2 rec (List.getElem?_mem hrec)
      rw [herr] at this
      cases this
    · have hieq : i = init.length := by omega
      subst hieq
      rw [List.getElem?_append_right (le_refl _)] at hrec
      simp only [Nat.sub_self, List.getElem?_cons_zero, Option.some.injEq] at hrec
      subst hrec
      exact ⟨h4, by rw [h5, herr], rfl⟩

/-- Witness of `readAt_error_propagates`: the second of three segments fails
with error 7; the third is never read. -/
theorem readAt_error_propagates_witness :
    ((NewMultiReaderAt [bytesSource [1, 2], failingSource 2 (.other 7),
        bytesSource [3]]).ReadAt 3 [0, 0, 0, 0] 0).status = .returned ∧
    ((NewMultiReaderAt [bytesSource [1, 2], failingSource 2 (.other 7),
        bytesSource [3]]).ReadAt 3 [0, 0, 0, 0] 0).err = some (.other 7) ∧
    1 + 1 = ((NewMultiReaderAt [bytesSource [1, 2], failingSource 2 (.other 7),
        bytesSource [3]]).ReadAt 3 [0, 0, 0, 0] 0).log.length :=
  readAt_error_propagates
    (NewMultiReaderAt [bytesSource [1, 2], failingSource 2 (.other 7), bytesSource [3]])
    3 [0, 0, 0, 0] 0 1 ⟨1, 2, 0, ⟨[], 0, some (.other 7)⟩⟩ (.other 7) (by decide) rfl

end Util
end Sevenzip

namespace Sevenzip
namespace Sha256

theorem absorbN_append (k : Nat) :
    ∀ (h : List Nat) (xs ys : List Byte), 64 * k ≤ xs.length →
      absorbN k h (xs ++ ys) = ((absorbN k h xs).1, (absorbN k h xs).2 ++ ys) := by
  induction k with
  | zero => intro h xs ys _; rfl
  | succ k ih =>
    intro h xs ys hlen
    simp only [absorbN]
    rw [List.take_append_of_le_length (by omega), List.drop_append_of_le_length (by omega)]
    exact ih _ _ _ (by rw [List.length_drop]; omega)

theorem absorbN_add (a : Nat) :
    ∀ (b : Nat) (h : List Nat) (xs : List Byte),
      absorbN (a + b) h xs = absorbN b (absorbN a h xs).1 (absorbN a h xs).2 := by
  induction a with
  | zero => intro b h xs; simp [absorbN]
  | succ a ih =>
    intro b h xs
    rw [show a + 1 + b = (a + b) + 1 by omega]
    simp only [absorbN]
    exact ih b _ _

theorem absorbN_length (k : Nat) :
    ∀ (h : List Nat) (xs : List Byte), (absorbN k h xs).2.length = xs.length - 64 * k := by
  induction k with
  | zero => intro h xs; rfl
  | succ k ih =>
    intro h xs
    simp only [absorbN]
    rw [ih, List.length_drop]
    omega

/-- Compressing a concatenation is compressing its first part and going on
with what that left pending, followed by the second part. -/
theorem absorb_append (h : List Nat) (xs ys : List Byte) :
    absorb h (xs ++ ys) = absorb (absorb h xs).1 ((absorb h xs).2 ++ ys) := by
  unfold absorb
  have hr := absorbN_length (xs.length / 64) h xs
  have e1 : (xs ++ ys).length / 64 = xs.length / 64 + (xs.length % 64 + ys.length) / 64 := by
    rw [List.length_append]
    omega
  have e2 : ((absorbN (xs.length / 64) h xs).2 ++ ys).length / 64
      = (xs.length % 64 + ys.length) / 64 := by
    rw [List.length_append, hr]
    congr 1
    omega
  rw [e1, e2, absorbN_add, absorbN_append _ _ _ _ (Nat.mul_div_le _ _)]

theorem absorb_short (h : List Nat) (xs : List Byte) (hx : xs.length < 64) :
    absorb h xs = (h, xs) := by
  unfold absorb
  rw [Nat.div_eq_of_lt hx]
  rfl

theorem absorb_length_lt (h : List Nat) (xs : List Byte) : (absorb h xs).2.length < 64 := by
  unfold absorb
  rw [absorbN_length]
  have := Nat.mul_div_le xs.length 64
  omega

/-- Streaming: two writes are one write of the concatenation. -/
theorem Write_Write (d : digest) (a b : List Byte) :
    (d.Write a).Write b = d.Write (a ++ b) := by
  simp only [digest.Write]
  rw [← List.append_assoc, absorb_append d.h (d.x ++ a) b]
  congr 1
  rw [List.length_append]
  omega

theorem Write_nil (d : digest) (hx : d.x.length < 64) (hl : d.len < 18446744073709551616) :
    d.Write [] = d := by
  simp only [digest.Write, List.append_nil, List.length_nil, Nat.add_zero]
  rw [absorb_short _ _ hx, Nat.mod_eq_of_lt hl]

theorem round_length (v : List Nat) (kw : Nat) (hv : v.length = 8) : (round v kw).length = 8 := by
  match v, hv with
  | [_, _, _, _, _, _, _, _], _ => rfl

theorem foldl_round_length (kws : List Nat) :
    ∀ (v : List Nat), v.length = 8 → (kws.foldl round v).length = 8 := by
  induction kws with
  | nil => intro v hv; exact hv
  | cons k ks ih => intro v hv; exact ih _ (round_length v k hv)

theorem block_length (h : List Nat) (chunk : List Byte) (hh : h.length = 8) :
    (block h chunk).length = 8 := by
  unfold block
  simp only [List.length_zipWith]
  rw [foldl_round_length _ h hh, hh]
  rfl

theorem absorbN_h_length (k : Nat) :
    ∀ (h : List Nat) (xs : List Byte), h.length = 8 → (absorbN k h xs).1.length = 8 := by
  induction k with
  | zero => intro h xs hh; exact hh
  | succ k ih => intro h xs hh; exact ih _ _ (block_length h _ hh)

theorem Write_h_length (d : digest) (p : List Byte) (hd : d.h.length = 8) :
    (d.Write p).h.length = 8 :=
  absorbN_h_length _ _ _ hd

theorem word32Bytes_length (w : Nat) : (word32Bytes w).length = 4 := rfl

theorem flatten_word32Bytes_length (h : List Nat) :
    (h.map word32Bytes).flatten.length = 4 * h.length := by
  induction h with
  | nil => rfl
  | cons w ws ih =>
    simp only [List.map_cons, List.flatten_cons, List.length_append, ih, word32Bytes_length,
      List.length_cons]
    omega

/-- A digest is 32 bytes long. -/
theorem Sum_length (d : digest) (hd : d.h.length = 8) : d.Sum.length = 32 := by
  unfold digest.Sum
  simp only
  rw [flatten_word32Bytes_length, Write_h_length _ _ hd]

theorem New_Write_h_length (msg : List Byte) : (New.Write msg).h.length = 8 :=
  Write_h_length New msg rfl

theorem Sum256_length (msg : List Byte) : (Sum256 msg).length = 32 :=
  Sum_length _ (New_Write_h_length msg)

end Sha256
end Sevenzip

namespace Sevenzip
namespace LRU

variable {K V : Type} [DecidableEq K]

theorem mem_of_mem_erase (items : List (K × V)) (k : K) (e : K × V)
    (h : e ∈ erase items k) : e ∈ items := by
  induction items with
  | nil => exact h
  | cons x xs ih =>
    simp only [erase] at h
    split at h
    · exact List.mem_cons_of_mem _ h
    · rcases List.mem_cons.mp h with rfl | h
      · exact List.mem_cons_self _ _
      · exact List.mem_cons_of_mem _ (ih h)

theorem mem_of_Peek (c : LRU K V) (k : K) (v : V) (h : c.Peek k = some v) :
    (k, v) ∈ c.items := by
  unfold Peek at h
  cases hf : c.items.find? (fun e => decide (e.1 = k)) with
  | none => rw [hf] at h; cases h
  | some e =>
    rw [hf] at h
    simp only [Option.map_some', Option.some.injEq] at h
    have hm := List.mem_of_find?_eq_some hf
    have hk := List.find?_some hf
    simp only [decide_eq_true_eq] at hk
    rw [← hk, ← h]
    exact hm

theorem mem_of_mem_Get (c : LRU K V) (k : K) (e : K × V) (h : e ∈ (c.Get k).2.items) :
    e ∈ c.items := by
  unfold Get at h
  cases hp : c.Peek k with
  | none => rw [hp] at h; exact h
  | some v =>
    rw [hp] at h
    rcases List.mem_cons.mp h with rfl | h
    · exact mem_of_Peek c k v hp
    · exact mem_of_mem_erase _ _ _ h

theorem Get_fst (c : LRU K V) (k : K) : (c.Get k).1 = c.Peek k := by
  unfold Get
  cases c.Peek k <;> rfl

theorem mem_of_mem_Add (c : LRU K V) (k : K) (v : V) (e : K × V)
    (h : e ∈ (c.Add k v).2.items) : e = (k, v) ∨ e ∈ c.items := by
  unfold Add at h
  split at h
  · rcases List.mem_cons.mp h with rfl | h
    · exact Or.inl rfl
    · exact Or.inr (mem_of_mem_erase _ _ _ h)
  · simp only at h
    split at h
    · have := List.mem_of_mem_dropLast h
      rcases List.mem_cons.mp this with rfl | h
      · exact Or.inl rfl
      · exact Or.inr h
    · rcases List.mem_cons.mp h with rfl | h
      · exact Or.inl rfl
      · exact Or.inr h

end LRU

namespace Aes7z

open Sha256

theorem hexDigit_inj : ∀ a b : Fin 16, hexDigit a.val = hexDigit b.val → a = b := by
  decide

theorem hexPair_inj (a b : Byte)
    (h : [hexDigit (a.val / 16), hexDigit (a.val % 16)]
      = [hexDigit (b.val / 16), hexDigit (b.val % 16)]) : a = b := by
  simp only [List.cons.injEq, and_true] at h
  have h1 := hexDigit_inj ⟨a.val / 16, by omega⟩ ⟨b.val / 16, by omega⟩ h.1
  have h2 := hexDigit_inj ⟨a.val % 16, by omega⟩ ⟨b.val % 16, by omega⟩ h.2
  simp only [Fin.mk.injEq] at h1 h2
  apply Fin.ext
  omega

theorem hexList_inj (xs : List Byte) :
    ∀ (ys : List Byte),
      (xs.map (fun b => [hexDigit (b.val / 16), hexDigit (b.val % 16)])).flatten
        = (ys.map (fun b => [hexDigit (b.val / 16), hexDigit (b.val % 16)])).flatten →
      xs = ys := by
  induction xs with
  | nil =>
    intro ys h
    cases ys with
    | nil => rfl
    | cons y ys => simp at h
  | cons x xs ih =>
    intro ys h
    cases ys with
    | nil => simp at h
    | cons y ys =>
      simp only [List.map_cons, List.flatten_cons, List.cons_append, List.nil_append,
        List.cons.injEq] at h
      obtain ⟨h1, h2, h3⟩ := h
      have hxy : x = y := hexPair_inj x y (by rw [h1, h2])
      rw [hxy, ih ys h3]

/-- The hex encoding of the salt determines the salt. -/
theorem hexEncode_inj (xs ys : List Byte) (h : hexEncode xs = hexEncode ys) : xs = ys :=
  hexList_inj xs ys (congrArg String.data h)

/-- Every write leaves fewer than 64 bytes pending and a length in
`uint64`. -/
theorem Write_wf (d : digest) (p : List Byte) :
    (d.Write p).x.length < 64 ∧ (d.Write p).len < 18446744073709551616 :=
  ⟨absorb_length_lt _ _, Nat.mod_lt _ (by decide)⟩

theorem foldl_Write (b : List Byte) (l : List Nat) :
    ∀ (d : digest), d.x.length < 64 → d.len < 18446744073709551616 →
      l.foldl (fun h i => (h.Write b).Write (le64 i)) d
        = d.Write ((l.map (fun i => b ++ le64 i)).flatten) := by
  induction l with
  | nil => intro d hx hl; exact (Write_nil d hx hl).symm
  | cons i is ih =>
    intro d _ _
    simp only [List.foldl_cons, List.map_cons, List.flatten_cons]
    rw [ih _ (Write_wf _ _).1 (Write_wf _ _).2, Write_Write, Write_Write, List.append_assoc]

/-- The streamed hash of the loop is the hash of the materialised
concatenation. -/
theorem hashLoop_eq (b : List Byte) (bound : Nat) :
    hashLoop b bound = New.Write (((List.range bound).map (fun i => b ++ le64 i)).flatten) :=
  foldl_Write b _ New (by decide) (by decide)

theorem copy_full (src : List Byte) (h : src.length = 32) :
    copy (List.replicate 32 (0 : Byte)) src = src := by
  unfold copy
  rw [List.length_replicate, List.take_of_length_le (by omega),
    List.drop_of_length_le (by rw [List.length_replicate]; omega), List.append_nil]

theorem copy_length (src : List Byte) :
    (copy (List.replicate 32 (0 : Byte)) src).length = 32 := by
  unfold copy
  simp only [List.length_append, List.length_take, List.length_drop, List.length_replicate]
  omega

theorem deriveKey_hash (pw : String) (cycles : Int) (salt : List Byte) (h0 : 0 ≤ cycles)
    (h1 : cycles ≤ 62) :
    deriveKey pw cycles salt
      = .ret (Sum256 (((List.range (2 ^ cycles.toNat)).map
          (fun i => (salt ++ utf16le pw) ++ le64 i)).flatten)) none := by
  unfold deriveKey
  simp only
  rw [if_neg (by omega), if_neg (by omega), if_neg (by omega), hashLoop_eq]
  rw [copy_full _ (Sum_length _ (New_Write_h_length _))]
  rfl

theorem Peek_newCache (ck : cacheKey) : newCache.Peek ck = none := rfl

/-- On the empty cache `calculateKey` returns what the derivation gives. -/
theorem calculateKey_newCache (pw : String) (cycles : Int) (salt : List Byte) :
    (calculateKey newCache pw cycles salt).1 = deriveKey pw cycles salt := by
  unfold calculateKey
  simp only [LRU.Get, Peek_newCache]
  cases deriveKey pw cycles salt <;> rfl

end Aes7z
end Sevenzip

namespace Sevenzip
namespace Aes7z

open Sha256

theorem deriveKey_err (pw : String) (cycles : Int) (salt : List Byte) (key : List Byte)
    (err : Option Error) (h : deriveKey pw cycles salt = .ret key err) : err = none := by
  unfold deriveKey at h
  simp only at h
  split at h
  · cases h; rfl
  · split at h
    · cases h
    · cases h; rfl

/-- One call on a sound cache returns what the derivation gives and leaves
the cache sound. -/
theorem calculateKey_sound (c : LRU cacheKey (List Byte)) (hc : Sound c) (pw : String)
    (cycles : Int) (salt : List Byte) :
    (calculateKey c pw cycles salt).1 = deriveKey pw cycles salt ∧
    Sound (calculateKey c pw cycles salt).2 := by
  unfold calculateKey
  simp only
  cases hg : c.Get { password := pw, cycles := cycles, salt := hexEncode salt } with
  | mk r c1 =>
    have hr : r = c.Peek { password := pw, cycles := cycles, salt := hexEncode salt } := by
      rw [← LRU.Get_fst, hg]
    have hc1 : Sound c1 := by
      intro e he
      have : e ∈ (c.Get { password := pw, cycles := cycles, salt := hexEncode salt }).2.items := by
        rw [hg]; exact he
      exact hc e (LRU.mem_of_mem_Get _ _ _ this)
    cases r with
    | some key =>
      have hm := LRU.mem_of_Peek c _ key hr.symm
      exact ⟨(hc _ hm pw cycles salt rfl).symm, hc1⟩
    | none =>
      simp only
      cases hd : deriveKey pw cycles salt with
      | panicked => exact ⟨rfl, hc1⟩
      | ret key err =>
        refine ⟨rfl, ?_⟩
        have herr := deriveKey_err pw cycles salt key err hd
        subst herr
        intro e he pw1 cycles1 salt1 hk
        rcases LRU.mem_of_mem_Add _ _ _ _ he with rfl | he
        · simp only [cacheKey.mk.injEq] at hk
          obtain ⟨h1, h2, h3⟩ := hk
          rw [← h1, ← h2, ← hexEncode_inj _ _ h3]
          exact hd
        · exact hc1 e he pw1 cycles1 salt1 hk

theorem sound_newCache : Sound newCache := by
  intro e he
  cases he

theorem runCalls_sound (calls : List (String × Int × List Byte)) :
    ∀ (c : LRU cacheKey (List Byte)), Sound c →
      (runCalls c calls).1 = calls.map (fun a => deriveKey a.1 a.2.1 a.2.2) ∧
      Sound (runCalls c calls).2 := by
  induction calls with
  | nil => intro c hc; exact ⟨rfl, hc⟩
  | cons a rest ih =>
    intro c hc
    obtain ⟨pw, cycles, salt⟩ := a
    obtain ⟨h1, h2⟩ := calculateKey_sound c hc pw cycles salt
    obtain ⟨h3, h4⟩ := ih _ h2
    simp only [runCalls, List.map_cons]
    exact ⟨by rw [h1, h3], h4⟩

/-- C3 (key derivation formula): for `cycles` in `[0, 62]`, `calculateKey` on
the empty cache returns a nil error and the 32-byte SHA-256 digest of the
concatenation, for `i = 0, ..., 2^cycles - 1` in order, of the salt, the
UTF-16LE password and `i` as 8 little-endian bytes: the streamed hash is the
hash of the materialised concatenation.  For `cycles = 0` that is the digest
of salt, password and 8 zero bytes. -/
theorem calculateKey_formula (pw : String) (cycles : Int) (salt : List Byte)
    (h0 : 0 ≤ cycles) (h1 : cycles ≤ 62) :
    (calculateKey newCache pw cycles salt).1
      = .ret (Sum256 (((List.range (2 ^ cycles.toNat)).map
          (fun i => (salt ++ utf16le pw) ++ le64 i)).flatten)) none ∧
    (Sum256 (((List.range (2 ^ cycles.toNat)).map
          (fun i => (salt ++ utf16le pw) ++ le64 i)).flatten)).length = 32 ∧
    (cycles = 0 →
      (calculateKey newCache pw cycles salt).1
        = .ret (Sum256 (salt ++ utf16le pw ++ List.replicate 8 0)) none) := by
  have h := deriveKey_hash pw cycles salt h0 h1
  refine ⟨by rw [calculateKey_newCache, h], Sum256_length _, ?_⟩
  intro hz
  subst hz
  rw [calculateKey_newCache, h]
  have hle : le64 0 = List.replicate 8 0 := by decide
  have hrange : List.range (2 ^ (0 : Int).toNat) = [0] := by decide
  simp only [hrange, List.map_cons, List.map_nil, List.flatten_cons, List.flatten_nil, hle,
    List.append_nil]

/-- Witness of `calculateKey_formula`: no rounds beyond the first. -/
theorem calculateKey_formula_witness :
    (calculateKey newCache "pw" 0 [1, 2]).1
      = .ret (Sum256 (((List.range (2 ^ (0 : Int).toNat)).map
          (fun i => (([1, 2] : List Byte) ++ utf16le "pw") ++ le64 i)).flatten)) none ∧
    (Sum256 (((List.range (2 ^ (0 : Int).toNat)).map
          (fun i => (([1, 2] : List Byte) ++ utf16le "pw") ++ le64 i)).flatten)).length = 32 ∧
    ((0 : Int) = 0 →
      (calculateKey newCache "pw" 0 [1, 2]).1
        = .ret (Sum256 (([1, 2] : List Byte) ++ utf16le "pw" ++ List.replicate 8 0)) none) :=
  calculateKey_formula "pw" 0 [1, 2] (by decide) (by decide)

/-- C4 (key derivation sentinel): after any sequence of earlier calls,
`calculateKey(password, 63, salt)` returns a nil error and a key of 32 bytes:
the first 32 bytes of the salt followed by the UTF-16LE password, padded on
the right with zero bytes; nothing is hashed. -/
theorem calculateKey_sentinel (calls : List (String × Int × List Byte)) (pw : String)
    (salt : List Byte) :
    (calculateKey (runCalls newCache calls).2 pw 63 salt).1
      = .ret ((salt ++ utf16le pw).take 32
          ++ List.replicate (32 - (salt ++ utf16le pw).length) 0) none ∧
    ((salt ++ utf16le pw).take 32
      ++ List.replicate (32 - (salt ++ utf16le pw).length) 0).length = 32 := by
  have hs := (runCalls_sound calls newCache sound_newCache).2
  have hk : deriveKey pw 63 salt
      = .ret ((salt ++ utf16le pw).take 32
          ++ List.replicate (32 - (salt ++ utf16le pw).length) 0) none := by
    unfold deriveKey
    simp only [if_true]
    unfold copy
    rw [List.length_replicate, List.drop_replicate]
  refine ⟨by rw [(calculateKey_sound _ hs pw 63 salt).1, hk], ?_⟩
  rw [List.length_append, List.length_take, List.length_replicate]
  omega

/-- C5, as the code has it: for `cycles` outside `[0, 63]` no invalid-parameter
error is returned.  For `cycles` of 64 and above the shift `1<<cycles` is 0,
no round is hashed, and `calculateKey` on the empty cache returns a nil error
and the 32-byte SHA-256 digest of the empty message; for negative `cycles`
the shift panics and nothing is returned. -/
theorem calculateKey_out_of_range (pw : String) (cycles : Int) (salt : List Byte)
    (h : cycles < 0 ∨ 63 < cycles) :
    (calculateKey newCache pw cycles salt).1
      = (if cycles < 0 then .panicked else .ret (Sum256 []) none) ∧
    (Sum256 []).length = 32 ∧
    ∀ key e, (calculateKey newCache pw cycles salt).1 ≠ .ret key (some e) := by
  have hk : deriveKey pw cycles salt
      = (if cycles < 0 then .panicked else .ret (Sum256 []) none) := by
    unfold deriveKey
    simp only
    rw [if_neg (by omega)]
    by_cases hneg : cycles < 0
    · rw [if_pos hneg, if_pos hneg]
    · rw [if_neg hneg, if_neg hneg, if_pos (by omega), hashLoop_eq]
      have : (New.Write ((List.range 0).map
          (fun i => (salt ++ utf16le pw) ++ le64 i)).flatten).Sum = Sum256 [] := rfl
      rw [this, copy_full _ (Sum256_length _)]
  rw [calculateKey_newCache, hk]
  refine ⟨rfl, Sum256_length _, ?_⟩
  intro key e
  split <;> simp

/-- Witness of `calculateKey_out_of_range`: `cycles = 64`. -/
theorem calculateKey_out_of_range_witness :
    (calculateKey newCache "pw" 64 [1, 2]).1
      = (if (64 : Int) < 0 then .panicked else .ret (Sum256 []) none) ∧
    (Sum256 []).length = 32 ∧
    ∀ key e, (calculateKey newCache "pw" 64 [1, 2]).1 ≠ .ret key (some e) :=
  calculateKey_out_of_range "pw" 64 [1, 2] (Or.inr (by decide))

/-- C5 as stated fails: with `cycles = 64`, outside `[0, 63]`,
`calculateKey` returns a key and a nil error, not an error. -/
theorem calculateKey_64_returns_key :
    ((64 : Int) < 0 ∨ (63 : Int) < 64) ∧
    (calculateKey newCache "" 64 []).1 = .ret (Sum256 []) none ∧
    (Sum256 []).length = 32 := by
  refine ⟨Or.inr (by decide), ?_, Sum256_length _⟩
  rw [calculateKey_newCache]
  have h : deriveKey "" 64 [] = .ret (copy (List.replicate 32 0) (Sum256 [])) none := rfl
  rw [h, copy_full _ (Sum256_length _)]

/-- C6 (cache transparency of key derivation): in every finite sequence of
`calculateKey` calls from the empty cache on, each call returns exactly what
a call with the same arguments on an empty cache returns; and two argument
tuples have the same cache key only when password, cycles and salt bytes are
all equal. -/
theorem calculateKey_cache_transparent (calls : List (String × Int × List Byte)) :
    (runCalls newCache calls).1
      = calls.map (fun a => (calculateKey newCache a.1 a.2.1 a.2.2).1) ∧
    ∀ (pw pw1 : String) (cycles cycles1 : Int) (salt salt1 : List Byte),
      ({ password := pw, cycles := cycles, salt := hexEncode salt } : cacheKey)
        = { password := pw1, cycles := cycles1, salt := hexEncode salt1 } →
      pw = pw1 ∧ cycles = cycles1 ∧ salt = salt1 := by
  refine ⟨?_, ?_⟩
  · rw [(runCalls_sound calls newCache sound_newCache).1]
    apply List.map_congr_left
    intro a _
    rw [calculateKey_newCache]
  · intro pw pw1 cycles cycles1 salt salt1 h
    simp only [cacheKey.mk.injEq] at h
    exact ⟨h.1, h.2.1, hexEncode_inj _ _ h.2.2⟩

end Aes7z
end Sevenzip

namespace Sevenzip
namespace LRU

variable {K V : Type} [DecidableEq K]

theorem find?_erase_ne (items : List (K × V)) (k j : K) (h : j ≠ k) :
    (erase items k).find? (fun e => decide (e.1 = j))
      = items.find? (fun e => decide (e.1 = j)) := by
  induction items with
  | nil => rfl
  | cons x xs ih =>
    simp only [erase]
    by_cases hx : x.1 = k
    · rw [if_pos hx]
      have : ¬ (x.1 = j) := fun hj => h (hj.symm.trans hx)
      simp [List.find?_cons, this]
    · rw [if_neg hx]
      simp only [List.find?_cons]
      rw [ih]

theorem find?_erase_self (items : List (K × V)) (k : K)
    (hnd : (items.map Prod.fst).Nodup) :
    (erase items k).find? (fun e => decide (e.1 = k)) = none := by
  induction items with
  | nil => rfl
  | cons x xs ih =>
    simp only [List.map_cons, List.nodup_cons] at hnd
    simp only [erase]
    by_cases hx : x.1 = k
    · rw [if_pos hx]
      rw [List.find?_eq_none]
      intro e he
      simp only [decide_eq_true_eq]
      intro hek
      exact hnd.1 (by rw [hx, ← hek]; exact List.mem_map_of_mem _ he)
    · rw [if_neg hx]
      simp only [List.find?_cons, hx, decide_False]
      exact ih hnd.2

theorem Peek_erase_ne (size : Nat) (items : List (K × V)) (k j : K) (h : j ≠ k) :
    Peek ⟨size, erase items k⟩ j = Peek ⟨size, items⟩ j := by
  simp only [Peek, find?_erase_ne items k j h]

theorem Peek_erase_self (size : Nat) (items : List (K × V)) (k : K)
    (hnd : (items.map Prod.fst).Nodup) : Peek ⟨size, erase items k⟩ k = none := by
  simp only [Peek, find?_erase_self items k hnd, Option.map_none']

end LRU

/-- Taking out a resident key: its entry leaves the cache, the others stay
as they are and in their order, and no handle is closed. -/
theorem takeOut_resident (size : Nat) (items : List (Int × Option Handle))
    (closed : List Handle) (k : Int) (v w : Option Handle)
    (hk : LRU.Peek ⟨size, items⟩ k = some w) :
    takeOut ⟨size, items⟩ closed k v
      = .ok (v, true) (enabled size (LRU.erase items k) closed) := by
  have hc : LRU.Contains ⟨size, items⟩ k = true := by simp [LRU.Contains, hk]
  simp only [takeOut, LRU.Add, hc, if_true, onEvict, LRU.Remove, List.find?_cons,
    decide_True, LRU.erase, Option.isSome_some, enabled]

end Sevenzip

namespace Sevenzip
namespace LRU

variable {K V : Type} [DecidableEq K]

theorem keys_erase_sublist (items : List (K × V)) (k : K) :
    ((erase items k).map Prod.fst).Sublist (items.map Prod.fst) := by
  induction items with
  | nil => exact List.Sublist.refl _
  | cons x xs ih =>
    simp only [erase]
    split
    · exact List.sublist_cons_self _ _
    · exact List.Sublist.cons₂ _ ih

theorem not_mem_keys_erase (items : List (K × V)) (k : K)
    (hnd : (items.map Prod.fst).Nodup) : k ∉ (erase items k).map Prod.fst := by
  intro hmem
  obtain ⟨e, he, hek⟩ := List.mem_map.mp hmem
  have := find?_erase_self items k hnd
  rw [List.find?_eq_none] at this
  exact this e he (by simpa using hek)

theorem not_mem_keys_of_Contains (c : LRU K V) (k : K) (h : c.Contains k = false) :
    k ∉ c.items.map Prod.fst := by
  intro hmem
  obtain ⟨e, he, hek⟩ := List.mem_map.mp hmem
  simp only [Contains, Peek] at h
  cases hf : c.items.find? (fun e => decide (e.1 = k)) with
  | none =>
    rw [List.find?_eq_none] at hf
    exact hf e he (by simpa using hek)
  | some x =>
    rw [hf] at h
    cases h

/-- The keys of the cache stay distinct under `Add`. -/
theorem Add_nodup (c : LRU K V) (k : K) (v : V) (hnd : (c.items.map Prod.fst).Nodup) :
    ((c.Add k v).2.items.map Prod.fst).Nodup := by
  unfold Add
  cases hc : c.Contains k with
  | true =>
    simp only [if_true, List.map_cons]
    exact List.nodup_cons.mpr
      ⟨not_mem_keys_erase c.items k hnd, hnd.sublist (keys_erase_sublist c.items k)⟩
  | false =>
    have hall : (((k, v) :: c.items).map Prod.fst).Nodup := by
      simp only [List.map_cons]
      exact List.nodup_cons.mpr ⟨not_mem_keys_of_Contains c k hc, hnd⟩
    simp only [Bool.false_eq_true, if_false]
    split
    · exact hall.sublist ((List.dropLast_sublist _).map _)
    · exact hall

/-- The keys of the cache stay distinct under `Remove`. -/
theorem Remove_nodup (c : LRU K V) (k : K) (hnd : (c.items.map Prod.fst).Nodup) :
    ((c.Remove k).2.items.map Prod.fst).Nodup := by
  unfold Remove
  split
  · exact hnd.sublist (keys_erase_sublist c.items k)
  · exact hnd

end LRU

/-- C10 (exact hit of the pool): in an enabled pool whose entries have
distinct positions and in which an entry is resident at exactly `offset`,
`Get(offset)` returns the handle stored there and `true`, whatever else is
resident; afterwards no entry is resident at `offset`, every other entry
keeps its position, handle and place in the eviction order, and nothing was
closed. -/
theorem Get_exact_hit (size : Nat) (items : List (Int × Option Handle))
    (closed : List Handle) (offset : Int) (v : Option Handle)
    (hnd : (items.map Prod.fst).Nodup)
    (hv : LRU.Peek ⟨size, items⟩ offset = some v) :
    Get (enabled size items closed) offset
      = .ok (v, true) (enabled size (LRU.erase items offset) closed) ∧
    LRU.Peek ⟨size, LRU.erase items offset⟩ offset = none ∧
    ∀ k, k ≠ offset →
      LRU.Peek ⟨size, LRU.erase items offset⟩ k = LRU.Peek ⟨size, items⟩ k := by
  refine ⟨?_, LRU.Peek_erase_self size items offset hnd,
    fun k hk => LRU.Peek_erase_ne size items offset k hk⟩
  simp only [Get, enabled, hv]
  exact takeOut_resident size items closed offset v v hv

/-- Witness of `Get_exact_hit`: positions 5, 10 and 20 are resident and 20 is
asked for. -/
theorem Get_exact_hit_witness :
    Get (enabled 4 [(20, some 120), (10, some 110), (5, some 105)] []) 20
      = .ok (some 120, true)
          (enabled 4 (LRU.erase [(20, some 120), (10, some 110), (5, some 105)] 20) []) ∧
    LRU.Peek ⟨4, LRU.erase [((20 : Int), (some 120 : Option Handle)), (10, some 110),
      (5, some 105)] 20⟩ 20 = none ∧
    ∀ k, k ≠ 20 →
      LRU.Peek ⟨4, LRU.erase [((20 : Int), (some 120 : Option Handle)), (10, some 110),
        (5, some 105)] 20⟩ k
      = LRU.Peek ⟨4, [(20, some 120), (10, some 110), (5, some 105)]⟩ k :=
  Get_exact_hit 4 [(20, some 120), (10, some 110), (5, some 105)] [] 20 (some 120)
    (by decide) (by decide)

/-- C2 fails on the code: with positions 5, 10 and 20 resident (added in that
order to a pool of capacity 4), `Get(15)` returns the handle of the entry at
5, the smallest position below 15, and leaves the entry at 10 resident. -/
theorem Get_15_returns_entry_at_5 :
    (Get (Add (Add (Add (newCachePool 4 false) 5 (some 105)).state 10 (some 110)).state
        20 (some 120)).state 15).val? = some (some 105, true) ∧
    ((Get (Add (Add (Add (newCachePool 4 false) 5 (some 105)).state 10 (some 110)).state
        20 (some 120)).state 15).state.pool.c.map (fun c => c.items))
      = some [(20, some 120), (10, some 110)] := by
  decide

theorem mem_insertLeft (cmp : Int → Int → Int) (x k : Int) (l : List Int) :
    k ∈ insertLeft cmp x l ↔ k = x ∨ k ∈ l := by
  induction l with
  | nil => simp [insertLeft]
  | cons y ys ih =>
    simp only [insertLeft]
    split
    · simp only [List.mem_cons, ih]
      constructor
      · rintro (h | h | h)
        · exact Or.inr (Or.inl h)
        · exact Or.inl h
        · exact Or.inr (Or.inr h)
      · rintro (h | h | h)
        · exact Or.inr (Or.inl h)
        · exact Or.inl h
        · exact Or.inr (Or.inr h)
    · simp only [List.mem_cons]

theorem mem_foldl_insertLeft (cmp : Int → Int → Int) (k : Int) (keys : List Int) :
    ∀ acc : List Int,
      k ∈ keys.foldl (fun acc x => insertLeft cmp x acc) acc ↔ k ∈ keys ∨ k ∈ acc := by
  induction keys with
  | nil => intro acc; simp
  | cons x xs ih =>
    intro acc
    simp only [List.foldl_cons, ih, mem_insertLeft, List.mem_cons]
    constructor
    · rintro (h | h | h)
      · exact Or.inl (Or.inr h)
      · exact Or.inl (Or.inl h)
      · exact Or.inr h
    · rintro ((h | h) | h)
      · exact Or.inr (Or.inl h)
      · exact Or.inl h
      · exact Or.inr (Or.inr h)

/-- Sorting keeps exactly the keys it was given. -/
theorem mem_SortFunc (cmp : Int → Int → Int) (k : Int) (keys : List Int) :
    k ∈ SortFunc cmp keys ↔ k ∈ keys := by
  simp only [SortFunc, List.mem_reverse, mem_foldl_insertLeft, List.not_mem_nil, or_false]

theorem mem_Keys (c : LRU Int (Option Handle)) (k : Int) :
    k ∈ c.Keys ↔ ∃ e ∈ c.items, e.1 = k := by
  simp only [LRU.Keys, List.mem_reverse, List.mem_map]

theorem Peek_eq_none_iff (c : LRU Int (Option Handle)) (k : Int) :
    c.Peek k = none ↔ ∀ e ∈ c.items, e.1 ≠ k := by
  simp only [LRU.Peek, Option.map_eq_none', List.find?_eq_none, decide_eq_true_eq]

theorem Peek_of_mem (c : LRU Int (Option Handle)) (e : Int × Option Handle)
    (he : e ∈ c.items) : ∃ w, c.Peek e.1 = some w := by
  cases h : c.Peek e.1 with
  | some w => exact ⟨w, rfl⟩
  | none => exact absurd rfl ((Peek_eq_none_iff c e.1).mp h e he)

/-- What `Get` does on an enabled pool: either no resident position is at or
below `offset`, and it reports not found and changes nothing; or it returns
the entry of a resident position at or below `offset` with `true`, and that
entry alone leaves the pool.  No handle is closed either way. -/
theorem Get_cases (size : Nat) (items : List (Int × Option Handle)) (closed : List Handle)
    (offset : Int) :
    (Get (enabled size items closed) offset = .ok (none, false) (enabled size items closed) ∧
      ∀ e ∈ items, offset < e.1) ∨
    (∃ k v, k ≤ offset ∧ (k, v) ∈ items ∧
      Get (enabled size items closed) offset
        = .ok (v, true) (enabled size (LRU.erase items k) closed)) := by
  simp only [Get, enabled, Bool.false_eq_true, if_false]
  cases hp : LRU.Peek ⟨size, items⟩ offset with
  | some v =>
    right
    exact ⟨offset, v, le_refl _, LRU.mem_of_Peek _ _ _ hp,
      takeOut_resident size items closed offset v v hp⟩
  | none =>
    simp only
    cases hf : (SortFunc cmpKeys (LRU.Keys ⟨size, items⟩)).find?
        (fun k => decide (k < offset)) with
    | some k =>
      right
      have hk : k < offset := by simpa using List.find?_some hf
      have hmem := (mem_SortFunc _ _ _).mp (List.mem_of_find?_eq_some hf)
      obtain ⟨e, he, hek⟩ := (mem_Keys _ _).mp hmem
      obtain ⟨w, hw⟩ := Peek_of_mem ⟨size, items⟩ e he
      rw [hek] at hw
      refine ⟨k, w, le_of_lt hk, LRU.mem_of_Peek _ _ _ hw, ?_⟩
      simp only [hw, Option.getD_some]
      exact takeOut_resident size items closed k w w hw
    | none =>
      left
      refine ⟨rfl, ?_⟩
      intro e he
      have h1 : e.1 ≠ offset := (Peek_eq_none_iff _ _).mp hp e he
      have h2 : ¬ e.1 < offset := by
        have := List.find?_eq_none.mp hf e.1
          ((mem_SortFunc _ _ _).mpr ((mem_Keys ⟨size, items⟩ e.1).mpr ⟨e, he, rfl⟩))
        simpa using this
      omega

theorem LRU_Add_size (c : LRU Int (Option Handle)) (k : Int) (v : Option Handle) :
    (c.Add k v).2.size = c.size := by
  unfold LRU.Add
  split
  · rfl
  · simp only
    split <;> rfl

/-- The method `Add` on an enabled pool, in terms of the cache's `Add`. -/
theorem Add_enabled (size : Nat) (items : List (Int × Option Handle)) (closed : List Handle)
    (offset : Int) (rc : Option Handle) :
    Add (enabled size items closed) offset rc
      = .ok (LRU.Add ⟨size, items⟩ offset rc).1.isSome
          (enabled size (LRU.Add ⟨size, items⟩ offset rc).2.items
            (onEvict closed (LRU.Add ⟨size, items⟩ offset rc).1)) := by
  have hs := LRU_Add_size ⟨size, items⟩ offset rc
  simp only [Add, enabled, Bool.false_eq_true, if_false]
  congr 3
  cases h : (LRU.Add ⟨size, items⟩ offset rc).2 with
  | mk sz its =>
    rw [h] at hs
    simp only at hs
    rw [hs]

/-- With a capacity of at least one, the entry just added is the most
recently used one. -/
theorem LRU_Add_head (size : Nat) (items : List (Int × Option Handle)) (k : Int)
    (v : Option Handle) (hsize : 1 ≤ size) :
    ∃ rest, (LRU.Add ⟨size, items⟩ k v).2.items = (k, v) :: rest := by
  unfold LRU.Add
  split
  · exact ⟨_, rfl⟩
  · simp only
    split
    · rename_i hlen
      have hne : items ≠ [] := by
        intro h
        rw [h] at hlen
        simp only [List.length_cons, List.length_nil] at hlen
        omega
      exact ⟨items.dropLast, List.dropLast_cons_of_ne_nil hne⟩
    · exact ⟨_, rfl⟩

/-- C11, as the code has it: in an enabled pool of capacity at least one with
distinct positions, after `Add(p, h)` the call `Get(p)` returns `h` and
`true`, and the entry leaves the pool.  An immediate second `Get(p)` does not
find an entry at `p` any more: it reports not found exactly when no resident
position is below `p`, and otherwise returns an entry resident at a position
below `p`. -/
theorem Add_Get_Get (size : Nat) (items : List (Int × Option Handle)) (closed : List Handle)
    (p : Int) (h : Option Handle) (hsize : 1 ≤ size) (hnd : (items.map Prod.fst).Nodup) :
    ∃ rest closed1,
      (Add (enabled size items closed) p h).state = enabled size ((p, h) :: rest) closed1 ∧
      Get (enabled size ((p, h) :: rest) closed1) p
        = .ok (h, true) (enabled size rest closed1) ∧
      LRU.Peek ⟨size, rest⟩ p = none ∧
      ((Get (enabled size rest closed1) p).val? = some (none, false) ↔
        ∀ e ∈ rest, p < e.1) ∧
      (∀ v, (Get (enabled size rest closed1) p).val? = some (v, true) →
        ∃ k, k < p ∧ (k, v) ∈ rest) := by
  obtain ⟨rest, hrest⟩ := LRU_Add_head size items p h hsize
  have hnd1 := LRU.Add_nodup ⟨size, items⟩ p h hnd
  rw [hrest] at hnd1
  simp only [List.map_cons, List.nodup_cons] at hnd1
  have hpeek : LRU.Peek ⟨size, (p, h) :: rest⟩ p = some h := by
    simp [LRU.Peek]
  have hnone : LRU.Peek ⟨size, rest⟩ p = none := by
    rw [Peek_eq_none_iff]
    intro e he hep
    exact hnd1.1 (by rw [← hep]; exact List.mem_map_of_mem _ he)
  have herase : LRU.erase ((p, h) :: rest) p = rest := by simp [LRU.erase]
  refine ⟨rest, onEvict closed (LRU.Add ⟨size, items⟩ p h).1, ?_, ?_, hnone, ?_, ?_⟩
  · rw [Add_enabled, hrest]
    rfl
  · have := takeOut_resident size ((p, h) :: rest)
      (onEvict closed (LRU.Add ⟨size, items⟩ p h).1) p h h hpeek
    rw [herase] at this
    simp only [Get, enabled, hpeek, Bool.false_eq_true, if_false]
    exact this
  · rcases Get_cases size rest (onEvict closed (LRU.Add ⟨size, items⟩ p h).1) p
      with ⟨hg, hall⟩ | ⟨k, v, hk, hmem, hg⟩
    · rw [hg]
      exact ⟨fun _ => hall, fun _ => rfl⟩
    · rw [hg]
      constructor
      · intro hc
        simp [Result.val?] at hc
      · intro hall
        have := hall (k, v) hmem
        simp only at this
        omega
  · intro v hv
    rcases Get_cases size rest (onEvict closed (LRU.Add ⟨size, items⟩ p h).1) p
      with ⟨hg, _⟩ | ⟨k, w, hk, hmem, hg⟩
    · rw [hg] at hv
      simp [Result.val?] at hv
    · rw [hg] at hv
      simp only [Result.val?, Option.some.injEq, Prod.mk.injEq, and_true] at hv
      subst hv
      have hne : k ≠ p := fun hkp => (Peek_eq_none_iff _ _).mp hnone (k, w) hmem hkp
      exact ⟨k, by omega, hmem⟩

/-- Witness of `Add_Get_Get`: position 10 is added to a pool holding 20. -/
theorem Add_Get_Get_witness :
    ∃ rest closed1,
      (Add (enabled 4 [(20, some 120)] []) 10 (some 110)).state
        = enabled 4 ((10, some 110) :: rest) closed1 ∧
      Get (enabled 4 ((10, some 110) :: rest) closed1) 10
        = .ok (some 110, true) (enabled 4 rest closed1) ∧
      LRU.Peek ⟨4, rest⟩ 10 = none ∧
      ((Get (enabled 4 rest closed1) 10).val? = some (none, false) ↔
        ∀ e ∈ rest, 10 < e.1) ∧
      (∀ v, (Get (enabled 4 rest closed1) 10).val? = some (v, true) →
        ∃ k, k < 10 ∧ (k, v) ∈ rest) :=
  Add_Get_Get 4 [(20, some 120)] [] 10 (some 110) (by decide) (by decide)

/-- C11 as stated fails: with an entry resident at 5, after `Add(10, h)` and
`Get(10)`, which returns `h`, the second `Get(10)` does not report not found
but returns the entry at 5. -/
theorem second_Get_returns_entry_at_5 :
    (Get (Add (enabled 4 [(5, some 105)] []) 10 (some 110)).state 10).val?
      = some (some 110, true) ∧
    (Get (Get (Add (enabled 4 [(5, some 105)] []) 10 (some 110)).state 10).state 10).val?
      = some (some 105, true) := by
  decide

/-- C12 (not-found result of the pool): on an enabled pool `Get(offset)`
reports not found, a nil handle and `false`, if and only if no resident entry
has a position less than or equal to `offset`; in that case the call leaves
the pool, its entries, their handles and their order, and the closed handles
as they were.  With positions 5, 10 and 20 resident, `Get(3)` reports not
found. -/
theorem Get_not_found_iff (size : Nat) (items : List (Int × Option Handle))
    (closed : List Handle) (offset : Int) :
    ((Get (enabled size items closed) offset).val? = some (none, false) ↔
      ∀ e ∈ items, offset < e.1) ∧
    (Get (enabled size items closed) offset = .ok (none, false) (enabled size items closed) ↔
      ∀ e ∈ items, offset < e.1) ∧
    (Get (enabled 4 [(20, some 120), (10, some 110), (5, some 105)] []) 3).val?
      = some (none, false) := by
  refine ⟨?_, ?_, by decide⟩
  · rcases Get_cases size items closed offset with ⟨hg, hall⟩ | ⟨k, v, hk, hmem, hg⟩
    · rw [hg]
      exact ⟨fun _ => hall, fun _ => rfl⟩
    · rw [hg]
      constructor
      · intro hc
        simp [Result.val?] at hc
      · intro hall
        have := hall (k, v) hmem
        simp only at this
        omega
  · rcases Get_cases size items closed offset with ⟨hg, hall⟩ | ⟨k, v, hk, hmem, hg⟩
    · exact ⟨fun _ => hall, fun _ => hg⟩
    · rw [hg]
      constructor
      · intro hc
        simp at hc
      · intro hall
        have := hall (k, v) hmem
        simp only at this
        omega

theorem step_noop (s : PoolState) (hs : s.pool = ⟨none, true⟩) (c : Call) :
    (step s c).pool = ⟨none, true⟩ := by
  cases c with
  | add offset rc =>
    simp only [step, Add, hs, if_true]
    cases rc <;> simp [Result.state, hs]
  | get offset =>
    simp only [step, Get, hs, if_true, Result.state]

theorem run_noop (calls : List Call) :
    ∀ s : PoolState, s.pool = ⟨none, true⟩ → (run s calls).pool = ⟨none, true⟩ := by
  induction calls with
  | nil => intro s hs; exact hs
  | cons c cs ih => intro s hs; exact ih _ (step_noop s hs c)

/-- C13 (disabled-pool mode): for a pool made with `noop = true`, after every
sequence of earlier calls, `Add(offset, h)` closes `h` exactly once, returns
`false` and retains nothing, and `Get(offset)` returns nil and `false` and
changes nothing. -/
theorem disabled_pool (ncpu : Nat) (calls : List Call) (offset : Int) (h : Handle) :
    Add (run (newCachePool ncpu true) calls) offset (some h)
      = .ok false { pool := ⟨none, true⟩,
                    closed := (run (newCachePool ncpu true) calls).closed ++ [h] } ∧
    Get (run (newCachePool ncpu true) calls) offset
      = .ok (none, false) (run (newCachePool ncpu true) calls) ∧
    (run (newCachePool ncpu true) calls).pool = ⟨none, true⟩ := by
  have hp : (run (newCachePool ncpu true) calls).pool = ⟨none, true⟩ :=
    run_noop calls _ (by simp [newCachePool])
  refine ⟨?_, ?_, hp⟩
  · simp only [Add, hp, if_true]
  · simp only [Get, hp, if_true]

/-- C14 (eviction on insert): in an enabled pool, for an `offset` that is not
resident: if the pool holds exactly `size` entries, `Add(offset, h)` returns
`true`, removes the least recently used entry, hands it and nothing else to
the eviction callback, which closes its handle once, and makes `h` resident
at `offset` as the most recently used entry; if the pool holds fewer than
`size` entries, `Add` returns `false`, closes nothing and makes `h` resident.
A `Get` leaves the entries it does not return in their order. -/
theorem Add_evicts_oldest (size : Nat) (items : List (Int × Option Handle))
    (closed : List Handle) (offset : Int) (h : Option Handle)
    (hnew : LRU.Peek ⟨size, items⟩ offset = none) :
    (∀ front k v, items = front ++ [(k, v)] → items.length = size →
      Add (enabled size items closed) offset h
        = .ok true (enabled size ((offset, h) :: front) (onEvict closed (some (k, v)))) ∧
      (∀ hv, v = some hv → onEvict closed (some (k, v)) = closed ++ [hv])) ∧
    (items.length < size →
      Add (enabled size items closed) offset h
        = .ok false (enabled size ((offset, h) :: items) closed)) ∧
    (∀ o, (Get (enabled size items closed) o).state = enabled size items closed ∨
      ∃ k, (Get (enabled size items closed) o).state
        = enabled size (LRU.erase items k) closed) := by
  have hc : LRU.Contains ⟨size, items⟩ offset = false := by simp [LRU.Contains, hnew]
  refine ⟨?_, ?_, ?_⟩
  · intro front k v hitems hlen
    refine ⟨?_, fun hv hvs => by rw [hvs]; rfl⟩
    rw [Add_enabled]
    have hgt : ((offset, h) :: items).length > size := by
      rw [List.length_cons]; omega
    have hne : (front ++ [(k, v)]) ≠ [] := by simp
    simp only [LRU.Add, hc, Bool.false_eq_true, if_false, hgt, if_true]
    rw [hitems]
    have e : (offset, h) :: (front ++ [(k, v)]) = ((offset, h) :: front) ++ [(k, v)] := rfl
    rw [e, List.getLast?_concat, List.dropLast_concat]
    rfl
  · intro hlt
    rw [Add_enabled]
    have hle : ¬ ((offset, h) :: items).length > size := by
      rw [List.length_cons]; omega
    simp only [LRU.Add, hc, Bool.false_eq_true, if_false, hle, Option.isSome_none, onEvict]
  · intro o
    rcases Get_cases size items closed o with ⟨hg, _⟩ | ⟨k, v, _, _, hg⟩
    · left; rw [hg]; rfl
    · right; exact ⟨k, by rw [hg]; rfl⟩

/-- Witness of `Add_evicts_oldest`: a pool of capacity 2 holding 10 and 5, and
the new position 20. -/
theorem Add_evicts_oldest_witness :
    (∀ front k v, [((10 : Int), (some 110 : Option Handle)), (5, some 105)] = front ++ [(k, v)] →
      [((10 : Int), (some 110 : Option Handle)), (5, some 105)].length = 2 →
      Add (enabled 2 [(10, some 110), (5, some 105)] []) 20 (some 120)
        = .ok true (enabled 2 ((20, some 120) :: front) (onEvict [] (some (k, v)))) ∧
      (∀ hv, v = some hv → onEvict [] (some (k, v)) = [] ++ [hv])) ∧
    ([((10 : Int), (some 110 : Option Handle)), (5, some 105)].length < 2 →
      Add (enabled 2 [(10, some 110), (5, some 105)] []) 20 (some 120)
        = .ok false (enabled 2 ((20, some 120) :: [(10, some 110), (5, some 105)]) [])) ∧
    (∀ o, (Get (enabled 2 [(10, some 110), (5, some 105)] []) o).state
        = enabled 2 [(10, some 110), (5, some 105)] [] ∨
      ∃ k, (Get (enabled 2 [(10, some 110), (5, some 105)] []) o).state
        = enabled 2 (LRU.erase [(10, some 110), (5, some 105)] k) []) :=
  Add_evicts_oldest 2 [(10, some 110), (5, some 105)] [] 20 (some 120) (by decide)

/-- C15 fails on the code: `Add` at a position that is already resident
replaces the resident handle without closing it.  After `Add(10, h1)` and
`Add(10, h2)` on a fresh pool of capacity 4, both returning `false`, only
`h2` is resident and nothing has been closed: `h1` has left the pool without
being returned by `Get` or closed. -/
theorem Add_twice_drops_handle :
    (Add (newCachePool 4 false) 10 (some 1)).val? = some false ∧
    (Add (Add (newCachePool 4 false) 10 (some 1)).state 10 (some 2)).val? = some false ∧
    (Add (Add (newCachePool 4 false) 10 (some 1)).state 10 (some 2)).state.pool.c.map
        (fun c => c.items) = some [(10, some 2)] ∧
    (Add (Add (newCachePool 4 false) 10 (some 1)).state 10 (some 2)).state.closed = [] := by
  decide

/-- C18 (`Get` never closes a handle): on an enabled pool whose resident
handles are all non-nil, `Get(offset)` closes no handle, and afterwards every
resident entry still holds a non-nil handle.  The entry it removes, at a
resident position `k`, is first overwritten with nil, so that the removal
hands the pair of `k` and nil to the eviction callback, which closes
nothing. -/
theorem Get_closes_nothing (size : Nat) (items : List (Int × Option Handle))
    (closed : List Handle) (offset : Int) (hnn : ∀ e ∈ items, e.2 ≠ none) :
    (Get (enabled size items closed) offset).state.closed = closed ∧
    (∃ items1, (Get (enabled size items closed) offset).state = enabled size items1 closed ∧
      ∀ e ∈ items1, e.2 ≠ none) ∧
    (∀ k w, LRU.Peek ⟨size, items⟩ k = some w →
      (LRU.Add ⟨size, items⟩ k none).1 = none ∧
      (LRU.Remove (LRU.Add ⟨size, items⟩ k none).2 k).1 = some (k, none) ∧
      onEvict closed (some (k, none)) = closed ∧
      ∀ v, takeOut ⟨size, items⟩ closed k v
        = .ok (v, true) (enabled size (LRU.erase items k) closed)) := by
  refine ⟨?_, ?_, ?_⟩
  · rcases Get_cases size items closed offset with ⟨hg, _⟩ | ⟨k, v, _, _, hg⟩
    · rw [hg]; rfl
    · rw [hg]; rfl
  · rcases Get_cases size items closed offset with ⟨hg, _⟩ | ⟨k, v, _, _, hg⟩
    · exact ⟨items, by rw [hg]; rfl, hnn⟩
    · exact ⟨LRU.erase items k, by rw [hg]; rfl,
        fun e he => hnn e (LRU.mem_of_mem_erase _ _ _ he)⟩
  · intro k w hk
    have hc : LRU.Contains ⟨size, items⟩ k = true := by simp [LRU.Contains, hk]
    refine ⟨?_, ?_, rfl, fun v => takeOut_resident size items closed k v w hk⟩
    · simp only [LRU.Add, hc, if_true]
    · simp only [LRU.Add, hc, if_true, LRU.Remove, List.find?_cons, decide_True]

/-- Witness of `Get_closes_nothing`: positions 5, 10 and 20, and `Get(15)`. -/
theorem Get_closes_nothing_witness :
    (Get (enabled 4 [(20, some 120), (10, some 110), (5, some 105)] [7]) 15).state.closed = [7] ∧
    (∃ items1, (Get (enabled 4 [(20, some 120), (10, some 110), (5, some 105)] [7]) 15).state
        = enabled 4 items1 [7] ∧
      ∀ e ∈ items1, e.2 ≠ none) ∧
    (∀ k w, LRU.Peek ⟨4, [(20, some 120), (10, some 110), (5, some 105)]⟩ k = some w →
      (LRU.Add ⟨4, [(20, some 120), (10, some 110), (5, some 105)]⟩ k none).1 = none ∧
      (LRU.Remove (LRU.Add ⟨4, [(20, some 120), (10, some 110), (5, some 105)]⟩ k none).2 k).1
        = some (k, none) ∧
      onEvict [7] (some (k, none)) = [7] ∧
      ∀ v, takeOut ⟨4, [(20, some 120), (10, some 110), (5, some 105)]⟩ [7] k v
        = .ok (v, true)
            (enabled 4 (LRU.erase [(20, some 120), (10, some 110), (5, some 105)] k) [7])) :=
  Get_closes_nothing 4 [(20, some 120), (10, some 110), (5, some 105)] [7] 15 (by decide)

end Sevenzip

namespace Sevenzip
namespace Util

theorem sumN_append (a b : List ReadRec) : sumN (a ++ b) = sumN a + sumN b := by
  simp [sumN]

theorem sumN_singleton (rec : ReadRec) : sumN [rec] = rec.res.n := by
  simp [sumN]

/-- When the loop body goes on, its read did not fail and its count was added
to `n`. -/
theorem loopBody_count (s : LoopState) (part : offsetAndSource) (rest : List offsetAndSource)
    (s1 : LoopState) (h : loopBody s part rest = .inr s1) :
    ∃ rec, s1.log = s.log ++ [rec] ∧ rec.res.err = none ∧ s1.n = s.n + rec.res.n := by
  unfold loopBody at h
  simp only at h
  by_cases hpanic : (s.p.length : Int) > wrap64 (part.src.Size - s.needSkip) ∧
      wrap64 (part.src.Size - s.needSkip) < 0
  · rw [if_pos hpanic] at h
    cases h
  · rw [if_neg hpanic] at h
    generalize (if (s.p.length : Int) > wrap64 (part.src.Size - s.needSkip)
      then (wrap64 (part.src.Size - s.needSkip)).toNat else s.p.length) = readLen at h
    by_cases herr : (part.src.ReadAt readLen s.needSkip).err ≠ none
    · rw [if_pos herr] at h
      cases h
    · rw [if_neg herr] at h
      have herr1 : (part.src.ReadAt readLen s.needSkip).err = none := not_not.mp herr
      by_cases hpn : (part.src.ReadAt readLen s.needSkip).n < 0 ∨
          (s.p.length : Int) < (part.src.ReadAt readLen s.needSkip).n
      · rw [if_pos hpn] at h
        cases h
      · rw [if_neg hpn] at h
        by_cases hadv : wrap64 ((part.src.ReadAt readLen s.needSkip).n + s.needSkip)
            = part.src.Size
        · rw [if_pos hadv] at h
          cases h
          exact ⟨⟨s.idx, readLen, s.needSkip, part.src.ReadAt readLen s.needSkip⟩, rfl, herr1,
            rfl⟩
        · rw [if_neg hadv] at h
          cases h
          exact ⟨⟨s.idx, readLen, s.needSkip, part.src.ReadAt readLen s.needSkip⟩, rfl, herr1,
            rfl⟩

/-- The count of a run of the loop whose last read failed: `n` as it was,
plus the counts of the reads before the failing one. -/
theorem readLoop_count (wantN : Nat) :
    ∀ (fuel : Nat) (s : LoopState) (init : List ReadRec) (last : ReadRec),
      (∀ rec ∈ s.log, rec.res.err = none) →
      (readLoop wantN fuel s).log = init ++ [last] → last.res.err ≠ none →
      ∃ new, init = s.log ++ new ∧ (readLoop wantN fuel s).n = s.n + sumN new := by
  intro fuel
  induction fuel with
  | zero =>
    intro s init last hs hlog hlast
    have hl : (readLoop wantN 0 s).log = s.log := by
      unfold readLoop
      split <;> rfl
    rw [hl] at hlog
    exact absurd (hs last (by rw [hlog]; simp)) hlast
  | succ fuel ih =>
    intro s init last hs hlog hlast
    have hfin : (finish wantN s).log = init ++ [last] → False := by
      intro hl
      have : s.log = init ++ [last] := hl
      exact hlast (hs last (by rw [this]; simp))
    cases hparts : s.parts with
    | nil =>
      rw [readLoop_nil _ _ _ hparts] at hlog
      exact absurd hlog hfin
    | cons part rest =>
      by_cases hp : s.p = []
      · rw [readLoop_pnil _ _ _ hp] at hlog
        exact absurd hlog hfin
      · rw [readLoop_step wantN fuel s part rest hparts hp] at hlog ⊢
        obtain ⟨hl, _⟩ := loopBody_log s part rest
        cases hb : loopBody s part rest with
        | inl out =>
          rw [hb] at hlog
          simp only at hlog ⊢
          rcases hl out hb with ⟨h1, _⟩ | ⟨rec, h1, h2, _⟩ | ⟨rec, h1, _, _, _, h6⟩
          · rw [h1] at hlog
            exact absurd (hs last (by rw [hlog]; simp)) hlast
          · rw [h1] at hlog
            have := List.append_inj' hlog rfl
            have hrl : rec = last := by simpa using this.2
            rw [hrl] at h2
            exact absurd h2 hlast
          · rw [h1] at hlog
            have := List.append_inj' hlog rfl
            refine ⟨[], by rw [List.append_nil]; exact this.1.symm, ?_⟩
            rw [h6]
            simp [sumN]
        | inr s1 =>
          rw [hb] at hlog
          simp only at hlog ⊢
          obtain ⟨rec, h1, h2, h3⟩ := loopBody_count s part rest s1 hb
          have hs1 : ∀ x ∈ s1.log, x.res.err = none := by
            intro x hx
            rw [h1] at hx
            rcases List.mem_append.mp hx with hx | hx
            · exact hs x hx
            · rw [List.mem_singleton.mp hx]; exact h2
          obtain ⟨new, hn1, hn2⟩ := ih s1 init last hs1 hlog hlast
          refine ⟨rec :: new, ?_, ?_⟩
          · rw [hn1, h1, List.append_assoc]
            rfl
          · rw [hn2, h3]
            have : sumN (rec :: new) = rec.res.n + sumN new := by simp [sumN]
            rw [this]
            ring

end Util
end Sevenzip

namespace Sevenzip
namespace Util

theorem ReadAt_count (m : multiRA) (fuel : Nat) (p : List Byte) (off : Int)
    (init : List ReadRec) (last : ReadRec)
    (hlog : (m.ReadAt fuel p off).log = init ++ [last]) (hlast : last.res.err ≠ none) :
    (m.ReadAt fuel p off).n = sumN init := by
  unfold multiRA.ReadAt at hlog ⊢
  obtain ⟨new, h1, h2⟩ := readLoop_count p.length fuel _ init last
    (fun x hx => absurd hx (List.not_mem_nil x)) hlog hlast
  rw [h2, h1]
  simp

/-- C19 (byte count on a failing segment read): in every `ReadAt` call, if a
segment read returns a non-nil error `e`, whatever count `pn` comes with it,
then the call returns `e`, no segment is read after it, and the returned `n`
is the total of the counts of the reads before it: `pn` is not counted.  A
source that reports `io.EOF` together with a read ending exactly at its end
makes `ReadAt` return that `io.EOF` with `n = 0`, its two bytes stored but
uncounted, and the next segment unread. -/
theorem readAt_error_count (m : multiRA) (fuel : Nat) (p : List Byte) (off : Int)
    (i : Nat) (rec : ReadRec) (e : Error)
    (hrec : (m.ReadAt fuel p off).log[i]? = some rec) (herr : rec.res.err = some e) :
    ((m.ReadAt fuel p off).status = .returned ∧
      (m.ReadAt fuel p off).err = some e ∧
      (m.ReadAt fuel p off).n = sumN ((m.ReadAt fuel p off).log.take i) ∧
      i + 1 = (m.ReadAt fuel p off).log.length) ∧
    (NewMultiReaderAt [eofAtEndSource [1, 2], bytesSource [3]]).ReadAt 2 [0, 0, 0] 0
      = ⟨.returned, 0, some .EOF, [1, 2, 0], [⟨0, 2, 0, ⟨[1, 2], 2, some .EOF⟩⟩]⟩ := by
  refine ⟨?_, by decide⟩
  rcases ReadAt_log m fuel p off with ⟨h, _⟩ | ⟨init, last, h1, h2, h3, h4, h5⟩
  · have := h rec (List.getElem?_mem hrec)
    rw [herr] at this
    cases this
  · have hn := ReadAt_count m fuel p off init last h1 h3
    rw [h1] at hrec ⊢
    have hi : i < (init ++ [last]).length := by
      by_contra hc
      rw [List.getElem?_eq_none (by omega)] at hrec
      cases hrec
    rw [List.length_append, List.length_singleton] at hi ⊢
    by_cases hlt : i < init.length
    · rw [List.getElem?_append_left hlt] at hrec
      have := h2 rec (List.getElem?_mem hrec)
      rw [herr] at this
      cases this
    · have hieq : i = init.length := by omega
      subst hieq
      rw [List.getElem?_append_right (le_refl _)] at hrec
      simp only [Nat.sub_self, List.getElem?_cons_zero, Option.some.injEq] at hrec
      subst hrec
      exact ⟨h4, by rw [h5, herr], by rw [hn, List.take_left], rfl⟩

/-- Witness of `readAt_error_count`: the second read returns one byte together
with `io.EOF`; `n` is 2, the count of the first read alone. -/
theorem readAt_error_count_witness :
    (((NewMultiReaderAt [bytesSource [1, 2], eofAtEndSource [3], bytesSource [4]]).ReadAt
        3 [0, 0, 0, 0] 0).status = .returned ∧
      ((NewMultiReaderAt [bytesSource [1, 2], eofAtEndSource [3], bytesSource [4]]).ReadAt
        3 [0, 0, 0, 0] 0).err = some .EOF ∧
      ((NewMultiReaderAt [bytesSource [1, 2], eofAtEndSource [3], bytesSource [4]]).ReadAt
        3 [0, 0, 0, 0] 0).n
        = sumN (((NewMultiReaderAt [bytesSource [1, 2], eofAtEndSource [3],
            bytesSource [4]]).ReadAt 3 [0, 0, 0, 0] 0).log.take 1) ∧
      1 + 1 = ((NewMultiReaderAt [bytesSource [1, 2], eofAtEndSource [3],
            bytesSource [4]]).ReadAt 3 [0, 0, 0, 0] 0).log.length) ∧
    (NewMultiReaderAt [eofAtEndSource [1, 2], bytesSource [3]]).ReadAt 2 [0, 0, 0] 0
      = ⟨.returned, 0, some .EOF, [1, 2, 0], [⟨0, 2, 0, ⟨[1, 2], 2, some .EOF⟩⟩]⟩ :=
  readAt_error_count
    (NewMultiReaderAt [bytesSource [1, 2], eofAtEndSource [3], bytesSource [4]])
    3 [0, 0, 0, 0] 0 1 ⟨1, 1, 0, ⟨[3], 1, some .EOF⟩⟩ .EOF (by decide) rfl

end Util
end Sevenzip

namespace Sevenzip
namespace Util

theorem store_length (data p : List Byte) : (store data p).length = p.length := by
  unfold store
  rw [List.length_append, List.length_take, List.length_drop]
  omega

/-- The loop body on a source that fills or fails, with `needSkip` within the
part: one read at `needSkip` is issued; either it fails and the call returns,
or the loop goes on with `needSkip = 0`, at the next part, or at the same one
with the buffer used up. -/
theorem loopBody_fills (s : LoopState) (part : offsetAndSource) (rest : List offsetAndSource)
    (hc : FillsOrFails part.src) (h0 : 0 ≤ s.needSkip) (h1 : s.needSkip ≤ part.src.Size)
    (h2 : part.src.Size < 9223372036854775808) :
    ∃ rec, rec.idx = s.idx ∧ rec.off = s.needSkip ∧
      ((∃ out, loopBody s part rest = .inl out ∧ out.status = .returned ∧
          out.log = s.log ++ [rec]) ∨
        (∃ s1, loopBody s part rest = .inr s1 ∧ s1.log = s.log ++ [rec] ∧ s1.needSkip = 0 ∧
          ((s1.idx = s.idx + 1 ∧ s1.parts = rest) ∨
            (s1.idx = s.idx ∧ s1.parts = s.parts ∧ s1.p = [])))) := by
  have havail : wrap64 (part.src.Size - s.needSkip) = part.src.Size - s.needSkip :=
    wrap64_of_range (by omega) (by omega)
  unfold loopBody
  simp only [havail]
  have hnp : ¬ ((s.p.length : Int) > part.src.Size - s.needSkip ∧
      part.src.Size - s.needSkip < 0) := by omega
  rw [if_neg hnp]
  generalize hrl : (if (s.p.length : Int) > part.src.Size - s.needSkip
      then (part.src.Size - s.needSkip).toNat else s.p.length) = readLen
  have hrl1 : readLen ≤ s.p.length := by
    rw [← hrl]; split <;> omega
  have hrl2 : (readLen : Int) ≤ part.src.Size - s.needSkip := by
    rw [← hrl]; split <;> omega
  have hrl3 : (readLen : Int) = part.src.Size - s.needSkip ∨ readLen = s.p.length := by
    rw [← hrl]; split
    · left; omega
    · right; rfl
  refine ⟨⟨s.idx, readLen, s.needSkip, part.src.ReadAt readLen s.needSkip⟩, rfl, rfl, ?_⟩
  rcases hc readLen s.needSkip with ⟨hn, herr⟩ | herr
  · right
    have hne : ¬ ((part.src.ReadAt readLen s.needSkip).err ≠ none) := by
      rw [herr]; simp
    rw [if_neg hne, hn]
    have hpn : ¬ ((readLen : Int) < 0 ∨ (s.p.length : Int) < (readLen : Int)) := by omega
    rw [if_neg hpn, Int.toNat_ofNat]
    by_cases hadv : wrap64 ((readLen : Int) + s.needSkip) = part.src.Size
    · rw [if_pos hadv]
      exact ⟨_, rfl, rfl, rfl, Or.inl ⟨rfl, rfl⟩⟩
    · rw [if_neg hadv]
      refine ⟨_, rfl, rfl, rfl, Or.inr ⟨rfl, rfl, ?_⟩⟩
      have hw : wrap64 ((readLen : Int) + s.needSkip) = (readLen : Int) + s.needSkip :=
        wrap64_of_range (by omega) (by omega)
      rw [hw] at hadv
      have hfull : readLen = s.p.length := by
        rcases hrl3 with h | h
        · exact absurd (by omega) hadv
        · exact h
      simp only
      apply List.drop_of_length_le
      rw [store_length, hfull]
  · left
    rw [if_pos herr]
    exact ⟨_, rfl, rfl, rfl⟩

end Util
end Sevenzip

namespace Sevenzip
namespace Util

/-- The loop over sources that fill or fail: it returns, after at most one
read for each part from the current one on, in order, and only the first of
them at a non-zero offset. -/
theorem readLoop_fills (wantN : Nat) :
    ∀ (ps : List offsetAndSource),
      (∀ part ∈ ps, FillsOrFails part.src ∧ 0 ≤ part.src.Size ∧
        part.src.Size < 9223372036854775808) →
      ∀ (fuel : Nat) (s : LoopState), s.parts = ps → ps.length ≤ fuel → 0 ≤ s.needSkip →
        (∀ part, ps.head? = some part → s.needSkip ≤ part.src.Size) →
        (readLoop wantN fuel s).status = .returned ∧
        ∃ new, (readLoop wantN fuel s).log = s.log ++ new ∧ new.length ≤ ps.length ∧
          ∀ k rec, new[k]? = some rec →
            rec.idx = s.idx + k ∧ rec.off = (if k = 0 then s.needSkip else 0) := by
  intro ps
  induction ps with
  | nil =>
    intro _ fuel s hparts _ _ _
    rw [readLoop_nil _ _ _ hparts]
    exact ⟨rfl, [], by simp [finish], le_refl _, fun k rec h => by simp at h⟩
  | cons part rest ih =>
    intro hps fuel s hparts hfuel h0 hhead
    by_cases hp : s.p = []
    · rw [readLoop_pnil _ _ _ hp]
      exact ⟨rfl, [], by simp [finish], Nat.zero_le _, fun k rec h => by simp at h⟩
    · have hfuel1 : rest.length + 1 ≤ fuel := by simpa using hfuel
      obtain ⟨f, rfl⟩ : ∃ f, fuel = f + 1 := ⟨fuel - 1, by omega⟩
      rw [readLoop_step wantN f s part rest hparts hp]
      obtain ⟨hc, hs0, hs1⟩ := hps part (List.mem_cons_self _ _)
      obtain ⟨rec, hidx, hoff, hcases⟩ :=
        loopBody_fills s part rest hc h0 (hhead part rfl) hs1
      have hone : ∀ k r, [rec][k]? = some r →
          r.idx = s.idx + k ∧ r.off = (if k = 0 then s.needSkip else 0) := by
        intro k r hk
        cases k with
        | zero =>
          simp only [List.getElem?_cons_zero, Option.some.injEq] at hk
          subst hk
          exact ⟨by rw [hidx]; rfl, by rw [hoff]; rfl⟩
        | succ k => simp at hk
      rcases hcases with ⟨out, hb, hst, hlog⟩ | ⟨s1, hb, hlog, hskip, hnext⟩
      · rw [hb]
        exact ⟨hst, [rec], hlog, by simp, hone⟩
      · rw [hb]
        simp only
        rcases hnext with ⟨hi, hpa⟩ | ⟨_, _, hpe⟩
        · obtain ⟨hst, new, hl, hlen, hall⟩ :=
            ih (fun x hx => hps x (List.mem_cons_of_mem _ hx)) f s1 hpa (by omega)
              (by rw [hskip]) (fun x hx => by rw [hskip]; exact (hps x (by
                have := List.mem_of_mem_head? hx
                exact List.mem_cons_of_mem _ this)).2.1)
          refine ⟨hst, rec :: new, by rw [hl, hlog, List.append_assoc]; rfl,
            by simp only [List.length_cons]; omega, ?_⟩
          intro k r hk
          cases k with
          | zero => exact hone 0 r (by simpa using hk)
          | succ k =>
            simp only [List.getElem?_cons_succ] at hk
            obtain ⟨a, b⟩ := hall k r hk
            refine ⟨by rw [a, hi]; omega, ?_⟩
            rw [b, hskip]
            simp
        · rw [readLoop_pnil _ _ _ hpe]
          exact ⟨rfl, [rec], hlog, by simp, hone⟩

theorem mem_appendParts (srcs : List SizeReaderAt) :
    ∀ (s : Int) (part : offsetAndSource), part ∈ (appendParts s srcs).1 → part.src ∈ srcs := by
  induction srcs with
  | nil => intro s part h; simp [appendParts] at h
  | cons p ps ih =>
    intro s part h
    simp only [appendParts, List.mem_cons] at h
    rcases h with rfl | h
    · exact List.mem_cons_self _ _
    · exact List.mem_cons_of_mem _ (ih _ _ h)

theorem size_le_sumSizes (srcs : List SizeReaderAt) (h : ∀ s ∈ srcs, 0 ≤ s.Size)
    (x : SizeReaderAt) (hx : x ∈ srcs) : x.Size ≤ sumSizes srcs := by
  induction srcs with
  | nil => cases hx
  | cons p ps ih =>
    rw [sumSizes_cons]
    have hp := h p (List.mem_cons_self _ _)
    have hps := sumSizes_nonneg ps (fun s hs => h s (List.mem_cons_of_mem _ hs))
    rcases List.mem_cons.mp hx with rfl | hx
    · omega
    · have := ih (fun s hs => h s (List.mem_cons_of_mem _ hs)) hx
      omega

end Util
end Sevenzip

namespace Sevenzip
namespace Util

theorem bytesSource_fills (d : List Byte) : FillsOrFails (bytesSource d) := by
  intro len off
  simp only [bytesSource]
  by_cases hneg : off < 0
  · right
    simp [hneg]
  · simp only [hneg, if_false]
    by_cases hshort : ((d.drop off.toNat).take len).length < len
    · right
      rw [if_pos hshort]
      simp
    · left
      rw [if_neg hshort]
      refine ⟨?_, rfl⟩
      have : ((d.drop off.toNat).take len).length ≤ len := by
        rw [List.length_take]; omega
      omega

theorem failingSource_fills (size : Int) (e : Error) : FillsOrFails (failingSource size e) := by
  intro len off
  right
  simp [failingSource]

/-- C20 (termination of the merged read): over sources of non-negative sizes
whose total fits `int64` and that each fill the buffer they are given or
fail, for every offset `0 <= off` and every buffer, `ReadAt` returns once the
fuel covers the number of segments.  With `r` the first segment whose logical
end exceeds `off`, the `k`-th read issued goes to segment `r + k`, so that
every segment is read at most once and in increasing order, and only the
first read is at a non-zero offset, `off` minus the logical start of
segment `r`. -/
theorem readAt_terminates (srcs : List SizeReaderAt) (hw : WellSized srcs)
    (hc : ∀ s ∈ srcs, FillsOrFails s) (off : Int) (h0 : 0 ≤ off) (p : List Byte)
    (fuel : Nat) (hfuel : srcs.length ≤ fuel) :
    ((NewMultiReaderAt srcs).ReadAt fuel p off).status = .returned ∧
    ∃ r, r ≤ srcs.length ∧
      (∀ j, j < r → sumSizes (srcs.take (j + 1)) ≤ off) ∧
      (r < srcs.length → off < sumSizes (srcs.take (r + 1))) ∧
      ((NewMultiReaderAt srcs).ReadAt fuel p off).log.length ≤ srcs.length - r ∧
      ∀ k rec, ((NewMultiReaderAt srcs).ReadAt fuel p off).log[k]? = some rec →
        rec.idx = r + k ∧
        rec.off = (if k = 0 then off - sumSizes (srcs.take r) else 0) := by
  obtain ⟨hr, hlo, hhi⟩ := skipParts_spec srcs hw off h0
  unfold multiRA.ReadAt
  generalize hrdef :
    Search (NewMultiReaderAt srcs).parts.length (contributes (NewMultiReaderAt srcs) off) = r
    at hr hlo hhi
  have hbefore : ∀ j, j < r → sumSizes (srcs.take (j + 1)) ≤ off := by
    intro j hj
    have := sumSizes_take_le srcs hw.1 (j + 1) r (by omega)
    omega
  have htot := hw.2
  by_cases hlt : r < srcs.length
  · have hpd := parts_drop srcs hw r hlt
    have hup := hhi hlt
    have hsucc := sumSizes_take_succ srcs r hlt
    have hnn := sumSizes_nonneg (srcs.take r) (fun s hs => hw.1 s (List.mem_of_mem_take hs))
    have hle1 := sumSizes_take_le_total srcs hw.1 (r + 1)
    have hsz : 0 ≤ srcs[r].Size := hw.1 _ (List.getElem_mem hlt)
    have hskip : wrap64 (off - sumSizes (srcs.take r)) = off - sumSizes (srcs.take r) :=
      wrap64_of_range (by omega) (by omega)
    simp only [hpd, hskip]
    have hps : ∀ part ∈ (⟨sumSizes (srcs.take r), srcs[r]⟩ ::
        (appendParts (sumSizes (srcs.take (r + 1))) (srcs.drop (r + 1))).1 :
          List offsetAndSource),
        FillsOrFails part.src ∧ 0 ≤ part.src.Size ∧ part.src.Size < 9223372036854775808 := by
      intro part hpart
      have hmem : part.src ∈ srcs := by
        rcases List.mem_cons.mp hpart with rfl | h
        · exact List.getElem_mem hlt
        · exact List.mem_of_mem_drop (mem_appendParts _ _ _ h)
      have := size_le_sumSizes srcs hw.1 _ hmem
      exact ⟨hc _ hmem, hw.1 _ hmem, by omega⟩
    obtain ⟨hst, new, hl, hlen, hall⟩ := readLoop_fills p.length _ hps fuel
      { idx := r, parts := ⟨sumSizes (srcs.take r), srcs[r]⟩ ::
          (appendParts (sumSizes (srcs.take (r + 1))) (srcs.drop (r + 1))).1,
        done := [], p := p, n := 0, needSkip := off - sumSizes (srcs.take r), log := [] }
      rfl
      (by simp only [List.length_cons, appendParts_length, List.length_drop]; omega)
      (by simp only; omega)
      (fun part hpart => by
        simp only [List.head?_cons, Option.some.injEq] at hpart
        subst hpart
        simp only
        omega)
    simp only [List.nil_append] at hl
    refine ⟨hst, r, hr, hbefore, fun _ => hup, ?_, ?_⟩
    · rw [hl]
      simp only [List.length_cons, appendParts_length, List.length_drop] at hlen
      omega
    · rw [hl]
      exact hall
  · have hnil : (NewMultiReaderAt srcs).parts.drop r = [] :=
      List.drop_of_length_le (by rw [parts_length]; omega)
    simp only [hnil]
    rw [readLoop_nil _ _ _ rfl]
    refine ⟨rfl, r, hr, hbefore, fun h => absurd h hlt, by simp [finish], ?_⟩
    intro k rec hk
    simp [finish] at hk

/-- Witness of `readAt_terminates`: three segments, the second of which
fails, read from offset 1. -/
theorem readAt_terminates_witness :
    ((NewMultiReaderAt [bytesSource [1, 2], failingSource 2 (.other 7),
        bytesSource [3]]).ReadAt 3 [0, 0, 0, 0] 1).status = .returned ∧
    ∃ r, r ≤ [bytesSource [1, 2], failingSource 2 (.other 7), bytesSource [3]].length ∧
      (∀ j, j < r → sumSizes ([bytesSource [1, 2], failingSource 2 (.other 7),
          bytesSource [3]].take (j + 1)) ≤ 1) ∧
      (r < [bytesSource [1, 2], failingSource 2 (.other 7), bytesSource [3]].length →
        1 < sumSizes ([bytesSource [1, 2], failingSource 2 (.other 7),
          bytesSource [3]].take (r + 1))) ∧
      ((NewMultiReaderAt [bytesSource [1, 2], failingSource 2 (.other 7),
          bytesSource [3]]).ReadAt 3 [0, 0, 0, 0] 1).log.length
        ≤ [bytesSource [1, 2], failingSource 2 (.other 7), bytesSource [3]].length - r ∧
      ∀ k rec, ((NewMultiReaderAt [bytesSource [1, 2], failingSource 2 (.other 7),
          bytesSource [3]]).ReadAt 3 [0, 0, 0, 0] 1).log[k]? = some rec →
        rec.idx = r + k ∧
        rec.off = (if k = 0 then 1 - sumSizes ([bytesSource [1, 2],
          failingSource 2 (.other 7), bytesSource [3]].take r) else 0) :=
  readAt_terminates [bytesSource [1, 2], failingSource 2 (.other 7), bytesSource [3]]
    ⟨by
      intro s hs
      simp only [List.mem_cons, List.mem_singleton, List.not_mem_nil, or_false] at hs
      rcases hs with rfl | rfl | rfl <;> decide, by decide⟩
    (by
      intro s hs
      simp only [List.mem_cons, List.mem_singleton, List.not_mem_nil, or_false] at hs
      rcases hs with rfl | rfl | rfl
      · exact bytesSource_fills _
      · exact failingSource_fills _ _
      · exact bytesSource_fills _)
    1 (by decide) [0, 0, 0, 0] 3 (by decide)

end Util
end Sevenzip

namespace Sevenzip
namespace Util

/-- One `Read` of the limited reader: the budget stays within `[0, n]` and
goes down by the count returned. -/
theorem limited_step {σ : Type} (io : ReadCloser σ)
    (hio : ∀ s len, 0 ≤ (io.Read s len).1.n ∧ (io.Read s len).1.n ≤ (len : Int))
    (l : LimitedReadCloser σ) (len : Nat) (h0 : 0 ≤ l.N) (h1 : l.N < 9223372036854775808) :
    (l.Read io len).next.N = l.N - (l.Read io len).res.n ∧
    0 ≤ (l.Read io len).res.n ∧ 0 ≤ (l.Read io len).next.N ∧
    (∀ a, (l.Read io len).asked = some a → (a : Int) ≤ l.N ∧ a ≤ len) := by
  unfold LimitedReadCloser.Read
  by_cases hz : l.N ≤ 0
  · rw [if_pos hz]
    simp only
    refine ⟨by omega, le_refl _, h0, fun a h => by cases h⟩
  · rw [if_neg hz]
    simp only
    generalize hlen1 : (if (len : Int) > l.N then l.N.toNat else len) = len1
    have hb : (len1 : Int) ≤ l.N ∧ len1 ≤ len := by
      rw [← hlen1]; split <;> omega
    obtain ⟨hr0, hr1⟩ := hio l.R len1
    rw [wrap64_of_range (by omega) (by omega)]
    refine ⟨rfl, hr0, by omega, ?_⟩
    intro a ha
    simp only [Option.some.injEq] at ha
    subst ha
    exact hb

/-- C17 (length cap): for `LimitReadCloser(r, n)` with `0 <= n` over a reader
whose counts are between 0 and the length of the buffer it was given, after
every sequence of `Read` calls the total of the counts returned is at most
`n`, the budget `N` is `n` minus that total, the next `Read` hands the
underlying reader a buffer of at most `N` bytes, and when `N` is 0 it returns
0 and `io.EOF` without calling the underlying reader and leaves the state as
it is. -/
theorem limit_cap {σ : Type} (io : ReadCloser σ)
    (hio : ∀ s len, 0 ≤ (io.Read s len).1.n ∧ (io.Read s len).1.n ≤ (len : Int))
    (r : σ) (n : Int) (h0 : 0 ≤ n) (hn : n < 9223372036854775808) (lens : List Nat)
    (len : Nat) :
    LimitedReadCloser.returned io (LimitReadCloser r n) lens ≤ n ∧
    0 ≤ LimitedReadCloser.returned io (LimitReadCloser r n) lens ∧
    (LimitedReadCloser.after io (LimitReadCloser r n) lens).N
      = n - LimitedReadCloser.returned io (LimitReadCloser r n) lens ∧
    (∀ a, ((LimitedReadCloser.after io (LimitReadCloser r n) lens).Read io len).asked = some a →
      (a : Int) ≤ (LimitedReadCloser.after io (LimitReadCloser r n) lens).N ∧ a ≤ len) ∧
    ((LimitedReadCloser.after io (LimitReadCloser r n) lens).N = 0 →
      ((LimitedReadCloser.after io (LimitReadCloser r n) lens).Read io len).res
        = ⟨[], 0, some .EOF⟩ ∧
      ((LimitedReadCloser.after io (LimitReadCloser r n) lens).Read io len).asked = none ∧
      ((LimitedReadCloser.after io (LimitReadCloser r n) lens).Read io len).next
        = LimitedReadCloser.after io (LimitReadCloser r n) lens) := by
  have key : ∀ (lens : List Nat) (l : LimitedReadCloser σ), 0 ≤ l.N →
      l.N < 9223372036854775808 →
      0 ≤ LimitedReadCloser.returned io l lens ∧
      (LimitedReadCloser.after io l lens).N = l.N - LimitedReadCloser.returned io l lens ∧
      0 ≤ (LimitedReadCloser.after io l lens).N := by
    intro lens
    induction lens with
    | nil =>
      intro l hl0 _
      simp only [LimitedReadCloser.returned, LimitedReadCloser.after]
      omega
    | cons x xs ih =>
      intro l hl0 hl1
      obtain ⟨s1, s2, s3, _⟩ := limited_step io hio l x hl0 hl1
      obtain ⟨i1, i2, i3⟩ := ih (l.Read io x).next s3 (by omega)
      simp only [LimitedReadCloser.returned, LimitedReadCloser.after]
      refine ⟨by omega, by rw [i2, s1]; ring, i3⟩
  obtain ⟨k1, k2, k3⟩ := key lens (LimitReadCloser r n) h0 hn
  have k2' : (LimitedReadCloser.after io (LimitReadCloser r n) lens).N
      = n - LimitedReadCloser.returned io (LimitReadCloser r n) lens := k2
  refine ⟨by omega, k1, k2', ?_, ?_⟩
  · exact (limited_step io hio _ len k3 (by omega)).2.2.2
  · intro hz
    unfold LimitedReadCloser.Read
    rw [if_pos (by omega)]
    exact ⟨rfl, rfl, rfl⟩

theorem sliceReader_bounded (s : List Byte) (len : Nat) :
    0 ≤ (sliceReader.Read s len).1.n ∧ (sliceReader.Read s len).1.n ≤ (len : Int) := by
  cases s with
  | nil => simp [sliceReader]
  | cons b bs =>
    simp only [sliceReader, List.length_take]
    omega

/-- Witness of `limit_cap`: a budget of 3 over five bytes, after reads with
buffers of 2 and 2 bytes. -/
theorem limit_cap_witness :
    LimitedReadCloser.returned sliceReader (LimitReadCloser [1, 2, 3, 4, 5] 3) [2, 2] ≤ 3 ∧
    0 ≤ LimitedReadCloser.returned sliceReader (LimitReadCloser [1, 2, 3, 4, 5] 3) [2, 2] ∧
    (LimitedReadCloser.after sliceReader (LimitReadCloser [1, 2, 3, 4, 5] 3) [2, 2]).N
      = 3 - LimitedReadCloser.returned sliceReader (LimitReadCloser [1, 2, 3, 4, 5] 3) [2, 2] ∧
    (∀ a, ((LimitedReadCloser.after sliceReader (LimitReadCloser [1, 2, 3, 4, 5] 3)
        [2, 2]).Read sliceReader 4).asked = some a →
      (a : Int) ≤ (LimitedReadCloser.after sliceReader (LimitReadCloser [1, 2, 3, 4, 5] 3)
        [2, 2]).N ∧ a ≤ 4) ∧
    ((LimitedReadCloser.after sliceReader (LimitReadCloser [1, 2, 3, 4, 5] 3) [2, 2]).N = 0 →
      ((LimitedReadCloser.after sliceReader (LimitReadCloser [1, 2, 3, 4, 5] 3)
        [2, 2]).Read sliceReader 4).res = ⟨[], 0, some .EOF⟩ ∧
      ((LimitedReadCloser.after sliceReader (LimitReadCloser [1, 2, 3, 4, 5] 3)
        [2, 2]).Read sliceReader 4).asked = none ∧
      ((LimitedReadCloser.after sliceReader (LimitReadCloser [1, 2, 3, 4, 5] 3)
        [2, 2]).Read sliceReader 4).next
        = LimitedReadCloser.after sliceReader (LimitReadCloser [1, 2, 3, 4, 5] 3) [2, 2]) :=
  limit_cap sliceReader sliceReader_bounded [1, 2, 3, 4, 5] 3 (by decide) (by decide) [2, 2] 4

end Util
end Sevenzip

namespace Sevenzip
namespace Util

theorem contents_append {σ : Type} (bytes : σ → List Byte) (a b : List (Stream σ)) :
    Stream.contents bytes (a ++ b) = Stream.contents bytes a ++ Stream.contents bytes b := by
  induction a with
  | nil => simp [Stream.contents]
  | cons t ts ih => simp [Stream.contents, ih]

theorem needs_append {σ : Type} (a b : List (Stream σ)) :
    Stream.needs (a ++ b) = Stream.needs a + Stream.needs b := by
  induction a with
  | nil => simp [Stream.needs]
  | cons t ts ih =>
    have e1 : Stream.needs (t :: ts ++ b) = 1 + t.need + Stream.needs (ts ++ b) := by
      rw [List.cons_append, Stream.needs]
    have e2 : Stream.needs (t :: ts) = 1 + t.need + Stream.needs ts := by
      rw [Stream.needs]
    rw [e1, e2, ih]
    omega

theorem need_pos {σ : Type} (t : Stream σ) : 1 ≤ t.need := by
  cases t <;> simp [Stream.need]

theorem needs_length {σ : Type} (a : List (Stream σ)) : a.length ≤ Stream.needs a := by
  induction a with
  | nil => simp [Stream.needs]
  | cons t ts ih =>
    simp only [List.length_cons, Stream.needs]
    omega

theorem WFs_zero_cons {σ : Type} (bytes : σ → List Byte) (t : Stream σ) (ts : List (Stream σ)) :
    Stream.WFs bytes (t :: ts) 0 ↔ Stream.WF bytes t ∧ Stream.WFs bytes ts 0 := by
  simp [Stream.WFs]

theorem WFs_succ_cons {σ : Type} (bytes : σ → List Byte) (t : Stream σ) (ts : List (Stream σ))
    (i : Nat) :
    Stream.WFs bytes (t :: ts) (i + 1)
      ↔ Stream.WF bytes t ∧ Stream.content bytes t = [] ∧ Stream.WFs bytes ts i := by
  simp [Stream.WFs]

theorem WFs_weaken {σ : Type} (bytes : σ → List Byte) (rcs : List (Stream σ)) :
    ∀ i, Stream.WFs bytes rcs i → Stream.WFs bytes rcs 0 := by
  induction rcs with
  | nil => intro i _; simp [Stream.WFs]
  | cons t ts ih =>
    intro i h
    simp only [Stream.WFs] at h
    rw [WFs_zero_cons]
    exact ⟨h.1, ih _ h.2.2⟩

/-- Well-formedness at the index `len(pre)` of a list split there: the
members of `pre` are well formed and have nothing left, the others are well
formed. -/
theorem WFs_split {σ : Type} (bytes : σ → List Byte) (pre : List (Stream σ)) :
    ∀ (rest : List (Stream σ)) (j : Nat),
      Stream.WFs bytes (pre ++ rest) (pre.length + j)
        ↔ Stream.WFs bytes pre pre.length ∧ Stream.WFs bytes rest j := by
  induction pre with
  | nil => intro rest j; simp [Stream.WFs]
  | cons t ts ih =>
    intro rest j
    have e : (t :: ts).length + j = (ts.length + j) + 1 := by simp only [List.length_cons]; omega
    rw [List.cons_append, e, WFs_succ_cons, ih, List.length_cons, WFs_succ_cons]
    constructor
    · rintro ⟨a, b, c, d⟩; exact ⟨⟨a, b, c⟩, d⟩
    · rintro ⟨⟨a, b, c⟩, d⟩; exact ⟨a, b, c, d⟩

theorem contents_of_WFs_full {σ : Type} (bytes : σ → List Byte) (rcs : List (Stream σ)) :
    ∀ i, rcs.length ≤ i → Stream.WFs bytes rcs i → Stream.contents bytes rcs = [] := by
  induction rcs with
  | nil => intro i _ _; simp [Stream.contents]
  | cons t ts ih =>
    intro i hi h
    obtain ⟨k, rfl⟩ : ∃ k, i = k + 1 := ⟨i - 1, by simp only [List.length_cons] at hi; omega⟩
    rw [WFs_succ_cons] at h
    simp only [Stream.contents, h.2.1, List.nil_append]
    exact ih k (by simp only [List.length_cons] at hi; omega) h.2.2

theorem soleMulti?_some {σ : Type} (rcs inner : List (Stream σ))
    (h : soleMulti? rcs = some inner) : ∃ j, rcs = [.multi inner j] := by
  unfold soleMulti? at h
  split at h
  · rename_i inner1 j
    simp only [Option.some.injEq] at h
    subst h
    exact ⟨j, rfl⟩
  · cases h

theorem split_at {σ : Type} (rcs : List (Stream σ)) (i : Nat) (hi : i < rcs.length) :
    ∃ pre m post, rcs = pre ++ m :: post ∧ pre.length = i := by
  refine ⟨rcs.take i, rcs[i], rcs.drop (i + 1), ?_, ?_⟩
  · conv_lhs => rw [← List.take_append_drop i rcs, List.drop_eq_getElem_cons hi]
  · rw [List.length_take]; omega

theorem getElem?_split {σ : Type} (pre post : List (Stream σ)) (m : Stream σ) :
    (pre ++ m :: post)[pre.length]? = some m := by
  rw [List.getElem?_append_right (le_refl _)]
  simp

theorem set_split {σ : Type} (pre post : List (Stream σ)) (m m1 : Stream σ) :
    (pre ++ m :: post).set pre.length m1 = pre ++ m1 :: post := by
  rw [List.set_append_right _ _ (le_refl _)]
  simp

end Util
end Sevenzip

namespace Sevenzip
namespace Util

theorem Read_leaf {σ : Type} (io : ReadCloser σ) (fuel : Nat) (s : σ) (len : Nat) :
    Stream.Read io (fuel + 1) (.leaf s) len
      = some ((io.Read s len).1, .leaf (io.Read s len).2) := by
  simp [Stream.Read]

theorem Read_done {σ : Type} (io : ReadCloser σ) (fuel : Nat) (rcs : List (Stream σ))
    (i len : Nat) (hi : ¬ i < rcs.length) :
    Stream.Read io (fuel + 1) (.multi rcs i) len
      = some (⟨[], 0, some .EOF⟩, .multi rcs i) := by
  simp [Stream.Read, hi]

theorem Read_flatten {σ : Type} (io : ReadCloser σ) (fuel : Nat) (inner : List (Stream σ))
    (j len : Nat) :
    Stream.Read io (fuel + 1) (.multi [.multi inner j] 0) len
      = Stream.Read io fuel (.multi inner 0) len := by
  simp [Stream.Read, soleMulti?]

/-- One round of the loop of `Read` that reads member `i`. -/
theorem Read_member {σ : Type} (io : ReadCloser σ) (fuel : Nat) (rcs : List (Stream σ))
    (i len : Nat) (m m1 : Stream σ) (r : ReadResult) (hi : i < rcs.length)
    (hsole : soleMulti? rcs = none) (hm : rcs[i]? = some m)
    (hr : Stream.Read io fuel m len = some (r, m1)) :
    Stream.Read io (fuel + 1) (.multi rcs i) len
      = if 0 < r.n ∨ r.err ≠ some .EOF then
          some (⟨r.data, r.n,
                  if r.err = some .EOF ∧ (if r.err = some .EOF then i + 1 else i) < rcs.length
                    then none else r.err⟩,
                .multi (rcs.set i m1) (if r.err = some .EOF then i + 1 else i))
        else
          Stream.Read io fuel
            (.multi (rcs.set i m1) (if r.err = some .EOF then i + 1 else i)) len := by
  simp only [Stream.Read, hi, if_true, hsole, hm, hr]

end Util
end Sevenzip

namespace Sevenzip
namespace Util

theorem content_multi {σ : Type} (bytes : σ → List Byte) (rcs : List (Stream σ)) (i : Nat) :
    Stream.content bytes (.multi rcs i) = Stream.contents bytes rcs := by
  rw [Stream.content]

theorem contents_cons {σ : Type} (bytes : σ → List Byte) (t : Stream σ)
    (ts : List (Stream σ)) :
    Stream.contents bytes (t :: ts) = Stream.content bytes t ++ Stream.contents bytes ts := by
  rw [Stream.contents]

theorem WF_multi {σ : Type} (bytes : σ → List Byte) (rcs : List (Stream σ)) (i : Nat) :
    Stream.WF bytes (.multi rcs i) ↔ Stream.WFs bytes rcs i := by
  rw [Stream.WF]

theorem need_multi {σ : Type} (rcs : List (Stream σ)) (i : Nat) :
    (Stream.multi rcs i).need = 1 + Stream.needs rcs := by
  rw [Stream.need]

theorem needs_cons {σ : Type} (t : Stream σ) (ts : List (Stream σ)) :
    Stream.needs (t :: ts) = 1 + t.need + Stream.needs ts := by
  rw [Stream.needs]

theorem needNow_le_need {σ : Type} (t : Stream σ) : t.needNow ≤ t.need := by
  cases t with
  | leaf s => simp [Stream.needNow, Stream.need]
  | multi rcs i =>
    rw [need_multi]
    simp only [Stream.needNow]
    omega

theorem needNow_pos {σ : Type} (t : Stream σ) : 1 ≤ t.needNow := by
  cases t <;> simp [Stream.needNow]

/-- Members that are well formed make a well-formed `MultiReadCloser`. -/
theorem WFs_zero_of_forall {σ : Type} (bytes : σ → List Byte) (rcs : List (Stream σ))
    (h : ∀ t ∈ rcs, Stream.WF bytes t) : Stream.WFs bytes rcs 0 := by
  induction rcs with
  | nil => simp [Stream.WFs]
  | cons t ts ih =>
    rw [WFs_zero_cons]
    exact ⟨h t (List.mem_cons_self _ _), ih (fun x hx => h x (List.mem_cons_of_mem _ hx))⟩

end Util
end Sevenzip

namespace Sevenzip
namespace Util

/-- A `Read` of a well-formed stream over faithful underlying streams, with
enough fuel, returns, and delivers of the stream's bytes what a faithful
stream delivers; when it returns `io.EOF`, the index of a `multiReadCloser`
has passed all members. -/
theorem Read_delivers {σ : Type} (io : ReadCloser σ) (bytes : σ → List Byte)
    (hio : Faithful io bytes) :
    ∀ (fuel : Nat) (t : Stream σ) (len : Nat), 0 < len → Stream.WF bytes t →
      t.needNow ≤ fuel →
      ∃ r t1, Stream.Read io fuel t len = some (r, t1) ∧ Stream.WF bytes t1 ∧
        t1.need ≤ t.need ∧
        Delivers len (Stream.content bytes t) r (Stream.content bytes t1) ∧
        (r.err = some .EOF → t1.Done) := by
  intro fuel
  induction fuel with
  | zero =>
    intro t len _ _ hneed
    have := needNow_pos t
    omega
  | succ f ih =>
    intro t len hlen hwf hneed
    cases t with
    | leaf s =>
      refine ⟨_, _, Read_leaf io f s len, ?_, le_refl _, ?_, fun _ => ?_⟩
      · simp [Stream.WF]
      · simp only [Stream.content]
        exact hio s len hlen
      · simp [Stream.Done]
    | multi rcs i =>
      rw [WF_multi] at hwf
      simp only [Stream.needNow] at hneed
      by_cases hi : i < rcs.length
      · cases hsole : soleMulti? rcs with
        | some inner =>
          obtain ⟨j, rfl⟩ := soleMulti?_some rcs inner hsole
          have hi0 : i = 0 := by simpa using hi
          subst hi0
          rw [Read_flatten]
          rw [WFs_zero_cons, WF_multi] at hwf
          rw [needs_cons, need_multi] at hneed
          obtain ⟨r, t1, h1, h2, h3, h4, h5⟩ := ih (.multi inner 0) len hlen
            (by rw [WF_multi]; exact WFs_weaken bytes inner j hwf.1)
            (by simp only [Stream.needNow]; simp only [Stream.needs] at hneed; omega)
          refine ⟨r, t1, h1, h2, ?_, ?_, h5⟩
          · rw [need_multi] at h3
            rw [need_multi, needs_cons, need_multi]
            omega
          · rw [content_multi] at h4
            rw [content_multi, contents_cons, content_multi]
            simp only [Stream.contents, List.append_nil]
            exact h4
        | none =>
          obtain ⟨pre, m, post, rfl, hpre⟩ := split_at rcs i hi
          subst hpre
          have hsplit := (WFs_split bytes pre (m :: post) 0).mp (by simpa using hwf)
          obtain ⟨hwpre, hwrest⟩ := hsplit
          rw [WFs_zero_cons] at hwrest
          obtain ⟨hwm, hwpost⟩ := hwrest
          have hcpre : Stream.contents bytes pre = [] :=
            contents_of_WFs_full bytes pre pre.length (le_refl _) hwpre
          have hnl := needs_length pre
          rw [needs_append, needs_cons] at hneed
          have hmn := needNow_le_need m
          obtain ⟨r, m1, hr, hwm1, hneed1, hdel, hdone⟩ :=
            ih m len hlen hwm (by omega)
          have hct : Stream.content bytes (.multi (pre ++ m :: post) pre.length)
              = Stream.content bytes m ++ Stream.contents bytes post := by
            rw [content_multi, contents_append, hcpre, contents_cons, List.nil_append]
          have hct1 : ∀ i1, Stream.content bytes (.multi (pre ++ m1 :: post) i1)
              = Stream.content bytes m1 ++ Stream.contents bytes post := by
            intro i1
            rw [content_multi, contents_append, hcpre, contents_cons, List.nil_append]
          have hneedt : ∀ i1, (Stream.multi (pre ++ m1 :: post) i1).need
              ≤ (Stream.multi (pre ++ m :: post) pre.length).need := by
            intro i1
            rw [need_multi, need_multi, needs_append, needs_append, needs_cons, needs_cons]
            omega
          rw [Read_member io f _ _ len m m1 r hi hsole (getElem?_split pre post m) hr,
            set_split]
          rcases hdel with ⟨hb, hn, he, ha⟩ | ⟨hb, k, hk0, hklen, hkb, hn, hdata, ha, herr⟩
          · -- the member has nothing left: the loop goes on with the next one
            have hcond : ¬ (0 < r.n ∨ r.err ≠ some .EOF) := by
              rw [hn, he]; simp
            rw [if_neg hcond, if_pos he]
            obtain ⟨r2, t2, g1, g2, g3, g4, g5⟩ := ih (.multi (pre ++ m1 :: post)
                (pre.length + 1)) len hlen
              (by
                rw [WF_multi, WFs_split bytes pre (m1 :: post) 1, WFs_succ_cons]
                exact ⟨hwpre, hwm1, ha, hwpost⟩)
              (by
                simp only [Stream.needNow]
                rw [needs_append, needs_cons]
                omega)
            refine ⟨r2, t2, g1, g2, le_trans g3 (hneedt _), ?_, g5⟩
            rw [hct, hb, List.nil_append]
            rw [hct1, ha, List.nil_append] at g4
            exact g4
          · -- the member delivers: `Read` returns
            have hcond : 0 < r.n ∨ r.err ≠ some .EOF := Or.inl (by rw [hn]; omega)
            rw [if_pos hcond]
            refine ⟨_, _, rfl, ?_, hneedt _, ?_, ?_⟩
            · rw [WF_multi]
              by_cases he : r.err = some .EOF
              · rw [if_pos he, WFs_split bytes pre (m1 :: post) 1, WFs_succ_cons]
                rcases herr with h | ⟨_, h⟩
                · rw [h] at he; cases he
                · exact ⟨hwpre, hwm1, h, hwpost⟩
              · rw [if_neg he]
                have := (WFs_split bytes pre (m1 :: post) 0).mpr
                  ⟨hwpre, (WFs_zero_cons bytes m1 post).mpr ⟨hwm1, hwpost⟩⟩
                simpa using this
            · rw [hct, hct1]
              right
              refine ⟨by simp [hb], k, hk0, hklen, ?_, hn, ?_, ?_, ?_⟩
              · rw [List.length_append]; omega
              · simp only
                rw [hdata, List.take_append_of_le_length hkb]
              · rw [ha, List.drop_append_of_le_length hkb]
              · simp only
                rcases herr with h | ⟨h, hnil⟩
                · left
                  rw [h]
                  simp
                · by_cases hlast : pre.length + 1 < (pre ++ m :: post).length
                  · left
                    rw [if_pos h, if_pos ⟨h, hlast⟩]
                  · right
                    rw [if_pos h, if_neg (fun hc => hlast hc.2)]
                    refine ⟨h, ?_⟩
                    have hpost : post = [] := by
                      apply List.eq_nil_of_length_eq_zero
                      simp only [List.length_append, List.length_cons] at hlast
                      omega
                    rw [hnil, hpost]
                    simp [Stream.contents]
            · intro he
              simp only at he
              have hr : r.err = some .EOF := by
                by_contra hne
                rw [if_neg (fun hc => hne hc.1)] at he
                exact hne he
              rw [if_pos hr] at he ⊢
              have hnot : ¬ (pre.length + 1 < (pre ++ m :: post).length) := by
                intro hc
                rw [if_pos ⟨hr, hc⟩] at he
                cases he
              simp only [Stream.Done, List.length_append, List.length_cons] at hnot ⊢
              omega
      · refine ⟨_, _, Read_done io f rcs i len hi, by rw [WF_multi]; exact hwf, le_refl _,
          ?_, fun _ => by simp only [Stream.Done]; omega⟩
        rw [content_multi, contents_of_WFs_full bytes rcs i (by omega) hwf]
        left
        exact ⟨rfl, rfl, rfl, rfl⟩

end Util
end Sevenzip

namespace Sevenzip
namespace Util

/-- Reading a well-formed stream until `io.EOF` delivers exactly its
bytes. -/
theorem readAll_content {σ : Type} (io : ReadCloser σ) (bytes : σ → List Byte)
    (hio : Faithful io bytes) (fuel : Nat) (sz : Nat → Nat) :
    ∀ (calls k : Nat) (t : Stream σ), Stream.WF bytes t → t.need ≤ fuel →
      (Stream.content bytes t).length < calls →
      readAll io fuel sz calls k t = some (Stream.content bytes t) := by
  intro calls
  induction calls with
  | zero => intro k t _ _ h; omega
  | succ c ih =>
    intro k t hwf hneed hlen
    obtain ⟨r, t1, h1, h2, h3, h4, _⟩ := Read_delivers io bytes hio fuel t (sz k + 1)
      (by omega) hwf (le_trans (needNow_le_need t) hneed)
    simp only [readAll, h1]
    rcases h4 with ⟨hb, hn, he, _⟩ | ⟨_, j, _, _, hjb, hn, hdata, ha, herr⟩
    · rw [if_pos he, hn, hb]
      simp
    · rw [hn, Int.toNat_ofNat, hdata]
      rcases herr with he | ⟨he, hnil⟩
      · rw [if_neg (by rw [he]; simp), if_pos he,
          ih (k + 1) t1 h2 (le_trans h3 hneed) (by rw [ha, List.length_drop]; omega), ha]
        simp
      · rw [if_pos he]
        rw [hnil] at ha
        conv_rhs => rw [← List.take_append_drop j (Stream.content bytes t), ← ha]
        simp

theorem eagerReader_faithful : Faithful eagerReader (fun s => s) := by
  intro s len hlen
  cases s with
  | nil => left; exact ⟨rfl, rfl, rfl, rfl⟩
  | cons b bs =>
    right
    refine ⟨by simp, min (min len 2) (b :: bs).length, ?_, ?_, ?_, rfl, ?_, rfl, ?_⟩
    · simp only [List.length_cons]; omega
    · omega
    · show min (min len 2) (b :: bs).length ≤ (b :: bs).length
      omega
    · simp only [eagerReader, List.take_take, Nat.min_self]
    · simp only [eagerReader]
      by_cases h : List.drop (min (min len 2) (b :: bs).length) (b :: bs) = []
      · right; rw [if_pos h]; exact ⟨rfl, h⟩
      · left; rw [if_neg h]

/-- C16 (concatenation of streams): over underlying streams that each deliver
a finite byte sequence and then return `io.EOF` on every later read, calling
`Read` on `MultiReadCloser(members...)` with non-empty buffers until it
returns `io.EOF` delivers exactly the concatenation of the members' byte
sequences, in order.  A `Read` that returns `io.EOF` leaves the index past
every member, with nothing left to deliver; and the `io.EOF` of a member that
comes together with data while later members remain is returned as a nil
error. -/
theorem multi_concat {σ : Type} (io : ReadCloser σ) (bytes : σ → List Byte)
    (hio : Faithful io bytes) (members : List (Stream σ))
    (hm : ∀ m ∈ members, Stream.WF bytes m) (sz : Nat → Nat) (fuel calls : Nat)
    (hfuel : (MultiReadCloser members).need ≤ fuel)
    (hcalls : (Stream.contents bytes members).length < calls) :
    readAll io fuel sz calls 0 (MultiReadCloser members)
      = some (Stream.contents bytes members) ∧
    (∀ (t : Stream σ) (len : Nat) (r : ReadResult) (t1 : Stream σ), 0 < len →
      Stream.WF bytes t → t.need ≤ fuel → Stream.Read io fuel t len = some (r, t1) →
      r.err = some .EOF → t1.Done ∧ Stream.content bytes t1 = []) ∧
    (∀ (rcs : List (Stream σ)) (i f len : Nat) (m m1 : Stream σ) (r : ReadResult),
      i + 1 < rcs.length → soleMulti? rcs = none → rcs[i]? = some m →
      Stream.Read io f m len = some (r, m1) → 0 < r.n → r.err = some .EOF →
      Stream.Read io (f + 1) (.multi rcs i) len
        = some (⟨r.data, r.n, none⟩, .multi (rcs.set i m1) (i + 1))) := by
  have hwf : Stream.WF bytes (MultiReadCloser members) := by
    unfold MultiReadCloser
    rw [WF_multi]
    exact WFs_zero_of_forall bytes members hm
  refine ⟨?_, ?_, ?_⟩
  · have := readAll_content io bytes hio fuel sz calls 0 (MultiReadCloser members) hwf hfuel
      (by unfold MultiReadCloser; rw [content_multi]; exact hcalls)
    rw [this]
    unfold MultiReadCloser
    rw [content_multi]
  · intro t len r t1 hlen hw hn hread he
    obtain ⟨r2, t2, h1, _, _, h4, h5⟩ := Read_delivers io bytes hio fuel t len hlen hw
      (le_trans (needNow_le_need t) hn)
    rw [hread] at h1
    simp only [Option.some.injEq, Prod.mk.injEq] at h1
    obtain ⟨rfl, rfl⟩ := h1
    refine ⟨h5 he, ?_⟩
    rcases h4 with ⟨_, _, _, ha⟩ | ⟨_, j, _, _, _, _, _, _, herr⟩
    · exact ha
    · rcases herr with h | ⟨_, h⟩
      · rw [h] at he; cases he
      · exact h
  · intro rcs i f len m m1 r hi hsole hmem hread hn he
    rw [Read_member io f rcs i len m m1 r (by omega) hsole hmem hread, if_pos (Or.inl hn),
      if_pos he, if_pos ⟨he, hi⟩]

end Util
end Sevenzip

namespace Sevenzip
namespace Util

/-- Witness of `multi_concat`: three members, the second itself a
`MultiReadCloser`, read with buffers of four bytes. -/
theorem multi_concat_witness :
    readAll eagerReader 12 (fun _ => 3) 6 0
        (MultiReadCloser [.leaf [1, 2, 3], MultiReadCloser [.leaf [4], .leaf [5]], .leaf []])
      = some (Stream.contents (fun s => s)
          [.leaf [1, 2, 3], MultiReadCloser [.leaf [4], .leaf [5]], .leaf []]) ∧
    (∀ (t : Stream (List Byte)) (len : Nat) (r : ReadResult) (t1 : Stream (List Byte)),
      0 < len → Stream.WF (fun s => s) t → t.need ≤ 12 →
      Stream.Read eagerReader 12 t len = some (r, t1) →
      r.err = some .EOF → t1.Done ∧ Stream.content (fun s => s) t1 = []) ∧
    (∀ (rcs : List (Stream (List Byte))) (i f len : Nat) (m m1 : Stream (List Byte))
      (r : ReadResult),
      i + 1 < rcs.length → soleMulti? rcs = none → rcs[i]? = some m →
      Stream.Read eagerReader f m len = some (r, m1) → 0 < r.n → r.err = some .EOF →
      Stream.Read eagerReader (f + 1) (.multi rcs i) len
        = some (⟨r.data, r.n, none⟩, .multi (rcs.set i m1) (i + 1))) :=
  multi_concat eagerReader (fun s => s) eagerReader_faithful
    [.leaf [1, 2, 3], MultiReadCloser [.leaf [4], .leaf [5]], .leaf []]
    (by
      intro m hm
      simp only [List.mem_cons, List.mem_singleton, List.not_mem_nil, or_false] at hm
      rcases hm with rfl | rfl | rfl <;> simp [Stream.WF, Stream.WFs, MultiReadCloser])
    (fun _ => 3) 12 6 (by decide) (by decide)

end Util
end Sevenzip
